import Mathlib

/-!
# pwned-splitter: a verification development

Shallow embedding of `main.go` (the streaming shard writer and `prefixPath`)
together with the properties proved about it.

Modelling conventions.

* A byte is a natural number (`Byte`); a Go `[]byte` or `string` is a `List Byte`.
  The wildcard `'%'` is the byte 37.
* The Go slice `buf` always starts at offset 0 of its backing array, so it is
  modelled by the backing array `arr` (whose length is the capacity allocated
  at line 57) and the current length `len`.  Bytes of `arr` beyond
  `len` are the stale bytes a Go slice expression can still reach.
* `hashSize` and `bufferSize` are Go `uint` values of 64 bits, held as natural
  numbers below `2 ^ 64`.  The product `*hashSize * *bufferSize` of line 57 wraps
  around at `2 ^ 64` (`Config.capacity`), `make` panics when the result does not
  fit an `int`, and the conversions `int(*hashSize)` and `int(*bufferSize)` are
  two's complement (`toInt`).  An allocation whose length fits an `int` is taken
  to succeed: the limits of the run-time system and of the memory of the
  machine are not modelled.
* Lengths and indices of the buffer are Go `int` values between 0 and the
  capacity, hence below `2 ^ 63`; they are natural numbers, and the arithmetic
  on them does not wrap.
* A slice expression or an index that is out of range is a Go run-time panic;
  it is modelled by `none` and surfaces as `Outcome.panicked`.
* The input stream is a finite list of bytes; reading it fails only at its end.
  Whether a call of `ioutil.WriteFile` succeeds is decided by an arbitrary
  oracle `wok : Nat → Bool` (the answer for the k-th call of the run).
* The loop of `main` is unrolled with fuel; `Outcome.outOfFuel` marks a run that
  has not stopped within the given number of iterations.
* The `--progress` display only prints and is left out.
-/

namespace PwnedSplitter

/-- One byte. -/
abbrev Byte := Nat

/-- The wildcard character `'%'`. -/
def percent : Byte := 37

/-! ## Library functions used by the program -/

/-- Go `bytes.Compare`: lexicographic three-way comparison, `-1`, `0` or `1`. -/
def bytesCompare : List Byte → List Byte → Int
  | [], [] => 0
  | [], _ :: _ => -1
  | _ :: _, [] => 1
  | a :: as, b :: bs =>
    if a < b then -1 else if b < a then 1 else bytesCompare as bs

/-- Go `bytes.IndexByte`: index of the first occurrence of `c`, `none` for `-1`. -/
def indexByte : List Byte → Byte → Option Nat
  | [], _ => none
  | x :: xs, c => if x = c then some 0 else (indexByte xs c).map (· + 1)

/-- Go `strings.Count(s, "%")` for a one-byte pattern. -/
def countByte : List Byte → Byte → Nat
  | [], _ => 0
  | x :: xs, c => (if x = c then 1 else 0) + countByte xs c

/-- The loop of Go `sort.Search`: `i, j` are the current bounds; the predicate
may panic (`none`).  The first argument bounds the number of iterations. -/
def searchLoop (f : Nat → Option Bool) : Nat → Nat → Nat → Option Nat
  | 0, i, _ => some i
  | fuel + 1, i, j =>
    if i < j then
      let h := (i + j) / 2
      match f h with
      | none => none
      | some false => searchLoop f fuel (h + 1) j
      | some true => searchLoop f fuel i h
    else some i

/-- Go `sort.Search(n, f)`.  The interval `[i, j)` at least halves in every
iteration, so `n` iterations are always enough. -/
def sortSearch (n : Nat) (f : Nat → Option Bool) : Option Nat :=
  searchLoop f n 0 n

/-- Go slice expression `a[lo:hi]` on a backing array `a` (capacity `a.length`):
panics unless `lo ≤ hi ≤ cap`. -/
def slice (a : List Byte) (lo hi : Nat) : Option (List Byte) :=
  if lo ≤ hi ∧ hi ≤ a.length then some ((a.drop lo).take (hi - lo)) else none

/-- Go `copy(dst, src)` where `dst` is the window of `a` that starts at offset
`off` and has length `dlen`: `min dlen src.length` bytes are copied. -/
def copyInto (a : List Byte) (off dlen : Nat) (src : List Byte) : List Byte :=
  let k := min dlen src.length
  a.take off ++ src.take k ++ a.drop (off + k)

/-- Error value returned by `io.ReadFull`. -/
inductive ReadErr
  | nil
  | eof
  | unexpectedEOF
  deriving DecidableEq, Repr

/-- Go `io.ReadFull(input, dst)` with `len(dst) = m` on a stream holding `input`:
the bytes read, the error, and the rest of the stream.  With `m = 0` nothing is
read and the error is `nil`; at the end of the stream the error is `EOF` when
no byte was read and `ErrUnexpectedEOF` when some but not all were. -/
def readFull (input : List Byte) (m : Nat) : List Byte × ReadErr × List Byte :=
  if m ≤ input.length then (input.take m, ReadErr.nil, input.drop m)
  else if input.length = 0 then ([], ReadErr.eof, [])
  else (input, ReadErr.unexpectedEOF, [])

/-! ## `prefixPath` -/

/-- The loop of `prefixPath`: for each byte of the prefix, overwrite the first
`'%'` of the working copy `rv`; indexing with `-1` panics. -/
def prefixPathLoop : List Byte → List Byte → Option (List Byte)
  | [], rv => some rv
  | x :: xs, rv =>
    match indexByte rv percent with
    | none => none
    | some k => prefixPathLoop xs (rv.set k x)

/-- The function `prefixPath(prefix, format)`. -/
def prefixPath (pfx : List Byte) (format : List Byte) : Option (List Byte) :=
  prefixPathLoop pfx format

/-! ## The shard writer (`main`) -/

/-- The configuration read from the command line; `hashSize` and `bufferSize`
are the values of `uint` flags, below `2 ^ 64`. -/
structure Config where
  hashSize : Nat
  bufferSize : Nat
  pathFormat : List Byte
  stripPrefix : Bool
  deriving DecidableEq, Repr

/-- The value `path.Join("%%", "%%%")`, the default of `--path`. -/
def defaultPathFormat : List Byte := [37, 37] ++ [47] ++ [37, 37, 37]

/-- The configuration when no option is given. -/
def defaultConfig : Config :=
  { hashSize := 63, bufferSize := 1024, pathFormat := defaultPathFormat, stripPrefix := true }

/-- The assignment `prefixLength := strings.Count(*pathFormat, "%")`. -/
def Config.prefixLength (c : Config) : Nat := countByte c.pathFormat percent

/-- Go `int(x)` for a `uint` value `x` below `2 ^ 64`: the two's complement
reading, negative from `2 ^ 63` on. -/
def toInt (x : Nat) : Int := if x < 2 ^ 63 then (x : Int) else (x : Int) - 2 ^ 64

/-- The length handed to `make` in line 57: the `uint` product
`*hashSize * *bufferSize`, which wraps around at `2 ^ 64`. -/
def Config.capacity (c : Config) : Nat := (c.hashSize * c.bufferSize) % 2 ^ 64

/-- The slice `buf`: backing array and length. -/
structure Buf where
  arr : List Byte
  len : Nat
  deriving DecidableEq, Repr

/-- The bytes the slice `buf` holds. -/
def Buf.window (b : Buf) : List Byte := b.arr.take b.len

/-- One call of `ioutil.WriteFile` that succeeded, with what the iteration
flushed: `pfx` is `buf[:prefixLength]`, `path` the file name, `count` the number
`i` of records flushed, `raw` the bytes `buf[:i*hashSize]` before stripping and
`content` the bytes written. -/
structure Shard where
  pfx : List Byte
  path : List Byte
  count : Nat
  raw : List Byte
  content : List Byte
  deriving DecidableEq, Repr

/-- What a run does that can be observed. -/
inductive Event
  | warn
  | write (s : Shard)
  deriving DecidableEq, Repr

/-- How a run stops. -/
inductive Outcome
  | ok
  | readFailed
  | bufferTooSmall
  | writeFailed
  | panicked
  | outOfFuel
  deriving DecidableEq, Repr

/-- The predicate handed to `sort.Search`:
`bytes.Compare(buf[i*hashSize:i*hashSize+prefixLength], buf[0:prefixLength]) != 0`. -/
def differs (c : Config) (arr : List Byte) (i : Nat) : Option Bool :=
  match slice arr (i * c.hashSize) (i * c.hashSize + c.prefixLength) with
  | none => none
  | some x =>
    match slice arr 0 c.prefixLength with
    | none => none
    | some y => some (bytesCompare x y != 0)

/-- The search of lines 72-74: `sort.Search(len(buf)/int(*hashSize), ...)`.
The length of `buf` is below `2 ^ 63`: when `hashSize` is below `2 ^ 63` too, the
quotient is that of the natural numbers; from `2 ^ 63` on `int(*hashSize)` is
negative, Go's quotient is not positive and `sort.Search` returns 0 without
calling the predicate, as it does for the quotient `0` of the natural numbers
(`recordCount_eq`).  With the result 0 every later product `i*int(*hashSize)`
is 0. -/
def runLength (c : Config) (b : Buf) : Option Nat :=
  sortSearch (b.len / c.hashSize) (differs c b.arr)

/-- The stripping loop of lines 85-87, `k` iterations starting at `n`:
`copy(buf[n*(hashSize-prefixLength):], buf[n*hashSize+prefixLength:(n+1)*hashSize])`.
When `prefixLength > hashSize` the source slice of the first iteration panics,
before the truncated subtraction could matter. -/
def stripLoop (c : Config) (len : Nat) : Nat → Nat → List Byte → Option (List Byte)
  | 0, _, arr => some arr
  | k + 1, n, arr =>
    let off := n * (c.hashSize - c.prefixLength)
    if off ≤ len then
      match slice arr (n * c.hashSize + c.prefixLength) ((n + 1) * c.hashSize) with
      | none => none
      | some src => stripLoop c len k (n + 1) (copyInto arr off (len - off) src)
    else none

/-- The result of one pass through the loop body. -/
inductive Step
  | done (o : Outcome) (evs : List Event)
  | next (b : Buf) (input : List Byte) (evs : List Event)
  deriving DecidableEq, Repr

/-- The events of the divisibility check of lines 66-68,
`len(buf)%int(*hashSize) != 0`; Go's remainder truncates towards zero. -/
def warnEvents (c : Config) (b : Buf) : List Event :=
  if (b.len : Int).tmod (toInt c.hashSize) ≠ 0 then [Event.warn] else []

/-- Lines 95-102: slide the buffer by `i` records and refill it:
`copy(buf, buf[i*hashSize:])`, then `io.ReadFull(input, buf[len(buf)-i*hashSize:])`
and the new length of `buf`. -/
def refill (c : Config) (b : Buf) (arr : List Byte) (i : Nat) (input : List Byte) :
    Option (Buf × List Byte) :=
  if i * c.hashSize ≤ b.len then
    match slice arr (i * c.hashSize) b.len with
    | none => none
    | some rest =>
      let arr1 := copyInto arr 0 b.len rest
      let off := b.len - i * c.hashSize
      let r := readFull input (i * c.hashSize)
      let arr2 := copyInto arr1 off (i * c.hashSize) r.1
      match r.2.1 with
      | ReadErr.nil => some ({ arr := arr2, len := b.len }, r.2.2)
      | _ => some ({ arr := arr2, len := off + r.1.length }, r.2.2)
  else none

/-- The body of the loop of `main` (lines 66-102) on a non-empty buffer;
`w` tells whether the call of `WriteFile` succeeds.  With `hashSize = 0` the
remainder `len(buf) % 0` of line 66 panics.  The test of line 75 compares the
run length with `int(*bufferSize)`, which is negative from `2 ^ 63` on. -/
def iteration (c : Config) (w : Bool) (b : Buf) (input : List Byte) : Step :=
  if c.hashSize = 0 then Step.done Outcome.panicked [] else
  let evs := warnEvents c b
  match runLength c b with
  | none => Step.done Outcome.panicked evs
  | some i =>
    if (i : Int) = toInt c.bufferSize then Step.done Outcome.bufferTooSmall evs
    else
      match slice b.arr 0 c.prefixLength with
      | none => Step.done Outcome.panicked evs
      | some pfx =>
        match prefixPath pfx c.pathFormat with
        | none => Step.done Outcome.panicked evs
        | some path =>
          let stripped :=
            if c.stripPrefix then stripLoop c b.len i 0 b.arr else some b.arr
          match stripped with
          | none => Step.done Outcome.panicked evs
          | some arr1 =>
            let fileLength :=
              if c.stripPrefix then i * c.hashSize - i * c.prefixLength else i * c.hashSize
            match slice arr1 0 fileLength with
            | none => Step.done Outcome.panicked evs
            | some content =>
              if w then
                let sh : Shard :=
                  { pfx := pfx, path := path, count := i,
                    raw := b.arr.take (i * c.hashSize), content := content }
                match refill c b arr1 i input with
                | none => Step.done Outcome.panicked (evs ++ [Event.write sh])
                | some r => Step.next r.1 r.2 (evs ++ [Event.write sh])
              else Step.done Outcome.writeFailed evs

/-- The events of a run and the way it stopped. -/
structure Result where
  events : List Event
  outcome : Outcome
  deriving DecidableEq, Repr

/-- The loop `for len(buf) > 0 { ... }` of `main`, at most `fuel` iterations. -/
def loop (c : Config) : Nat → (Nat → Bool) → Buf → List Byte → Result
  | 0, _, _, _ => { events := [], outcome := Outcome.outOfFuel }
  | fuel + 1, wok, b, input =>
    if b.len = 0 then { events := [], outcome := Outcome.ok }
    else
      match iteration c (wok 0) b input with
      | Step.done o evs => { events := evs, outcome := o }
      | Step.next b1 input1 evs =>
        let r := loop c fuel (fun k => wok (k + 1)) b1 input1
        { events := evs ++ r.events, outcome := r.outcome }

/-- Lines 57-64: allocate the buffer and fill it for the first time; `none`
is the exit with "failed to read". -/
def initBuf (c : Config) (input : List Byte) : Option (Buf × List Byte) :=
  let cap := c.capacity
  let arr := List.replicate cap 0
  let r := readFull input cap
  let arr1 := copyInto arr 0 cap r.1
  match r.2.1 with
  | ReadErr.nil => some ({ arr := arr1, len := cap }, r.2.2)
  | ReadErr.unexpectedEOF => some ({ arr := arr1, len := r.1.length }, r.2.2)
  | ReadErr.eof => none

/-- The program `main` from line 57 on, at most `fuel` loop iterations.  A
length from `2 ^ 63` on does not fit an `int` and `make` panics. -/
def run (c : Config) (fuel : Nat) (wok : Nat → Bool) (input : List Byte) : Result :=
  if 2 ^ 63 ≤ c.capacity then { events := [], outcome := Outcome.panicked }
  else
    match initBuf c input with
    | none => { events := [], outcome := Outcome.readFailed }
    | some (b, rest) => loop c fuel wok b rest

/-- The exit code of the process. -/
def exitCode : Outcome → Option Nat
  | Outcome.ok => some 0
  | Outcome.readFailed => some 1
  | Outcome.bufferTooSmall => some 1
  | Outcome.writeFailed => some 1
  | Outcome.panicked => some 2
  | Outcome.outOfFuel => none

/-- The shards among the events, in order. -/
def shardsOf : List Event → List Shard
  | [] => []
  | Event.warn :: es => shardsOf es
  | Event.write s :: es => s :: shardsOf es

/-- The files written by a run, in the order they were written. -/
def Result.shards (r : Result) : List Shard := shardsOf r.events

/-! ## Vocabulary of the specification -/

/-- The first `n` records of `hashSize = h` bytes each of a byte sequence. -/
def chunk (h : Nat) : Nat → List Byte → List (List Byte)
  | 0, _ => []
  | n + 1, l => l.take h :: chunk h n (l.drop h)

/-- The whole records of a byte sequence. -/
def records (h : Nat) (l : List Byte) : List (List Byte) :=
  chunk h (l.length / h) l

/-- The byte sequence with the first `p` bytes of every record removed. -/
def stripAll (h p : Nat) (l : List Byte) : List Byte :=
  ((records h l).map (List.drop p)).flatten

/-- The records are in ascending byte order. -/
def SortedRecords (h : Nat) (l : List Byte) : Prop :=
  (records h l).Pairwise (fun a b => bytesCompare a b ≤ 0)

/-- Bytes of a string literal of ASCII characters. -/
def ascii (s : String) : List Byte := s.toList.map Char.toNat

/-- The path the specification describes: the template with its k-th `'%'`
from the left replaced by the k-th byte of the prefix, everything else
unchanged. -/
def substitute : List Byte → List Byte → List Byte
  | [], _ => []
  | c :: cs, [] => c :: cs
  | c :: cs, x :: xs =>
    if c = percent then x :: substitute cs xs else c :: substitute cs (x :: xs)

/-- The prefix of record `m` of a byte sequence: its bytes
`[m*hashSize, m*hashSize+prefixLength)`. -/
def recPrefix (c : Config) (l : List Byte) (m : Nat) : List Byte :=
  (l.drop (m * c.hashSize)).take c.prefixLength

/-- The bytes an iteration that flushes the records `raw` hands to `WriteFile`,
as the specification describes them. -/
def written (c : Config) (raw : List Byte) : List Byte :=
  if c.stripPrefix then stripAll c.hashSize c.prefixLength raw else raw

/-- The shard an iteration writes when it flushes `i` records of the buffer `b`
to `path`, as the specification describes it. -/
def shardAt (c : Config) (b : Buf) (i : Nat) (path : List Byte) : Shard :=
  { pfx := b.arr.take c.prefixLength, path := path, count := i,
    raw := b.arr.take (i * c.hashSize), content := written c (b.arr.take (i * c.hashSize)) }

/-- The state of the loop is well formed, in a configuration whose product
`hashSize * bufferSize` fits an `int` (it does not wrap around and can be
allocated): the backing array has the capacity allocated at line 57, the slice
lies inside it, and the slice is shorter than the capacity only when the stream
is exhausted. -/
def Fits (c : Config) (b : Buf) (input : List Byte) : Prop :=
  b.arr.length = c.hashSize * c.bufferSize ∧ b.len ≤ b.arr.length ∧
    (b.len < c.hashSize * c.bufferSize → input = []) ∧
    c.hashSize * c.bufferSize < 2 ^ 63

/-- The state of the loop is well formed, whatever the capacity: the slice
lies inside its backing array, and it is shorter than the array only when the
stream is exhausted. -/
def Filled (b : Buf) (input : List Byte) : Prop :=
  b.len ≤ b.arr.length ∧ (b.len < b.arr.length → input = [])

/-- The prefixes of the whole records of a byte sequence are in ascending
order. -/
def PrefixSorted (c : Config) (l : List Byte) : Prop :=
  ∀ a b, a ≤ b → b < l.length / c.hashSize →
    bytesCompare (recPrefix c l a) (recPrefix c l b) ≤ 0

/-- The events of one pass through the loop body. -/
def Step.events : Step → List Event
  | Step.done _ evs => evs
  | Step.next _ _ evs => evs

/-- The byte sequence contains a run of at least `bufferSize` consecutive
records that share one prefix. -/
def LongRun (c : Config) (l : List Byte) : Prop :=
  ∃ s, s + c.bufferSize ≤ l.length / c.hashSize ∧
    ∀ k, k < c.bufferSize → recPrefix c l (s + k) = recPrefix c l s

/-- A linear scan over the records `i, i+1, ...` (at most `k` of them) for the
first one whose prefix differs from the prefix of record 0. -/
def scanFrom (c : Config) (w : List Byte) : Nat → Nat → Nat
  | 0, i => i
  | k + 1, i => if recPrefix c w i ≠ recPrefix c w 0 then i else scanFrom c w k (i + 1)

/-- The run length the specification asks for: the index of the first whole
record of `w` whose prefix differs from that of record 0, or the number of
whole records when there is none. -/
def linearScan (c : Config) (w : List Byte) : Nat :=
  scanFrom c w (w.length / c.hashSize) 0

/-! ## Concrete data for the examples -/

/-- The oracle under which every write succeeds. -/
def allOk : Nat → Bool := fun _ => true

/-- The scenario of the specification: records of four bytes, a one-byte
prefix, a buffer of three records. -/
def demoConfig : Config :=
  { hashSize := 4, bufferSize := 3, pathFormat := ascii "%", stripPrefix := true }

/-- The four records `aaaa aaab bbaa bbab` of the scenario. -/
def demoInput : List Byte := ascii "aaaaaaabbbaabbab"

/-- A configuration whose buffer holds a single record of two bytes. -/
def tinyConfig : Config :=
  { hashSize := 2, bufferSize := 1, pathFormat := ascii "%", stripPrefix := true }

/-- Records of two bytes, a one-byte prefix, a buffer of two records. -/
def pairConfig : Config :=
  { hashSize := 2, bufferSize := 2, pathFormat := ascii "%", stripPrefix := true }

/-- Records of two bytes and `--buffer-size 9223372036854775808`: the product
`2 * 2 ^ 63` wraps around to the capacity 0. -/
def wrapZeroConfig : Config :=
  { hashSize := 2, bufferSize := 2 ^ 63, pathFormat := ascii "%", stripPrefix := true }

/-- Records of two bytes and `--buffer-size 9223372036854775809`: the product
wraps around to the capacity 2 and `int(*bufferSize)` is negative. -/
def wrapOneConfig : Config :=
  { hashSize := 2, bufferSize := 2 ^ 63 + 1, pathFormat := ascii "%", stripPrefix := true }

/-- Records of three bytes and `--buffer-size 6148914691236517206`: the product
wraps around to the capacity 2, less than one record. -/
def wrapShortConfig : Config :=
  { hashSize := 3, bufferSize := 6148914691236517206, pathFormat := ascii "%",
    stripPrefix := true }

/-- A stream of `2 ^ 64` bytes `a`: `2 ^ 63` equal records of two bytes. -/
def hugeInput : List Byte := List.replicate (2 ^ 64) 97

/-- The first file of the scenario: the records `aaaa aaab`, written without
their prefix to the path `a`. -/
def demoShard : Shard :=
  { pfx := ascii "a", path := ascii "a", count := 2, raw := ascii "aaaaaaab",
    content := ascii "aaaaab" }

/-- The buffer of the first iteration of the scenario: three records. -/
def demoBuf : Buf := { arr := ascii "aaaaaaabbbaa", len := 12 }

/-! ## The states of the loop -/

/-- The number of input bytes of the records that the events of one iteration
flush. -/
def flushedBytes (c : Config) (evs : List Event) : Nat :=
  ((shardsOf evs).map (fun s => s.count * c.hashSize)).sum

/-- The loop of `main` once more, recording what it finds at the top of every
iteration (each evaluation of `len(buf) > 0`): the number `F` of input bytes of
the records flushed so far, and the buffer. -/
def topStates (c : Config) : Nat → (Nat → Bool) → Nat → Buf → List Byte → List (Nat × Buf)
  | 0, _, _, _, _ => []
  | fuel + 1, wok, F, b, input =>
    (F, b) ::
      (if b.len = 0 then []
      else
        match iteration c (wok 0) b input with
        | Step.done _ _ => []
        | Step.next b1 input1 evs =>
          topStates c fuel (fun k => wok (k + 1)) (F + flushedBytes c evs) b1 input1)

/-- The states at the top of the loop iterations of a run of the program. -/
def runStates (c : Config) (fuel : Nat) (wok : Nat → Bool) (input : List Byte) :
    List (Nat × Buf) :=
  if 2 ^ 63 ≤ c.capacity then []
  else
    match initBuf c input with
    | none => []
    | some (b, rest) => topStates c fuel wok 0 b rest

/-- The buffer of the second iteration of the scenario: the records `bbaa bbab`,
followed by stale bytes. -/
def demoBuf2 : Buf := { arr := ascii "bbaabbabbbaa", len := 8 }

/-! ## Machine integers -/

theorem toInt_of_lt (x : Nat) (h : x < 2 ^ 63) : toInt x = (x : Int) := by
  unfold toInt
  rw [if_pos h]

theorem toInt_neg (x : Nat) (h : 2 ^ 63 ≤ x) (h2 : x < 2 ^ 64) : toInt x < 0 := by
  unfold toInt
  rw [if_neg (by omega)]
  omega

/-- The test `i == int(*bufferSize)` of line 75 on a run length `i`. -/
theorem eq_toInt_iff (i x : Nat) (h : x < 2 ^ 63) : ((i : Int) = toInt x) ↔ i = x := by
  rw [toInt_of_lt x h]
  omega

/-- A product below `2 ^ 64` does not wrap around. -/
theorem capacity_eq (c : Config) (h : c.hashSize * c.bufferSize < 2 ^ 64) :
    c.capacity = c.hashSize * c.bufferSize := by
  unfold Config.capacity
  exact Nat.mod_eq_of_lt h

theorem capacity_le (c : Config) : c.capacity ≤ c.hashSize * c.bufferSize := by
  unfold Config.capacity
  exact Nat.mod_le _ _

/-- With a positive `int(*hashSize)` the check of line 66 is the remainder of
the natural numbers. -/
theorem warnEvents_eq (c : Config) (b : Buf) (h : c.hashSize < 2 ^ 63) :
    warnEvents c b = if b.len % c.hashSize ≠ 0 then [Event.warn] else [] := by
  unfold warnEvents
  rw [toInt_of_lt _ h, ← Int.ofNat_tmod]
  by_cases h0 : b.len % c.hashSize = 0
  · rw [h0, if_neg (by simp), if_neg (by simp)]
  · have h1 : ((b.len % c.hashSize : Nat) : Int) ≠ 0 := fun e => h0 (Int.ofNat_eq_zero.mp e)
    rw [if_pos h1, if_pos h0]

/-- The number of records handed to `sort.Search`, computed with Go's truncated
quotient `len(buf)/int(*hashSize)` (a result that is not positive behaves like
0), is the quotient of the natural numbers for every buffer length that fits an
`int`. -/
theorem recordCount_eq (len h : Nat) (hlen : len < 2 ^ 63) (hh : h < 2 ^ 64) :
    ((len : Int).tdiv (toInt h)).toNat = len / h := by
  by_cases h1 : h < 2 ^ 63
  · rw [toInt_of_lt h h1, ← Int.ofNat_tdiv]
    exact Int.toNat_ofNat _
  · have hneg := toInt_neg h (by omega) hh
    have hz : len / h = 0 := Nat.div_eq_of_lt (by omega)
    rw [hz]
    have hle : (len : Int).tdiv (toInt h) ≤ 0 := by
      obtain ⟨k, hk⟩ := Int.exists_eq_neg_ofNat (le_of_lt hneg)
      rw [hk, Int.tdiv_neg, ← Int.ofNat_tdiv]
      exact Int.neg_nonpos_of_nonneg (Int.ofNat_nonneg _)
    omega

/-- A buffer of whole records whose length fits an `int` passes the check of
line 66. -/
theorem warnEvents_dvd (c : Config) (b : Buf) (hd : c.hashSize ∣ b.len)
    (hlen : b.len < 2 ^ 63) : warnEvents c b = [] := by
  by_cases h0 : b.len = 0
  · unfold warnEvents
    rw [h0]
    simp
  · have hle : c.hashSize ≤ b.len := Nat.le_of_dvd (by omega) hd
    rw [warnEvents_eq c b (by omega), if_neg (by simp [Nat.mod_eq_zero_of_dvd hd])]

/-! ## Auxiliary lemmas -/

/-! ### bytesCompare -/
theorem bytesCompare_self (a : List Byte) : bytesCompare a a = 0 := by
  induction a with
  | nil => rfl
  | cons x xs ih => simp [bytesCompare, ih]

theorem bytesCompare_eq_zero : ∀ (a b : List Byte), bytesCompare a b = 0 → a = b
  | [], [], _ => rfl
  | [], _ :: _, h => by simp [bytesCompare] at h
  | _ :: _, [], h => by simp [bytesCompare] at h
  | x :: xs, y :: ys, h => by
    simp only [bytesCompare] at h
    unfold Byte at *
    by_cases h1 : x < y
    · simp [h1] at h
    · by_cases h2 : y < x
      · simp [h1, h2] at h
      · simp only [h1, h2, if_false] at h
        have hxy : x = y := by omega
        rw [hxy, bytesCompare_eq_zero xs ys h]

theorem bytesCompare_ne_zero_iff (a b : List Byte) : (bytesCompare a b != 0) = true ↔ a ≠ b := by
  constructor
  · intro h e
    subst e
    simp [bytesCompare_self] at h
  · intro h
    simp only [bne_iff_ne, ne_eq]
    exact fun e => h (bytesCompare_eq_zero a b e)

theorem bytesCompare_antisymm : ∀ (a b : List Byte), bytesCompare a b ≤ 0 → bytesCompare b a ≤ 0 → a = b
  | [], [], _, _ => rfl
  | [], _ :: _, _, h => by simp [bytesCompare] at h
  | _ :: _, [], h, _ => by simp [bytesCompare] at h
  | x :: xs, y :: ys, h1, h2 => by
    simp only [bytesCompare] at h1 h2
    unfold Byte at *
    by_cases h3 : x < y
    · have h4 : ¬ y < x := by omega
      simp [h3, h4] at h2
    · by_cases h4 : y < x
      · simp [h3, h4] at h1
      · simp only [h3, h4, if_false] at h1 h2
        have hxy : x = y := by omega
        rw [hxy, bytesCompare_antisymm xs ys h1 h2]

theorem bytesCompare_trans : ∀ (a b c : List Byte), bytesCompare a b ≤ 0 → bytesCompare b c ≤ 0 →
    bytesCompare a c ≤ 0
  | [], [], _, _, h => h
  | [], _ :: _, [], _, _ => by simp [bytesCompare]
  | [], _ :: _, _ :: _, _, _ => by simp [bytesCompare]
  | _ :: _, [], _, h, _ => by simp [bytesCompare] at h
  | _ :: _, _ :: _, [], _, h => by simp [bytesCompare] at h
  | x :: xs, y :: ys, z :: zs, h1, h2 => by
    simp only [bytesCompare] at h1 h2 ⊢
    unfold Byte at *
    by_cases hxy : x < y
    · by_cases hyz : y < z
      · have : x < z := by omega
        simp [this]
      · by_cases hzy : z < y
        · simp [hyz, hzy] at h2
        · have : x < z := by omega
          simp [this]
    · by_cases hyx : y < x
      · simp [hxy, hyx] at h1
      · simp only [hxy, hyx, if_false] at h1
        have e : x = y := by omega
        subst e
        by_cases hyz : x < z
        · simp [hyz]
        · by_cases hzy : z < x
          · simp [hyz, hzy] at h2
          · simp only [hyz, hzy, if_false] at h2 ⊢
            exact bytesCompare_trans xs ys zs h1 h2

theorem bytesCompare_take : ∀ (p : Nat) (a b : List Byte), bytesCompare a b ≤ 0 →
    bytesCompare (a.take p) (b.take p) ≤ 0
  | 0, _, _, _ => by simp [bytesCompare]
  | _ + 1, [], [], _ => by simp [bytesCompare]
  | _ + 1, [], _ :: _, _ => by simp [bytesCompare]
  | _ + 1, _ :: _, [], h => by simp [bytesCompare] at h
  | p + 1, x :: xs, y :: ys, h => by
    simp only [bytesCompare, List.take_succ_cons] at h ⊢
    unfold Byte at *
    by_cases hxy : x < y
    · simp [hxy]
    · by_cases hyx : y < x
      · simp [hxy, hyx] at h
      · simp only [hxy, hyx, if_false] at h ⊢
        exact bytesCompare_take p xs ys h

/-! ### sort.Search -/

/-- The loop of `sort.Search` with a predicate that does not panic on `[i, j)`:
it returns, and the index it returns is bracketed by a `false` on its left and a
`true` on its right. -/
theorem searchLoop_spec (f : Nat → Option Bool) (g : Nat → Bool) (n : Nat)
    (hf : ∀ m, m < n → f m = some (g m)) :
    ∀ (fuel i j : Nat), i ≤ j → j ≤ n → j - i ≤ fuel →
      ∃ r, searchLoop f fuel i j = some r ∧ i ≤ r ∧ r ≤ j ∧
        (i < r → g (r - 1) = false) ∧ (r < j → g r = true) := by
  intro fuel
  induction fuel with
  | zero =>
    intro i j hij _ hfuel
    refine ⟨i, rfl, le_refl _, hij, fun h => absurd h (lt_irrefl _), fun h => ?_⟩
    omega
  | succ fuel ih =>
    intro i j hij hjn hfuel
    by_cases hlt : i < j
    · have hm : (i + j) / 2 < n := by omega
      simp only [searchLoop, hlt, if_true, hf _ hm]
      cases hg : g ((i + j) / 2) with
      | false =>
        obtain ⟨r, hr, h1, h2, h3, h4⟩ := ih ((i + j) / 2 + 1) j (by omega) hjn (by omega)
        refine ⟨r, hr, by omega, h2, fun _ => ?_, h4⟩
        by_cases hr1 : (i + j) / 2 + 1 < r
        · exact h3 hr1
        · have : r - 1 = (i + j) / 2 := by omega
          rw [this, hg]
      | true =>
        obtain ⟨r, hr, h1, h2, h3, h4⟩ := ih i ((i + j) / 2) (by omega) (by omega) (by omega)
        refine ⟨r, hr, h1, by omega, h3, fun _ => ?_⟩
        by_cases hr1 : r < (i + j) / 2
        · exact h4 hr1
        · have : r = (i + j) / 2 := by omega
          rw [this, hg]
    · refine ⟨i, by simp [searchLoop, hlt], le_refl _, hij, fun h => absurd h (lt_irrefl _), fun h => ?_⟩
      omega

theorem sortSearch_spec (f : Nat → Option Bool) (g : Nat → Bool) (n : Nat)
    (hf : ∀ m, m < n → f m = some (g m)) :
    ∃ r, sortSearch n f = some r ∧ r ≤ n ∧
      (0 < r → g (r - 1) = false) ∧ (r < n → g r = true) := by
  obtain ⟨r, hr, _, h2, h3, h4⟩ := searchLoop_spec f g n hf n 0 n (Nat.zero_le _) (le_refl _) (by omega)
  exact ⟨r, hr, h2, h3, h4⟩

/-- The search only looks at indices below `n`. -/
theorem searchLoop_congr (f f2 : Nat → Option Bool) (n : Nat)
    (hf : ∀ m, m < n → f m = f2 m) :
    ∀ (fuel i j : Nat), j ≤ n → searchLoop f fuel i j = searchLoop f2 fuel i j := by
  intro fuel
  induction fuel with
  | zero => intro i j _; rfl
  | succ fuel ih =>
    intro i j hjn
    by_cases hlt : i < j
    · have hm : (i + j) / 2 < n := by omega
      simp only [searchLoop, hlt, if_true, hf _ hm]
      cases f2 ((i + j) / 2) with
      | none => rfl
      | some v =>
        cases v with
        | false => exact ih _ _ hjn
        | true => exact ih _ _ (by omega)
    · simp [searchLoop, hlt]

theorem sortSearch_congr (f f2 : Nat → Option Bool) (n : Nat)
    (hf : ∀ m, m < n → f m = f2 m) : sortSearch n f = sortSearch n f2 :=
  searchLoop_congr f f2 n hf n 0 n (le_refl _)

/-- With a monotone predicate the bracketing pins the result down: everything
before it is `false`, everything from it on is `true`. -/
theorem sortSearch_mono (f : Nat → Option Bool) (g : Nat → Bool) (n : Nat)
    (hf : ∀ m, m < n → f m = some (g m))
    (hmono : ∀ a b, a ≤ b → b < n → g a = true → g b = true) :
    ∃ r, sortSearch n f = some r ∧ r ≤ n ∧
      (∀ m, m < r → g m = false) ∧ (∀ m, r ≤ m → m < n → g m = true) := by
  obtain ⟨r, hr, h2, h3, h4⟩ := sortSearch_spec f g n hf
  refine ⟨r, hr, h2, fun m hm => ?_, fun m hm hmn => ?_⟩
  · cases hg : g m with
    | false => rfl
    | true =>
      have := hmono m (r - 1) (by omega) (by omega) hg
      rw [h3 (by omega)] at this
      exact absurd this (by simp)
  · exact hmono r m hm hmn (h4 (by omega))

/-! ### prefixPath -/

theorem indexByte_of_count_pos : ∀ (l : List Byte) (c : Byte), 0 < countByte l c →
    ∃ k, indexByte l c = some k ∧ k < l.length
  | [], _, h => by simp [countByte] at h
  | x :: xs, c, h => by
    by_cases hx : x = c
    · exact ⟨0, by simp [indexByte, hx], by simp⟩
    · simp only [countByte, hx, if_false, Nat.zero_add] at h
      obtain ⟨k, hk, hlt⟩ := indexByte_of_count_pos xs c h
      exact ⟨k + 1, by simp [indexByte, hx, hk], by simp; omega⟩

theorem countByte_set_of_index : ∀ (l : List Byte) (c x : Byte) (k : Nat),
    indexByte l c = some k → countByte l c ≤ countByte (l.set k x) c + 1
  | [], _, _, _, h => by simp [indexByte] at h
  | y :: ys, c, x, k, h => by
    by_cases hy : y = c
    · simp only [indexByte, hy, if_true, Option.some.injEq] at h
      subst h
      simp only [List.set_cons_zero, countByte, hy, if_true]
      split_ifs <;> omega
    · simp only [indexByte, hy, if_false, Option.map_eq_some'] at h
      obtain ⟨k2, hk2, rfl⟩ := h
      have := countByte_set_of_index ys c x k2 hk2
      simp only [List.set_cons_succ, countByte, hy, if_false]
      omega

/-- The loop of `prefixPath` never indexes with `-1` when the prefix is not
longer than the number of wildcards, and keeps the length of the template. -/
theorem prefixPathLoop_some : ∀ (pfx rv : List Byte), pfx.length ≤ countByte rv percent →
    ∃ path, prefixPathLoop pfx rv = some path ∧ path.length = rv.length
  | [], rv, _ => ⟨rv, rfl, rfl⟩
  | x :: xs, rv, h => by
    obtain ⟨k, hk, _⟩ := indexByte_of_count_pos rv percent
      (by simp only [List.length_cons] at h; omega)
    have hc := countByte_set_of_index rv percent x k hk
    obtain ⟨path, hp, hl⟩ := prefixPathLoop_some xs (rv.set k x)
      (by simp only [List.length_cons] at h; omega)
    exact ⟨path, by simp [prefixPathLoop, hk, hp], by simpa using hl⟩

theorem prefixPathLoop_cons_other : ∀ (pfx cs : List Byte) (c : Byte), c ≠ percent →
    prefixPathLoop pfx (c :: cs) = (prefixPathLoop pfx cs).map (fun r => c :: r)
  | [], _, _, _ => rfl
  | x :: xs, cs, c, hc => by
    simp only [prefixPathLoop, indexByte, hc, if_false]
    cases hi : indexByte cs percent with
    | none => rfl
    | some k =>
      simp only [Option.map_some', List.set_cons_succ]
      exact prefixPathLoop_cons_other xs (cs.set k x) c hc

theorem prefixPathLoop_substitute : ∀ (fmt pfx : List Byte),
    pfx.length ≤ countByte fmt percent → (∀ x, x ∈ pfx → x ≠ percent) →
    prefixPathLoop pfx fmt = some (substitute fmt pfx)
  | [], [], _, _ => rfl
  | [], _ :: _, h, _ => by simp [countByte] at h
  | c :: cs, [], _, _ => rfl
  | c :: cs, x :: xs, h, hno => by
    by_cases hc : c = percent
    · subst hc
      have hx : x ≠ percent := hno x (by simp)
      have h2 : xs.length ≤ countByte cs percent := by
        simp only [countByte, if_true, List.length_cons] at h; omega
      have ih := prefixPathLoop_substitute cs xs h2 (fun y hy => hno y (by simp [hy]))
      simp only [prefixPathLoop, indexByte, if_true, List.set_cons_zero, substitute]
      rw [prefixPathLoop_cons_other xs cs x hx, ih]
      rfl
    · have h2 : (x :: xs).length ≤ countByte cs percent := by
        simp only [countByte, hc, if_false, Nat.zero_add] at h; exact h
      have ih := prefixPathLoop_substitute cs (x :: xs) h2 hno
      rw [prefixPathLoop_cons_other (x :: xs) cs c hc, ih]
      simp [substitute, hc]

theorem prefixPathLoop_append : ∀ (a b rv : List Byte),
    prefixPathLoop (a ++ b) rv = (prefixPathLoop a rv).bind (fun rv2 => prefixPathLoop b rv2)
  | [], _, _ => rfl
  | x :: xs, b, rv => by
    simp only [List.cons_append, prefixPathLoop]
    cases indexByte rv percent with
    | none => rfl
    | some k => exact prefixPathLoop_append xs b (rv.set k x)

theorem set_indexByte_self : ∀ (l : List Byte) (c : Byte) (k : Nat),
    indexByte l c = some k → l.set k c = l
  | [], _, _, h => by simp [indexByte] at h
  | y :: ys, c, k, h => by
    by_cases hy : y = c
    · simp only [indexByte, hy, if_true, Option.some.injEq] at h
      subst h
      simp [hy]
    · simp only [indexByte, hy, if_false, Option.map_eq_some'] at h
      obtain ⟨k2, hk2, rfl⟩ := h
      simp [set_indexByte_self ys c k2 hk2]

/-- Writing `'%'` bytes over wildcards changes nothing. -/
theorem prefixPathLoop_percents : ∀ (r rv : List Byte), (∀ x, x ∈ r → x = percent) →
    r.length ≤ countByte rv percent → prefixPathLoop r rv = some rv
  | [], _, _, _ => rfl
  | x :: xs, rv, hall, hlen => by
    obtain ⟨k, hk, _⟩ := indexByte_of_count_pos rv percent
      (by simp only [List.length_cons] at hlen; omega)
    have hx : x = percent := hall x (by simp)
    subst hx
    simp only [prefixPathLoop, hk, set_indexByte_self rv percent k hk]
    exact prefixPathLoop_percents xs rv (fun y hy => hall y (by simp [hy]))
      (by simp only [List.length_cons] at hlen; omega)

theorem substitute_nil (l : List Byte) : substitute l [] = l := by
  cases l <;> rfl

theorem substitute_append_percents : ∀ (fmt q r : List Byte), (∀ x, x ∈ r → x = percent) →
    substitute fmt (q ++ r) = substitute fmt q
  | [], _, _, _ => rfl
  | c :: cs, [], [], _ => rfl
  | c :: cs, [], x :: xs, hall => by
    have hx : x = percent := hall x (by simp)
    have ih := substitute_append_percents cs [] xs (fun y hy => hall y (by simp [hy]))
    have ih2 := substitute_append_percents cs [] (x :: xs) hall
    simp only [List.nil_append, substitute_nil] at ih ih2
    simp only [List.nil_append, substitute]
    split_ifs with hc
    · rw [ih, hx, hc]
    · rw [ih2]
  | c :: cs, y :: ys, r, hall => by
    simp only [List.cons_append, substitute]
    split_ifs with hc
    · exact congrArg (fun l => y :: l) (substitute_append_percents cs ys r hall)
    · exact congrArg (fun l => c :: l) (substitute_append_percents cs (y :: ys) r hall)

theorem countByte_substitute : ∀ (fmt q : List Byte), (∀ x, x ∈ q → x ≠ percent) →
    q.length ≤ countByte fmt percent →
    countByte (substitute fmt q) percent = countByte fmt percent - q.length
  | [], [], _, _ => rfl
  | [], _ :: _, _, h => by simp [countByte] at h
  | c :: cs, [], _, _ => by simp [substitute]
  | c :: cs, y :: ys, hno, h => by
    have hy : y ≠ percent := hno y (by simp)
    by_cases hc : c = percent
    · have h2 : ys.length ≤ countByte cs percent := by
        simp only [countByte, hc, if_true, List.length_cons] at h; omega
      have ih := countByte_substitute cs ys (fun x hx => hno x (by simp [hx])) h2
      simp only [substitute, hc, if_true, countByte, hy, if_false, ih, List.length_cons]
      omega
    · have h2 : (y :: ys).length ≤ countByte cs percent := by
        simp only [countByte, hc, if_false, Nat.zero_add] at h; exact h
      have ih := countByte_substitute cs (y :: ys) hno h2
      simp only [substitute, hc, if_false, countByte, ih, Nat.zero_add]

/-- The loop of `prefixPath` performs the positional substitution whenever no
`'%'` byte of the prefix is followed by another byte. -/
theorem prefixPathLoop_substitute_tail (fmt pfx : List Byte)
    (hlen : pfx.length ≤ countByte fmt percent)
    (hno : ∀ x, x ∈ pfx.dropWhile (fun y => decide (y ≠ percent)) → x = percent) :
    prefixPathLoop pfx fmt = some (substitute fmt pfx) := by
  have hsplit := List.takeWhile_append_dropWhile (fun y => decide (y ≠ percent)) pfx
  have hq : ∀ x, x ∈ pfx.takeWhile (fun y => decide (y ≠ percent)) → x ≠ percent := by
    intro x hx
    have := List.mem_takeWhile_imp hx
    simpa using this
  have hl : (pfx.takeWhile (fun y => decide (y ≠ percent))).length +
      (pfx.dropWhile (fun y => decide (y ≠ percent))).length = pfx.length := by
    rw [← List.length_append, hsplit]
  rw [← hsplit, prefixPathLoop_append,
    prefixPathLoop_substitute fmt _ (by omega) hq, Option.some_bind,
    substitute_append_percents _ _ _ hno]
  apply prefixPathLoop_percents _ _ hno
  rw [countByte_substitute fmt _ hq (by omega)]
  omega

/-! ### Slices, copies and records -/

theorem slice_eq (a : List Byte) (lo hi : Nat) (h1 : lo ≤ hi) (h2 : hi ≤ a.length) :
    slice a lo hi = some ((a.drop lo).take (hi - lo)) := by
  simp [slice, h1, h2]

theorem slice_zero (a : List Byte) (hi : Nat) (h2 : hi ≤ a.length) :
    slice a 0 hi = some (a.take hi) := by
  simp [slice, h2]

theorem copyInto_length (a : List Byte) (off dlen : Nat) (src : List Byte)
    (h : off + min dlen src.length ≤ a.length) :
    (copyInto a off dlen src).length = a.length := by
  simp only [copyInto, List.length_append, List.length_take, List.length_drop]
  omega

theorem chunk_length (h : Nat) : ∀ (n : Nat) (l : List Byte), (chunk h n l).length = n
  | 0, _ => rfl
  | n + 1, l => by simp [chunk, chunk_length h n]

theorem chunk_getElem? (h : Nat) : ∀ (n m : Nat) (l : List Byte), m < n →
    (chunk h n l)[m]? = some ((l.drop (m * h)).take h)
  | 0, _, _, hm => by omega
  | n + 1, 0, l, _ => by simp [chunk]
  | n + 1, m + 1, l, hm => by
    simp only [chunk, List.getElem?_cons_succ]
    rw [chunk_getElem? h n m (l.drop h) (by omega), List.drop_drop]
    congr 3
    ring

theorem chunk_take (h : Nat) : ∀ (n m : Nat) (l : List Byte), n * h ≤ m →
    chunk h n (l.take m) = chunk h n l
  | 0, _, _, _ => rfl
  | n + 1, m, l, hm => by
    have h1 : h ≤ m := by
      have : (n + 1) * h = n * h + h := by ring
      omega
    simp only [chunk]
    rw [List.take_take, Nat.min_eq_left h1, List.drop_take, chunk_take h n (m - h) (l.drop h)]
    have : (n + 1) * h = n * h + h := by ring
    omega

theorem chunk_append (h : Nat) : ∀ (n m : Nat) (a b : List Byte), a.length = n * h →
    chunk h (n + m) (a ++ b) = chunk h n a ++ chunk h m b
  | 0, m, a, b, ha => by
    have : a = [] := List.length_eq_zero.mp (by simpa using ha)
    subst this
    simp [chunk]
  | n + 1, m, a, b, ha => by
    have e : (n + 1) * h = n * h + h := by ring
    have e2 : n + 1 + m = (n + m) + 1 := by ring
    have hle : h ≤ a.length := by omega
    rw [e2]
    simp only [chunk]
    rw [List.take_append_of_le_length hle, List.drop_append_of_le_length hle,
      chunk_append h n m (a.drop h) b (by simp; omega)]
    rfl

theorem chunk_flatten (h : Nat) : ∀ (n : Nat) (l : List Byte), n * h ≤ l.length →
    (chunk h n l).flatten = l.take (n * h)
  | 0, l, _ => by simp [chunk]
  | n + 1, l, hl => by
    have e : (n + 1) * h = h + n * h := by ring
    simp only [chunk, List.flatten_cons]
    rw [chunk_flatten h n (l.drop h) (by simp; omega), e, List.take_add]

theorem mem_chunk_length (h : Nat) : ∀ (n : Nat) (l : List Byte), n * h ≤ l.length →
    ∀ r, r ∈ chunk h n l → r.length = h
  | 0, _, _, r, hr => by simp [chunk] at hr
  | n + 1, l, hl, r, hr => by
    have e : (n + 1) * h = n * h + h := by ring
    simp only [chunk, List.mem_cons] at hr
    rcases hr with rfl | hr
    · simp; omega
    · exact mem_chunk_length h n (l.drop h) (by simp; omega) r hr

theorem records_of_length (h n : Nat) (l : List Byte) (hh : 1 ≤ h) (hl : l.length = n * h) :
    records h l = chunk h n l := by
  unfold records
  rw [hl, Nat.mul_div_cancel _ (by omega)]

theorem records_append (h n : Nat) (a b : List Byte) (hh : 1 ≤ h) (ha : a.length = n * h) :
    records h (a ++ b) = records h a ++ records h b := by
  rw [records_of_length h n a hh ha]
  unfold records
  have : (a ++ b).length / h = n + b.length / h := by
    rw [List.length_append, ha, Nat.add_comm, Nat.add_mul_div_right _ _ (by omega), Nat.add_comm]
  rw [this, chunk_append h n _ a b ha]

theorem stripAll_append (h p n : Nat) (a b : List Byte) (hh : 1 ≤ h) (ha : a.length = n * h) :
    stripAll h p (a ++ b) = stripAll h p a ++ stripAll h p b := by
  simp [stripAll, records_append h n a b hh ha]

theorem records_take (h i : Nat) (l : List Byte) (hh : 1 ≤ h) (hl : i * h ≤ l.length) :
    records h (l.take (i * h)) = chunk h i l := by
  rw [records_of_length h i _ hh (by simp; omega), chunk_take h i (i * h) l (le_refl _)]

theorem length_strip_chunk (h p : Nat) : ∀ (n : Nat) (l : List Byte), n * h ≤ l.length →
    (((chunk h n l).map (List.drop p)).flatten).length = n * (h - p)
  | 0, _, _ => by simp [chunk]
  | n + 1, l, hl => by
    have e : (n + 1) * h = n * h + h := by ring
    have e2 : (n + 1) * (h - p) = n * (h - p) + (h - p) := by ring
    simp only [chunk, List.map_cons, List.flatten_cons, List.length_append, List.length_drop,
      List.length_take]
    rw [length_strip_chunk h p n (l.drop h) (by simp; omega), e2]
    omega

/-! ### The stripping loop -/

theorem drop_append_ge (s t : List Byte) (n : Nat) (h : s.length ≤ n) :
    (s ++ t).drop n = t.drop (n - s.length) := by
  rw [List.drop_append_eq_append_drop, List.drop_of_length_le h, List.nil_append]

theorem take_append_len (s t : List Byte) (n : Nat) (h : n = s.length) :
    (s ++ t).take n = s := by
  subst h
  simp

/-- Invariant of the stripping loop: after `n` iterations the array is the `n`
stripped records followed by the untouched original from offset
`n * (hashSize - prefixLength)` on. -/
theorem stripLoop_spec (c : Config) (len : Nat) (arr0 : List Byte)
    (hp : c.prefixLength ≤ c.hashSize) (hlen : len ≤ arr0.length) :
    ∀ (k n : Nat) (s : List Byte), (n + k) * c.hashSize ≤ len →
      s.length = n * (c.hashSize - c.prefixLength) →
      stripLoop c len k n (s ++ arr0.drop (n * (c.hashSize - c.prefixLength))) =
        some (s ++ ((chunk c.hashSize k (arr0.drop (n * c.hashSize))).map
            (List.drop c.prefixLength)).flatten ++
          arr0.drop ((n + k) * (c.hashSize - c.prefixLength))) := by
  intro k
  induction k with
  | zero => intro n s _ _; simp [stripLoop, chunk]
  | succ k ih =>
    intro n s hn hs
    have e1 : (n + (k + 1)) * c.hashSize = n * c.hashSize + k * c.hashSize + c.hashSize := by ring
    have e2 : (n + 1) * c.hashSize = n * c.hashSize + c.hashSize := by ring
    have e3 : (n + 1) * (c.hashSize - c.prefixLength) =
      n * (c.hashSize - c.prefixLength) + (c.hashSize - c.prefixLength) := by ring
    have e5 : (n + 1 + k) * c.hashSize = n * c.hashSize + k * c.hashSize + c.hashSize := by ring
    have hq : n * (c.hashSize - c.prefixLength) ≤ n * c.hashSize :=
      Nat.mul_le_mul_left _ (Nat.sub_le _ _)
    have hoff : n * (c.hashSize - c.prefixLength) ≤ len := by omega
    have hlenA : (s ++ arr0.drop (n * (c.hashSize - c.prefixLength))).length = arr0.length := by
      simp only [List.length_append, List.length_drop]; omega
    have hsl : slice (s ++ arr0.drop (n * (c.hashSize - c.prefixLength)))
        (n * c.hashSize + c.prefixLength) ((n + 1) * c.hashSize) =
        some ((arr0.drop (n * c.hashSize + c.prefixLength)).take
          (c.hashSize - c.prefixLength)) := by
      have h1 : n * c.hashSize + c.prefixLength ≤ (n + 1) * c.hashSize := by omega
      have h2 : (n + 1) * c.hashSize ≤
          (s ++ arr0.drop (n * (c.hashSize - c.prefixLength))).length := by omega
      have h3 : s.length ≤ n * c.hashSize + c.prefixLength := by omega
      rw [slice_eq _ _ _ h1 h2, drop_append_ge _ _ _ h3, List.drop_drop, hs]
      have ha : (n + 1) * c.hashSize - (n * c.hashSize + c.prefixLength) =
          c.hashSize - c.prefixLength := by omega
      have hb : n * (c.hashSize - c.prefixLength) +
          (n * c.hashSize + c.prefixLength - n * (c.hashSize - c.prefixLength)) =
          n * c.hashSize + c.prefixLength := by omega
      rw [ha, hb]
    simp only [stripLoop, hoff, if_true, hsl]
    have hcopy : copyInto (s ++ arr0.drop (n * (c.hashSize - c.prefixLength)))
        (n * (c.hashSize - c.prefixLength)) (len - n * (c.hashSize - c.prefixLength))
        ((arr0.drop (n * c.hashSize + c.prefixLength)).take (c.hashSize - c.prefixLength)) =
        (s ++ (arr0.drop (n * c.hashSize + c.prefixLength)).take (c.hashSize - c.prefixLength)) ++
          arr0.drop ((n + 1) * (c.hashSize - c.prefixLength)) := by
      have hsrc : ((arr0.drop (n * c.hashSize + c.prefixLength)).take
          (c.hashSize - c.prefixLength)).length = c.hashSize - c.prefixLength := by
        simp only [List.length_take, List.length_drop]; omega
      have hmin : min (len - n * (c.hashSize - c.prefixLength)) (c.hashSize - c.prefixLength) =
          c.hashSize - c.prefixLength := by omega
      have h4 : s.length ≤ n * (c.hashSize - c.prefixLength) + (c.hashSize - c.prefixLength) := by
        omega
      simp only [copyInto, hsrc, hmin]
      rw [take_append_len _ _ _ hs.symm, List.take_of_length_le (le_of_eq hsrc),
        drop_append_ge _ _ _ h4, List.drop_drop, hs]
      congr 2
      omega
    rw [hcopy]
    have := ih (n + 1) (s ++ (arr0.drop (n * c.hashSize + c.prefixLength)).take
      (c.hashSize - c.prefixLength)) (by omega)
      (by simp only [List.length_append, List.length_take, List.length_drop]; omega)
    rw [this]
    simp only [chunk, List.map_cons, List.flatten_cons, List.append_assoc, List.drop_take,
      List.drop_drop]
    have e4 : n + 1 + k = n + (k + 1) := by ring
    rw [e4, e2]

/-- The stripping loop started on the buffer: the result, the bytes it leaves in
front, and the part of the array it does not touch. -/
theorem stripLoop_start (c : Config) (len i : Nat) (arr : List Byte)
    (hp : c.prefixLength ≤ c.hashSize) (hlen : len ≤ arr.length) (hi : i * c.hashSize ≤ len) :
    stripLoop c len i 0 arr =
      some (((chunk c.hashSize i arr).map (List.drop c.prefixLength)).flatten ++
        arr.drop (i * (c.hashSize - c.prefixLength))) := by
  have := stripLoop_spec c len arr hp hlen i 0 [] (by simpa using hi) (by simp)
  simpa using this

/-! ### Reading and refilling -/

theorem readFull_fst (inp : List Byte) (m : Nat) : (readFull inp m).1 = inp.take m := by
  unfold readFull
  split_ifs with h1 h2
  · rfl
  · have : inp = [] := List.length_eq_zero.mp h2
    subst this; simp
  · simp only
    rw [List.take_of_length_le (by omega)]

theorem readFull_rest (inp : List Byte) (m : Nat) : (readFull inp m).2.2 = inp.drop m := by
  unfold readFull
  split_ifs with h1 h2
  · rfl
  · have : inp = [] := List.length_eq_zero.mp h2
    subst this; simp
  · simp only
    rw [List.drop_of_length_le (by omega)]

theorem readFull_nil (inp : List Byte) (m : Nat) (h : (readFull inp m).2.1 = ReadErr.nil) :
    m ≤ inp.length := by
  unfold readFull at h
  split_ifs at h with h1 h2
  exact h1

/-- Sliding and refilling: the new buffer holds the unflushed bytes followed by
the bytes read, and the stream loses the bytes read. -/
theorem refill_spec (c : Config) (b : Buf) (arr : List Byte) (i : Nat) (inp : List Byte)
    (hi : i * c.hashSize ≤ b.len) (hlen : b.len ≤ arr.length) :
    ∃ b2, refill c b arr i inp = some (b2, inp.drop (i * c.hashSize)) ∧
      b2.arr.length = arr.length ∧
      b2.len = b.len - i * c.hashSize + min (i * c.hashSize) inp.length ∧
      b2.window = (arr.drop (i * c.hashSize)).take (b.len - i * c.hashSize) ++
        inp.take (i * c.hashSize) := by
  have hrestlen : ((arr.drop (i * c.hashSize)).take (b.len - i * c.hashSize)).length =
      b.len - i * c.hashSize := by
    simp only [List.length_take, List.length_drop]; omega
  have hdata : (inp.take (i * c.hashSize)).length = min (i * c.hashSize) inp.length := by
    simp
  have harr1 : copyInto arr 0 b.len ((arr.drop (i * c.hashSize)).take (b.len - i * c.hashSize)) =
      (arr.drop (i * c.hashSize)).take (b.len - i * c.hashSize) ++
        arr.drop (b.len - i * c.hashSize) := by
    have hmin : min b.len (b.len - i * c.hashSize) = b.len - i * c.hashSize := by omega
    simp only [copyInto, hrestlen, hmin, List.take_zero, List.nil_append, Nat.zero_add]
    rw [List.take_of_length_le (le_of_eq hrestlen)]
  have harr2 : copyInto ((arr.drop (i * c.hashSize)).take (b.len - i * c.hashSize) ++
        arr.drop (b.len - i * c.hashSize)) (b.len - i * c.hashSize) (i * c.hashSize)
        (inp.take (i * c.hashSize)) =
      ((arr.drop (i * c.hashSize)).take (b.len - i * c.hashSize) ++ inp.take (i * c.hashSize)) ++
        arr.drop (b.len - i * c.hashSize + min (i * c.hashSize) inp.length) := by
    have hmin : min (i * c.hashSize) (min (i * c.hashSize) inp.length) =
        min (i * c.hashSize) inp.length := by omega
    have h4 : ((arr.drop (i * c.hashSize)).take (b.len - i * c.hashSize)).length ≤
        b.len - i * c.hashSize + min (i * c.hashSize) inp.length := by omega
    simp only [copyInto, hdata, hmin]
    rw [take_append_len _ _ _ hrestlen.symm, List.take_of_length_le (le_of_eq hdata),
      drop_append_ge _ _ _ h4, List.drop_drop, hrestlen]
    congr 2
    omega
  have hsl := slice_eq arr (i * c.hashSize) b.len hi hlen
  refine ⟨Buf.mk (((arr.drop (i * c.hashSize)).take (b.len - i * c.hashSize) ++
      inp.take (i * c.hashSize)) ++
        arr.drop (b.len - i * c.hashSize + min (i * c.hashSize) inp.length))
      (b.len - i * c.hashSize + min (i * c.hashSize) inp.length), ?_, ?_, rfl, ?_⟩
  · simp only [refill, hi, if_true, hsl, readFull_fst, readFull_rest, harr1, harr2]
    cases herr : (readFull inp (i * c.hashSize)).2.1 with
    | nil =>
      have := readFull_nil inp _ herr
      simp only
      congr 3
      omega
    | eof => simp only [hdata]
    | unexpectedEOF => simp only [hdata]
  · simp only [List.length_append, List.length_take, List.length_drop]
    omega
  · simp only [Buf.window]
    rw [take_append_len]
    simp only [List.length_append, List.length_take, List.length_drop]
    omega

/-! ### One iteration -/

theorem differs_eq (c : Config) (arr : List Byte) (m : Nat)
    (h1 : m * c.hashSize + c.prefixLength ≤ arr.length) :
    differs c arr m = some (bytesCompare (recPrefix c arr m) (recPrefix c arr 0) != 0) := by
  have hs1 := slice_eq arr (m * c.hashSize) (m * c.hashSize + c.prefixLength)
    (Nat.le_add_right _ _) h1
  have hs2 := slice_zero arr c.prefixLength (by omega)
  simp only [differs, hs1, hs2, recPrefix, Nat.add_sub_cancel_left, Nat.zero_mul, List.drop_zero]

theorem record_bound (h p len alen m : Nat) (hp : p ≤ h) (hlen : len ≤ alen) (hm : m < len / h) :
    m * h + p ≤ alen := by
  have h1 : (m + 1) * h ≤ len / h * h := Nat.mul_le_mul_right _ hm
  have h2 : len / h * h ≤ len := Nat.div_mul_le_self _ _
  have h3 : (m + 1) * h = m * h + h := by ring
  omega

/-- The search returns; its result is at most the number of whole records, is
bracketed by an equal prefix on the left and a different one on the right, and
is at least one when the buffer holds a whole record. -/
theorem runLength_spec (c : Config) (b : Buf)
    (hp : c.prefixLength ≤ c.hashSize) (hlen : b.len ≤ b.arr.length) :
    ∃ i, runLength c b = some i ∧ i ≤ b.len / c.hashSize ∧
      (0 < i → recPrefix c b.arr (i - 1) = recPrefix c b.arr 0) ∧
      (i < b.len / c.hashSize → recPrefix c b.arr i ≠ recPrefix c b.arr 0) ∧
      (1 ≤ b.len / c.hashSize → 1 ≤ i) := by
  obtain ⟨r, hr, h2, h3, h4⟩ := sortSearch_spec (differs c b.arr)
    (fun m => bytesCompare (recPrefix c b.arr m) (recPrefix c b.arr 0) != 0) (b.len / c.hashSize)
    (fun m hm => differs_eq c b.arr m (record_bound _ _ _ _ _ hp hlen hm))
  have h4b : r < b.len / c.hashSize → recPrefix c b.arr r ≠ recPrefix c b.arr 0 :=
    fun hlt => (bytesCompare_ne_zero_iff _ _).mp (h4 hlt)
  refine ⟨r, hr, h2, fun hpos => ?_, h4b, fun hn => ?_⟩
  · have := h3 hpos
    by_contra hne
    rw [(bytesCompare_ne_zero_iff _ _).mpr hne] at this
    exact absurd this (by simp)
  · by_contra h0
    have hr0 : r = 0 := by omega
    subst hr0
    exact h4b (by omega) rfl

/-- The search looks only at the whole records of the buffer. -/
theorem runLength_congr (c : Config) (b b2 : Buf)
    (hp : c.prefixLength ≤ c.hashSize) (hlen : b.len ≤ b.arr.length)
    (hlen2 : b2.len ≤ b2.arr.length) (hn : b.len / c.hashSize = b2.len / c.hashSize)
    (harr : b2.arr.take (b.len / c.hashSize * c.hashSize) =
      b.arr.take (b.len / c.hashSize * c.hashSize)) :
    runLength c b2 = runLength c b := by
  unfold runLength
  rw [← hn]
  apply sortSearch_congr
  intro m hm
  have hb1 := record_bound _ _ _ _ _ hp hlen hm
  have hb2 := record_bound _ _ _ _ _ hp hlen2 (hn ▸ hm)
  have hb3 := record_bound _ _ _ _ _ hp (le_refl b.len) hm
  have hn2 : b.len / c.hashSize * c.hashSize ≤ b.len := Nat.div_mul_le_self _ _
  have hall : ∀ k, k * c.hashSize + c.prefixLength ≤ b.len / c.hashSize * c.hashSize →
      recPrefix c b2.arr k = recPrefix c b.arr k := by
    intro k hk
    have e : ∀ (l : List Byte), recPrefix c l k =
        recPrefix c (l.take (b.len / c.hashSize * c.hashSize)) k := by
      intro l
      simp only [recPrefix, List.drop_take, List.take_take]
      congr 1
      omega
    rw [e b2.arr, e b.arr, harr]
  have hm1 : (m + 1) * c.hashSize ≤ b.len / c.hashSize * c.hashSize := Nat.mul_le_mul_right _ hm
  have hm2 : (m + 1) * c.hashSize = m * c.hashSize + c.hashSize := by ring
  rw [differs_eq c b2.arr m hb2, differs_eq c b.arr m hb1, hall m (by omega), hall 0 (by omega)]

/-- What the loop body does once the search has returned `i`: it stops with
"buffer too small", or writes the shard of the first `i` records and goes on
with the slid and refilled buffer, or stops on a failed write. -/
theorem iteration_eq (c : Config) (w : Bool) (b : Buf) (inp : List Byte)
    (hh : 1 ≤ c.hashSize) (hp : c.prefixLength ≤ c.hashSize) (hlen : b.len ≤ b.arr.length)
    (hpa : c.prefixLength ≤ b.arr.length) (i : Nat) (hi : runLength c b = some i)
    (hin : i ≤ b.len / c.hashSize) :
    ∃ path b2, prefixPath (b.arr.take c.prefixLength) c.pathFormat = some path ∧
      b2.arr.length = b.arr.length ∧
      b2.len = b.len - i * c.hashSize + min (i * c.hashSize) inp.length ∧
      b2.window = b.window.drop (i * c.hashSize) ++ inp.take (i * c.hashSize) ∧
      iteration c w b inp =
        if (i : Int) = toInt c.bufferSize then
          Step.done Outcome.bufferTooSmall (warnEvents c b)
        else if w = true then
          Step.next b2 (inp.drop (i * c.hashSize))
            (warnEvents c b ++ [Event.write (shardAt c b i path)])
        else Step.done Outcome.writeFailed (warnEvents c b) := by
  have hih : i * c.hashSize ≤ b.len :=
    le_trans (Nat.mul_le_mul_right _ hin) (Nat.div_mul_le_self _ _)
  have hq : i * (c.hashSize - c.prefixLength) ≤ i * c.hashSize :=
    Nat.mul_le_mul_left _ (Nat.sub_le _ _)
  have hqe : i * c.hashSize - i * c.prefixLength = i * (c.hashSize - c.prefixLength) :=
    (Nat.mul_sub i c.hashSize c.prefixLength).symm
  obtain ⟨path, hpath, _⟩ := prefixPathLoop_some (b.arr.take c.prefixLength) c.pathFormat
    (by simp only [List.length_take, Config.prefixLength]; omega)
  have hsl0 := slice_zero b.arr c.prefixLength hpa
  have hh0 : c.hashSize ≠ 0 := by omega
  cases hs : c.stripPrefix with
  | false =>
    obtain ⟨b2, hb2, hl2, hn2, hw2⟩ := refill_spec c b b.arr i inp hih hlen
    refine ⟨path, b2, hpath, hl2, hn2, ?_, ?_⟩
    · rw [hw2, Buf.window, List.drop_take]
    · have hslc := slice_zero b.arr (i * c.hashSize) (by omega)
      simp only [iteration, hh0, if_false, hi, hsl0, prefixPath, hpath, hs, hslc, hb2,
        shardAt, written, Bool.false_eq_true]
  | true =>
    have hstrip := stripLoop_start c b.len i b.arr hp hlen hih
    have hF := length_strip_chunk c.hashSize c.prefixLength i b.arr (by omega)
    have hlen1 : b.len ≤ (((chunk c.hashSize i b.arr).map (List.drop c.prefixLength)).flatten ++
        b.arr.drop (i * (c.hashSize - c.prefixLength))).length := by
      simp only [List.length_append, hF, List.length_drop]; omega
    obtain ⟨b2, hb2, hl2, hn2, hw2⟩ := refill_spec c b _ i inp hih hlen1
    refine ⟨path, b2, hpath, ?_, hn2, ?_, ?_⟩
    · rw [hl2]
      simp only [List.length_append, hF, List.length_drop]; omega
    · rw [hw2, Buf.window, List.drop_take, drop_append_ge _ _ _ (by omega), List.drop_drop, hF]
      congr 3
      omega
    · have hslc : slice (((chunk c.hashSize i b.arr).map (List.drop c.prefixLength)).flatten ++
          b.arr.drop (i * (c.hashSize - c.prefixLength))) 0
          (i * c.hashSize - i * c.prefixLength) =
          some (stripAll c.hashSize c.prefixLength (b.arr.take (i * c.hashSize))) := by
        rw [slice_zero _ _ (by
          simp only [List.length_append, hF, List.length_drop]; omega),
          take_append_len _ _ _ (by omega), stripAll, records_take _ _ _ hh (by omega)]
      simp only [iteration, hh0, if_false, hi, hsl0, prefixPath, hpath, hs, if_true, hstrip,
        hslc, hb2, shardAt, written]

/-! ### The first read -/

theorem initBuf_nil (c : Config) (hcap : 0 < c.capacity) :
    initBuf c [] = none := by
  have h1 : ¬ (c.capacity ≤ 0) := by omega
  simp [initBuf, readFull, h1]

/-- The first read, for any capacity: the buffer holds the first bytes of the
input, as many as the capacity allows. -/
theorem initBuf_capacity (c : Config) (input : List Byte) (hin : input ≠ []) :
    ∃ b, initBuf c input = some (b, input.drop c.capacity) ∧
      b.arr.length = c.capacity ∧ b.len ≤ b.arr.length ∧
      (b.len < c.capacity → input.drop c.capacity = []) ∧
      b.window = input.take c.capacity ∧
      b.len = min c.capacity input.length := by
  have hpos : 0 < input.length := List.length_pos.mpr hin
  have hne : input.length ≠ 0 := by omega
  unfold initBuf
  generalize c.capacity = cap
  by_cases hle : cap ≤ input.length
  · refine ⟨Buf.mk (copyInto (List.replicate cap 0) 0 cap (input.take cap)) cap,
      ?_, ?_, ?_, ?_, ?_, ?_⟩
    · simp [initBuf, readFull, hle]
    · simp [copyInto, hle]
    · simp [copyInto, hle]
    · intro h; exact absurd h (lt_irrefl _)
    · simp [Buf.window, copyInto, hle, List.take_take]
    · simp [hle]
  · have hlt : input.length < cap := by omega
    refine ⟨Buf.mk (copyInto (List.replicate cap 0) 0 cap input) input.length,
      ?_, ?_, ?_, ?_, ?_, ?_⟩
    · simp [initBuf, readFull, hle, hne, List.drop_of_length_le (le_of_lt hlt)]
    · simp [copyInto, le_of_lt hlt]
    · simp [copyInto, le_of_lt hlt]
    · intro _; exact List.drop_of_length_le (le_of_lt hlt)
    · simp [Buf.window, copyInto, le_of_lt hlt, List.take_of_length_le (le_of_lt hlt)]
    · simp [le_of_lt hlt]

theorem initBuf_spec (c : Config) (input : List Byte) (hin : input ≠ [])
    (hnw : c.hashSize * c.bufferSize < 2 ^ 63) :
    ∃ b, initBuf c input = some (b, input.drop (c.hashSize * c.bufferSize)) ∧
      Fits c b (input.drop (c.hashSize * c.bufferSize)) ∧
      b.window = input.take (c.hashSize * c.bufferSize) ∧
      b.len = min (c.hashSize * c.bufferSize) input.length := by
  obtain ⟨b, h1, h2, h3, h4, h5, h6⟩ := initBuf_capacity c input hin
  rw [capacity_eq c (by omega)] at h1 h2 h4 h5 h6
  exact ⟨b, h1, ⟨h2, h3, h4, hnw⟩, h5, h6⟩

/-! ### One step of the loop -/

theorem fits_prefix_le (c : Config) (b : Buf) (inp : List Byte) (hf : Fits c b inp)
    (hp : c.prefixLength ≤ c.hashSize) (hB : 1 ≤ c.bufferSize) :
    c.prefixLength ≤ b.arr.length := by
  rw [hf.1]
  have : c.hashSize * 1 ≤ c.hashSize * c.bufferSize := Nat.mul_le_mul_left _ hB
  omega

/-- The loop on a non-empty buffer, one iteration unfolded. -/
theorem loop_succ (c : Config) (fuel : Nat) (wok : Nat → Bool) (b : Buf) (inp : List Byte)
    (hh : 1 ≤ c.hashSize) (hB : 1 ≤ c.bufferSize) (hp : c.prefixLength ≤ c.hashSize)
    (hf : Fits c b inp) (hne : b.len ≠ 0) :
    ∃ i path b2, runLength c b = some i ∧ i ≤ b.len / c.hashSize ∧
      (0 < i → recPrefix c b.arr (i - 1) = recPrefix c b.arr 0) ∧
      (i < b.len / c.hashSize → recPrefix c b.arr i ≠ recPrefix c b.arr 0) ∧
      (1 ≤ b.len / c.hashSize → 1 ≤ i) ∧
      prefixPath (b.arr.take c.prefixLength) c.pathFormat = some path ∧
      Fits c b2 (inp.drop (i * c.hashSize)) ∧
      b2.len = b.len - i * c.hashSize + min (i * c.hashSize) inp.length ∧
      b2.window = b.window.drop (i * c.hashSize) ++ inp.take (i * c.hashSize) ∧
      loop c (fuel + 1) wok b inp =
        if i = c.bufferSize then
          { events := warnEvents c b, outcome := Outcome.bufferTooSmall }
        else if wok 0 = true then
          { events := (warnEvents c b ++ [Event.write (shardAt c b i path)]) ++
              (loop c fuel (fun k => wok (k + 1)) b2 (inp.drop (i * c.hashSize))).events,
            outcome := (loop c fuel (fun k => wok (k + 1)) b2 (inp.drop (i * c.hashSize))).outcome }
        else { events := warnEvents c b, outcome := Outcome.writeFailed } := by
  obtain ⟨i, hi, hin, h3, h4, h5⟩ := runLength_spec c b hp hf.2.1
  obtain ⟨path, b2, hpath, hl2, hn2, hw2, hit⟩ := iteration_eq c (wok 0) b inp hh hp hf.2.1
    (fits_prefix_le c b inp hf hp hB) i hi hin
  have hih : i * c.hashSize ≤ b.len :=
    le_trans (Nat.mul_le_mul_right _ hin) (Nat.div_mul_le_self _ _)
  have hB63 : c.bufferSize < 2 ^ 63 :=
    lt_of_le_of_lt (Nat.le_mul_of_pos_left _ (by omega)) hf.2.2.2
  refine ⟨i, path, b2, hi, hin, h3, h4, h5, hpath,
    ⟨by rw [hl2, hf.1], ?_, ?_, hf.2.2.2⟩, hn2, hw2, ?_⟩
  · rw [hn2, hl2]
    have := hf.2.1
    omega
  · intro hlt
    rw [hn2] at hlt
    by_cases hle : i * c.hashSize ≤ inp.length
    · have : b.len < c.hashSize * c.bufferSize := by omega
      rw [hf.2.2.1 this, List.drop_nil]
    · exact List.drop_of_length_le (by omega)
  · simp only [loop, hne, if_false, hit, eq_toInt_iff i c.bufferSize hB63]
    by_cases hB2 : i = c.bufferSize
    · simp [hB2]
    · cases hw : wok 0 <;> simp [hB2]

/-! ### Runs -/

theorem shardsOf_append (a b : List Event) : shardsOf (a ++ b) = shardsOf a ++ shardsOf b := by
  induction a with
  | nil => rfl
  | cons e es ih => cases e <;> simp [shardsOf, ih]

theorem shardsOf_warnEvents (c : Config) (b : Buf) : shardsOf (warnEvents c b) = [] := by
  unfold warnEvents
  split_ifs <;> rfl

theorem shardsOf_step (c : Config) (b : Buf) (s : Shard) (rest : List Event) :
    shardsOf ((warnEvents c b ++ [Event.write s]) ++ rest) = s :: shardsOf rest := by
  simp [shardsOf_append, shardsOf_warnEvents, shardsOf]

theorem written_nil (c : Config) : written c [] = [] := by
  unfold written stripAll records
  split_ifs <;> simp [chunk]

theorem written_append (c : Config) (n : Nat) (a b : List Byte) (hh : 1 ≤ c.hashSize)
    (ha : a.length = n * c.hashSize) : written c (a ++ b) = written c a ++ written c b := by
  unfold written
  split_ifs
  · exact stripAll_append _ _ n a b hh ha
  · rfl

theorem cap_pos (c : Config) (hh : 1 ≤ c.hashSize) (hB : 1 ≤ c.bufferSize) :
    0 < c.hashSize * c.bufferSize := Nat.mul_pos hh hB

theorem whole_pos (h len : Nat) (hh : 1 ≤ h) (hd : h ∣ len) (hne : len ≠ 0) : 1 ≤ len / h := by
  obtain ⟨k, rfl⟩ := hd
  rw [Nat.mul_div_cancel_left _ (by omega)]
  rcases Nat.eq_zero_or_pos k with rfl | hk
  · simp at hne
  · exact hk

theorem dvd_refilled (h len i m : Nat) (h1 : h ∣ len) (h2 : h ∣ m) :
    h ∣ len - i * h + min (i * h) m := by
  have h3 : h ∣ i * h := Dvd.intro_left _ rfl
  have h4 : h ∣ min (i * h) m := by
    rcases Nat.le_total (i * h) m with hle | hle
    · rw [Nat.min_eq_left hle]; exact h3
    · rw [Nat.min_eq_right hle]; exact h2
  exact Nat.dvd_add (Nat.dvd_sub' h1 h3) h4

theorem run_nil (c : Config) (fuel : Nat) (wok : Nat → Bool) (hh : 1 ≤ c.hashSize)
    (hB : 1 ≤ c.bufferSize) (hnw : c.hashSize * c.bufferSize < 2 ^ 63) :
    run c fuel wok [] = { events := [], outcome := Outcome.readFailed } := by
  have hcap := capacity_eq c (by omega)
  have h1 : ¬ (2 ^ 63 ≤ c.capacity) := by rw [hcap]; omega
  have h2 : 0 < c.capacity := by rw [hcap]; exact cap_pos c hh hB
  simp only [run, if_neg h1, initBuf_nil c h2]

theorem dvd_min_cap (c : Config) (m : Nat) (hd : c.hashSize ∣ m) :
    c.hashSize ∣ min (c.hashSize * c.bufferSize) m := by
  rcases Nat.le_total (c.hashSize * c.bufferSize) m with hle | hle
  · rw [Nat.min_eq_left hle]; exact Dvd.intro _ rfl
  · rw [Nat.min_eq_right hle]; exact hd

/-! ### Sorted input -/

theorem recPrefix_drop (c : Config) (l : List Byte) (i m : Nat) :
    recPrefix c (l.drop (i * c.hashSize)) m = recPrefix c l (i + m) := by
  simp only [recPrefix, List.drop_drop]
  congr 2
  ring

theorem recPrefix_append (c : Config) (l t : List Byte) (m : Nat)
    (h : m * c.hashSize + c.prefixLength ≤ l.length) :
    recPrefix c (l ++ t) m = recPrefix c l m := by
  simp only [recPrefix]
  rw [List.drop_append_of_le_length (by omega), List.take_append_of_le_length (by simp; omega)]

theorem recPrefix_take (c : Config) (l : List Byte) (len m : Nat)
    (h : m * c.hashSize + c.prefixLength ≤ len) :
    recPrefix c (l.take len) m = recPrefix c l m := by
  simp only [recPrefix, List.drop_take, List.take_take]
  congr 1
  omega

theorem recPrefix_window (c : Config) (b : Buf) (inp : List Byte) (m : Nat)
    (hlen : b.len ≤ b.arr.length) (h : m * c.hashSize + c.prefixLength ≤ b.len) :
    recPrefix c b.arr m = recPrefix c (b.window ++ inp) m := by
  rw [recPrefix_append c b.window inp m (by simp only [Buf.window, List.length_take]; omega),
    Buf.window, recPrefix_take c b.arr b.len m h]

theorem recPrefix_zero (c : Config) (l : List Byte) : recPrefix c l 0 = l.take c.prefixLength := by
  simp [recPrefix]

theorem prefixSorted_of_sorted (c : Config) (l : List Byte) (hp : c.prefixLength ≤ c.hashSize)
    (hs : SortedRecords c.hashSize l) : PrefixSorted c l := by
  intro a b hab hb
  have hrec : ∀ m, m < l.length / c.hashSize → ∃ (hm : m < (records c.hashSize l).length),
      ((records c.hashSize l)[m]).take c.prefixLength = recPrefix c l m := by
    intro m hm
    have hlen : (records c.hashSize l).length = l.length / c.hashSize := chunk_length _ _ _
    have hm2 : m < (records c.hashSize l).length := by omega
    refine ⟨hm2, ?_⟩
    have h1 := chunk_getElem? c.hashSize (l.length / c.hashSize) m l hm
    have h2 : (records c.hashSize l)[m] = (l.drop (m * c.hashSize)).take c.hashSize := by
      have h3 := List.getElem?_eq_getElem hm2
      unfold records at h3 ⊢
      rw [h1] at h3
      exact (Option.some.inj h3).symm
    rw [h2, recPrefix, List.take_take, Nat.min_eq_left hp]
  rcases Nat.eq_or_lt_of_le hab with rfl | hlt
  · rw [bytesCompare_self]
  · obtain ⟨ha2, hea⟩ := hrec a (by omega)
    obtain ⟨hb2, heb⟩ := hrec b hb
    rw [← hea, ← heb]
    exact bytesCompare_take _ _ _ (List.pairwise_iff_getElem.mp hs a b ha2 hb2 hlt)

theorem prefixSorted_drop (c : Config) (l : List Byte) (i : Nat) (hh : 1 ≤ c.hashSize)
    (hs : PrefixSorted c l) : PrefixSorted c (l.drop (i * c.hashSize)) := by
  intro a b hab hb
  rw [recPrefix_drop, recPrefix_drop]
  apply hs (i + a) (i + b) (by omega)
  rw [List.length_drop] at hb
  have h1 : (b + 1) * c.hashSize ≤ (l.length - i * c.hashSize) / c.hashSize * c.hashSize :=
    Nat.mul_le_mul_right _ hb
  have h2 := Nat.div_mul_le_self (l.length - i * c.hashSize) c.hashSize
  have h3 : (b + 1) * c.hashSize = b * c.hashSize + c.hashSize := by ring
  have h4 : (i + b + 1) * c.hashSize = i * c.hashSize + b * c.hashSize + c.hashSize := by ring
  have h5 : (i + b + 1) * c.hashSize ≤ l.length := by omega
  exact (Nat.le_div_iff_mul_le (by omega)).mpr h5

theorem bytesCompare_lt_of_le_of_ne (a b : List Byte) (h : bytesCompare a b ≤ 0) (hne : a ≠ b) :
    bytesCompare a b < 0 := by
  exact lt_of_le_of_ne h (fun e => hne (bytesCompare_eq_zero a b e))

theorem bytesCompare_lt_of_lt_of_le (a b d : List Byte) (h1 : bytesCompare a b < 0)
    (h2 : bytesCompare b d ≤ 0) : bytesCompare a d < 0 := by
  apply bytesCompare_lt_of_le_of_ne _ _ (bytesCompare_trans a b d (le_of_lt h1) h2)
  intro e
  subst e
  have := bytesCompare_antisymm a b (le_of_lt h1) h2
  subst this
  rw [bytesCompare_self] at h1
  exact absurd h1 (lt_irrefl _)

/-- On sorted records the bracketing of the search result extends to all
records: those before the result share the first prefix, those from it on do
not. -/
theorem sorted_bracket (c : Config) (l : List Byte) (i n : Nat) (hs : PrefixSorted c l)
    (hn : n ≤ l.length / c.hashSize) (hin : i ≤ n)
    (h3 : 0 < i → recPrefix c l (i - 1) = recPrefix c l 0)
    (h4 : i < n → recPrefix c l i ≠ recPrefix c l 0) :
    (∀ m, m < i → recPrefix c l m = recPrefix c l 0) ∧
      (∀ m, i ≤ m → m < n → recPrefix c l m ≠ recPrefix c l 0) := by
  constructor
  · intro m hm
    have h5 := hs 0 m (Nat.zero_le _) (by omega)
    have h6 := hs m (i - 1) (by omega) (by omega)
    rw [h3 (by omega)] at h6
    exact bytesCompare_antisymm _ _ h6 h5
  · intro m him hmn e
    have h5 := hs i m him (by omega)
    have h6 := hs 0 i (Nat.zero_le _) (by omega)
    rw [e] at h5
    exact h4 (by omega) (bytesCompare_antisymm _ _ h5 h6)

theorem window_length (b : Buf) (hlen : b.len ≤ b.arr.length) : b.window.length = b.len := by
  simp only [Buf.window, List.length_take]; omega

/-- One iteration on whole, sorted records: the search result is the length of
the first prefix run inside the buffer, and the state after the iteration is
again whole and sorted. -/
theorem loop_succ_sorted (c : Config) (fuel : Nat) (wok : Nat → Bool) (b : Buf) (inp : List Byte)
    (hh : 1 ≤ c.hashSize) (hB : 1 ≤ c.bufferSize) (hp : c.prefixLength ≤ c.hashSize)
    (hf : Fits c b inp) (hne : b.len ≠ 0) (hd1 : c.hashSize ∣ b.len)
    (hd2 : c.hashSize ∣ inp.length) (hs : PrefixSorted c (b.window ++ inp)) :
    ∃ i path b2, runLength c b = some i ∧ 1 ≤ i ∧ i ≤ b.len / c.hashSize ∧
      b.len / c.hashSize ≤ c.bufferSize ∧
      b.len / c.hashSize ≤ (b.window ++ inp).length / c.hashSize ∧
      (∀ m, m < i → recPrefix c (b.window ++ inp) m = recPrefix c (b.window ++ inp) 0) ∧
      (∀ m, i ≤ m → m < b.len / c.hashSize →
        recPrefix c (b.window ++ inp) m ≠ recPrefix c (b.window ++ inp) 0) ∧
      b.arr.take c.prefixLength = recPrefix c (b.window ++ inp) 0 ∧
      (∀ m, m < b.len / c.hashSize → recPrefix c b.arr m = recPrefix c (b.window ++ inp) m) ∧
      prefixPath (b.arr.take c.prefixLength) c.pathFormat = some path ∧
      Fits c b2 (inp.drop (i * c.hashSize)) ∧ c.hashSize ∣ b2.len ∧
      c.hashSize ∣ (inp.drop (i * c.hashSize)).length ∧
      b2.window ++ inp.drop (i * c.hashSize) = (b.window ++ inp).drop (i * c.hashSize) ∧
      PrefixSorted c (b2.window ++ inp.drop (i * c.hashSize)) ∧
      (i = b.len / c.hashSize → i ≠ c.bufferSize → b2.len = 0) ∧
      loop c (fuel + 1) wok b inp =
        if i = c.bufferSize then
          { events := warnEvents c b, outcome := Outcome.bufferTooSmall }
        else if wok 0 = true then
          { events := (warnEvents c b ++ [Event.write (shardAt c b i path)]) ++
              (loop c fuel (fun k => wok (k + 1)) b2 (inp.drop (i * c.hashSize))).events,
            outcome := (loop c fuel (fun k => wok (k + 1)) b2 (inp.drop (i * c.hashSize))).outcome }
        else { events := warnEvents c b, outcome := Outcome.writeFailed } := by
  obtain ⟨i, path, b2, hi, hin, h3, h4, h5, hpath, hf2, hn2, hw2, hloop⟩ :=
    loop_succ c fuel wok b inp hh hB hp hf hne
  have hn1 : 1 ≤ b.len / c.hashSize := whole_pos _ _ hh hd1 hne
  have hi1 : 1 ≤ i := h5 hn1
  have hwl := window_length b hf.2.1
  have hih : i * c.hashSize ≤ b.len :=
    le_trans (Nat.mul_le_mul_right _ hin) (Nat.div_mul_le_self _ _)
  have hnB : b.len / c.hashSize ≤ c.bufferSize :=
    Nat.div_le_of_le_mul (by rw [← hf.1]; exact hf.2.1)
  have hnR : b.len / c.hashSize ≤ (b.window ++ inp).length / c.hashSize :=
    Nat.div_le_div_right (by rw [List.length_append, hwl]; omega)
  have hlink : ∀ m, m < b.len / c.hashSize →
      recPrefix c b.arr m = recPrefix c (b.window ++ inp) m :=
    fun m hm => recPrefix_window c b inp m hf.2.1 (record_bound _ _ _ _ _ hp (le_refl _) hm)
  have hbr := sorted_bracket c (b.window ++ inp) i (b.len / c.hashSize) hs hnR hin
    (fun hpos => by rw [← hlink _ (by omega), ← hlink _ (by omega)]; exact h3 hpos)
    (fun hlt => by rw [← hlink _ hlt, ← hlink _ (by omega)]; exact h4 hlt)
  have hdrop : b2.window ++ inp.drop (i * c.hashSize) =
      (b.window ++ inp).drop (i * c.hashSize) := by
    rw [hw2, List.drop_append_of_le_length (by omega), List.append_assoc,
      List.take_append_drop]
  refine ⟨i, path, b2, hi, hi1, hin, hnB, hnR, hbr.1, hbr.2, ?_, hlink, hpath, hf2, ?_, ?_,
    hdrop, ?_, ?_, hloop⟩
  · rw [← hlink 0 (by omega), recPrefix_zero]
  · rw [hn2]; exact dvd_refilled _ _ _ _ hd1 hd2
  · rw [List.length_drop]; exact Nat.dvd_sub' hd2 (Dvd.intro_left _ rfl)
  · rw [hdrop]; exact prefixSorted_drop c _ i hh hs
  · intro hin2 hiB
    have hlt : b.len < c.hashSize * c.bufferSize := by
      by_contra hcon
      have hfull : b.len = c.hashSize * c.bufferSize := by
        have := hf.2.1
        rw [hf.1] at this
        omega
      rw [hfull, Nat.mul_div_cancel_left _ (by omega)] at hin2
      exact hiB hin2
    have hnil := hf.2.2.1 hlt
    have hmul : b.len / c.hashSize * c.hashSize = b.len := Nat.div_mul_cancel hd1
    rw [hn2, hnil, hin2, hmul]
    simp

theorem mem_chunk (h : Nat) : ∀ (n : Nat) (l r : List Byte), r ∈ chunk h n l →
    ∃ m, m < n ∧ r = (l.drop (m * h)).take h
  | 0, _, _, hr => by simp [chunk] at hr
  | n + 1, l, r, hr => by
    simp only [chunk, List.mem_cons] at hr
    rcases hr with rfl | hr
    · exact ⟨0, by omega, by simp⟩
    · obtain ⟨m, hm, e⟩ := mem_chunk h n (l.drop h) r hr
      refine ⟨m + 1, by omega, ?_⟩
      rw [e, List.drop_drop]
      congr 2
      ring

theorem loop_len_zero (c : Config) (fuel : Nat) (wok : Nat → Bool) (b : Buf) (inp : List Byte)
    (h0 : b.len = 0) : (loop c fuel wok b inp).events = [] := by
  cases fuel with
  | zero => rfl
  | succ fuel => simp [loop, h0]

/-- On sorted whole records the prefixes of the shards are strictly increasing
in the order the shards are written. -/
theorem loop_increasing (c : Config) (hh : 1 ≤ c.hashSize) (hB : 1 ≤ c.bufferSize)
    (hp : c.prefixLength ≤ c.hashSize) :
    ∀ (fuel : Nat) (wok : Nat → Bool) (b : Buf) (inp : List Byte), Fits c b inp →
      c.hashSize ∣ b.len → c.hashSize ∣ inp.length → PrefixSorted c (b.window ++ inp) →
      ((shardsOf (loop c fuel wok b inp).events).map Shard.pfx).Pairwise
          (fun x y => bytesCompare x y < 0) ∧
        ∀ s, s ∈ shardsOf (loop c fuel wok b inp).events →
          bytesCompare (recPrefix c (b.window ++ inp) 0) s.pfx ≤ 0 := by
  intro fuel
  induction fuel with
  | zero => intro wok b inp _ _ _ _; simp [loop, shardsOf]
  | succ fuel ih =>
    intro wok b inp hf hd1 hd2 hs
    by_cases hne : b.len = 0
    · simp [loop, hne, shardsOf]
    · obtain ⟨i, path, b2, _, hi1, hin, _, hnR, _, hdiff, hpfx, _, _, hf2, hd3, hd4, hdrop, hs2,
        hend, hloop⟩ := loop_succ_sorted c fuel wok b inp hh hB hp hf hne hd1 hd2 hs
      rw [hloop]
      by_cases hB2 : i = c.bufferSize
      · simp [hB2, shardsOf_warnEvents]
      · cases hw : wok 0 with
        | false => simp [hB2, shardsOf_warnEvents]
        | true =>
          simp only [hB2, if_false, if_true, shardsOf_step]
          by_cases hlast : i = b.len / c.hashSize
          · rw [loop_len_zero c fuel _ b2 _ (hend hlast hB2)]
            simp [shardsOf, shardAt, hpfx, bytesCompare_self]
          · have hlt : i < b.len / c.hashSize := by omega
            obtain ⟨ih1, ih2⟩ := ih (fun k => wok (k + 1)) b2 _ hf2 hd3 hd4 hs2
            rw [hdrop, recPrefix_drop, Nat.add_zero] at ih2
            have hstrict : bytesCompare (recPrefix c (b.window ++ inp) 0)
                (recPrefix c (b.window ++ inp) i) < 0 :=
              bytesCompare_lt_of_le_of_ne _ _ (hs 0 i (Nat.zero_le _) (by omega))
                (fun e => hdiff i (le_refl _) hlt e.symm)
            have hall : ∀ s, s ∈ shardsOf (loop c fuel (fun k => wok (k + 1)) b2
                (inp.drop (i * c.hashSize))).events →
                bytesCompare (recPrefix c (b.window ++ inp) 0) s.pfx < 0 :=
              fun s hmem => bytesCompare_lt_of_lt_of_le _ _ _ hstrict (ih2 s hmem)
            constructor
            · rw [List.map_cons, List.pairwise_cons]
              refine ⟨?_, ih1⟩
              intro x hx
              obtain ⟨s, hmem, rfl⟩ := List.mem_map.mp hx
              simp only [shardAt, hpfx]
              exact hall s hmem
            · intro s hmem
              rcases List.mem_cons.mp hmem with rfl | hmem
              · simp [shardAt, hpfx, bytesCompare_self]
              · exact le_of_lt (hall s hmem)

theorem not_longRun_nil (c : Config) (hB : 1 ≤ c.bufferSize) : ¬ LongRun c [] := by
  rintro ⟨s, hs, _⟩
  simp at hs
  omega

/-- Flushing the first prefix run of a buffer that is not full of it neither
creates nor destroys a long run. -/
theorem longRun_drop (c : Config) (l : List Byte) (i n : Nat)
    (hin : i ≤ n) (hiB : i < c.bufferSize) (hnR : n ≤ l.length / c.hashSize)
    (hsame : ∀ m, m < i → recPrefix c l m = recPrefix c l 0)
    (hdiff : i < n → recPrefix c l i ≠ recPrefix c l 0)
    (hend : i = n → l.length / c.hashSize = n) :
    LongRun c l ↔ LongRun c (l.drop (i * c.hashSize)) := by
  have hlen : (l.drop (i * c.hashSize)).length / c.hashSize = l.length / c.hashSize - i := by
    rw [List.length_drop, Nat.mul_comm, Nat.sub_mul_div]
    have := Nat.mul_le_mul_left c.hashSize (le_trans hin hnR)
    exact le_trans this (Nat.mul_div_le _ _)
  constructor
  · rintro ⟨s, hs, hrun⟩
    have hsi : i ≤ s := by
      by_contra hcon
      have hlt : s < i := by omega
      rcases Nat.eq_or_lt_of_le hin with heq | hlt2
      · have := hend heq
        omega
      · have h1 := hrun (i - s) (by omega)
        rw [Nat.add_sub_cancel' (le_of_lt hlt), hsame s hlt] at h1
        exact hdiff hlt2 h1
    refine ⟨s - i, by rw [hlen]; omega, fun k hk => ?_⟩
    rw [recPrefix_drop, recPrefix_drop, Nat.add_sub_cancel' hsi, ← Nat.add_assoc,
      Nat.add_sub_cancel' hsi]
    exact hrun k hk
  · rintro ⟨s, hs, hrun⟩
    refine ⟨i + s, by rw [hlen] at hs; omega, fun k hk => ?_⟩
    have := hrun k hk
    rw [recPrefix_drop, recPrefix_drop] at this
    rw [Nat.add_assoc]
    exact this

/-- With every write succeeding, the loop on sorted whole records stops with
"buffer too small" exactly when a long run lies ahead, and ends normally
otherwise. -/
theorem loop_capacity (c : Config) (hh : 1 ≤ c.hashSize) (hB : 1 ≤ c.bufferSize)
    (hp : c.prefixLength ≤ c.hashSize) :
    ∀ (fuel : Nat) (wok : Nat → Bool) (b : Buf) (inp : List Byte), (∀ k, wok k = true) →
      Fits c b inp → c.hashSize ∣ b.len → c.hashSize ∣ inp.length →
      PrefixSorted c (b.window ++ inp) → (b.len + inp.length) / c.hashSize < fuel →
      ((loop c fuel wok b inp).outcome = Outcome.bufferTooSmall ↔ LongRun c (b.window ++ inp)) ∧
        ((loop c fuel wok b inp).outcome = Outcome.bufferTooSmall ∨
          (loop c fuel wok b inp).outcome = Outcome.ok) := by
  intro fuel
  induction fuel with
  | zero => intro wok b inp _ _ _ _ _ h; exact absurd h (Nat.not_lt_zero _)
  | succ fuel ih =>
    intro wok b inp hwok hf hd1 hd2 hs hfuel
    by_cases hne : b.len = 0
    · have hinp : inp = [] := hf.2.2.1 (by rw [hne]; exact cap_pos c hh hB)
      have hR : b.window ++ inp = [] := by simp [Buf.window, hne, hinp]
      rw [hR]
      simp [loop, hne, not_longRun_nil c hB]
    · obtain ⟨i, path, b2, _, hi1, hin, hnB, hnR, hsame, hdiff, _, _, _, hf2, hd3, hd4, hdrop, hs2,
        hend, hloop⟩ := loop_succ_sorted c fuel wok b inp hh hB hp hf hne hd1 hd2 hs
      have hwl := window_length b hf.2.1
      have hih : i * c.hashSize ≤ b.len :=
        le_trans (Nat.mul_le_mul_right _ hin) (Nat.div_mul_le_self _ _)
      have hhi : c.hashSize ≤ i * c.hashSize := Nat.le_mul_of_pos_left _ hi1
      rw [hloop]
      by_cases hB2 : i = c.bufferSize
      · simp only [hB2, if_true, true_iff, true_or, and_true]
        exact ⟨0, by omega, fun k hk => by rw [Nat.zero_add]; exact hsame k (by omega)⟩
      · simp only [hB2, hwok 0, if_false, if_true]
        have hfuel2 : (b2.len + (inp.drop (i * c.hashSize)).length) / c.hashSize < fuel := by
          have e : b2.len + (inp.drop (i * c.hashSize)).length =
              (b2.window ++ inp.drop (i * c.hashSize)).length := by
            rw [List.length_append, window_length b2 hf2.2.1]
          rw [e, hdrop, List.length_drop, List.length_append, hwl]
          have h6 : b.len + inp.length - i * c.hashSize + c.hashSize ≤ b.len + inp.length := by
            omega
          have h7 := Nat.div_le_div_right (c := c.hashSize) h6
          rw [Nat.add_div_right _ (by omega)] at h7
          omega
        obtain ⟨ih1, ih2⟩ := ih (fun k => wok (k + 1)) b2 _ (fun k => hwok (k + 1)) hf2 hd3 hd4
          hs2 hfuel2
        refine ⟨?_, ih2⟩
        rw [ih1, hdrop]
        refine (longRun_drop c _ i (b.len / c.hashSize) hin (by omega) hnR hsame
          (fun hlt => hdiff i (le_refl _) hlt) (fun heq => ?_)).symm
        have h0 := hend heq hB2
        have hb2 : b2.window ++ inp.drop (i * c.hashSize) = [] := by
          have hlt : b2.len < c.hashSize * c.bufferSize := by
            rw [h0]; exact cap_pos c hh hB
          rw [hf2.2.2.1 hlt, Buf.window, h0]
          simp
        rw [hdrop] at hb2
        have hl := congrArg List.length hb2
        rw [List.length_drop, List.length_nil] at hl
        have hmul : b.len / c.hashSize * c.hashSize = b.len := Nat.div_mul_cancel hd1
        have hle : (b.window ++ inp).length ≤ b.len := by
          rw [heq, hmul] at hl
          omega
        exact le_antisymm (Nat.div_le_div_right hle) hnR

/-! ### Linear scan, fuel, trailing bytes -/

theorem scanFrom_spec (c : Config) (w : List Byte) (r : Nat) :
    ∀ (k i : Nat), i ≤ r → r ≤ i + k →
      (∀ m, i ≤ m → m < r → recPrefix c w m = recPrefix c w 0) →
      (r < i + k → recPrefix c w r ≠ recPrefix c w 0) → scanFrom c w k i = r := by
  intro k
  induction k with
  | zero => intro i h1 h2 _ _; simp only [scanFrom]; omega
  | succ k ih =>
    intro i h1 h2 h3 h4
    simp only [scanFrom]
    rcases Nat.eq_or_lt_of_le h1 with heq | hlt
    · subst heq
      rw [if_pos (h4 (by omega))]
    · rw [if_neg (by rw [not_not]; exact h3 i (le_refl _) hlt)]
      exact ih (i + 1) hlt (by omega) (fun m hm1 hm2 => h3 m (by omega) hm2)
        (fun hr => h4 (by omega))

/-- Once a run has stopped, more fuel changes nothing. -/
theorem loop_fuel_succ (c : Config) :
    ∀ (fuel : Nat) (wok : Nat → Bool) (b : Buf) (inp : List Byte),
      (loop c fuel wok b inp).outcome ≠ Outcome.outOfFuel →
      loop c (fuel + 1) wok b inp = loop c fuel wok b inp := by
  intro fuel
  induction fuel with
  | zero => intro wok b inp h; simp [loop] at h
  | succ fuel ih =>
    intro wok b inp h
    rw [loop] at h ⊢
    conv_rhs => rw [loop]
    by_cases hne : b.len = 0
    · simp [hne]
    · simp only [hne, if_false] at h ⊢
      cases hit : iteration c (wok 0) b inp with
      | done o evs => rfl
      | next b1 inp1 evs =>
        simp only [hit] at h ⊢
        rw [ih _ b1 inp1 h]

theorem loop_fuel_le (c : Config) (wok : Nat → Bool) (b : Buf) (inp : List Byte) (f : Nat)
    (h : (loop c f wok b inp).outcome ≠ Outcome.outOfFuel) :
    ∀ (g : Nat), f ≤ g → loop c g wok b inp = loop c f wok b inp := by
  intro g hg
  induction g with
  | zero =>
    have : f = 0 := by omega
    subst this; rfl
  | succ g ih =>
    rcases Nat.eq_or_lt_of_le hg with heq | hlt
    · rw [heq]
    · have h1 := ih (by omega)
      rw [loop_fuel_succ c g wok b inp (by rw [h1]; exact h), h1]

theorem fits_len (c : Config) (b : Buf) (inp : List Byte) (hf : Fits c b inp) :
    b.len = min (c.hashSize * c.bufferSize) (b.window ++ inp).length := by
  have hwl := window_length b hf.2.1
  have h1 := hf.2.1
  rw [hf.1] at h1
  rw [List.length_append, hwl]
  by_cases hlt : b.len < c.hashSize * c.bufferSize
  · rw [hf.2.2.1 hlt]
    simp only [List.length_nil, Nat.add_zero]
    omega
  · omega

theorem take_of_take_eq (a b : List Byte) (n m : Nat) (h : a.take n = b.take n) (hm : m ≤ n) :
    a.take m = b.take m := by
  have := congrArg (List.take m) h
  rwa [List.take_take, List.take_take, Nat.min_eq_left hm] at this

theorem slide_append (w inp : List Byte) (k : Nat) (hk : k ≤ w.length) :
    (w.drop k ++ inp.take k) ++ inp.drop k = (w ++ inp).drop k := by
  rw [List.append_assoc, List.take_append_drop, List.drop_append_of_le_length hk]

/-- Trailing bytes behind whole records: how the lengths of the two buffers
compare. -/
theorem trailing_lengths (h cap r t L LT : Nat) (hh : 1 ≤ h) (hcap : h ∣ cap) (hr : h ∣ r)
    (ht : t < h) (hL : L = min cap r) (hLT : LT = min cap (r + t)) :
    L ≤ LT ∧ LT / h = L / h := by
  by_cases hge : cap ≤ r
  · have h1 : L = cap := by omega
    have h2 : LT = cap := by omega
    rw [h1, h2]
    exact ⟨le_refl _, rfl⟩
  · obtain ⟨k, rfl⟩ := hr
    obtain ⟨B, rfl⟩ := hcap
    have hkB : k < B := by
      by_contra hcon
      exact hge (Nat.mul_le_mul_left h (by omega))
    have h3 : h * (k + 1) ≤ h * B := Nat.mul_le_mul_left h (by omega)
    have h4 : h * (k + 1) = h * k + h := by ring
    have h1 : L = h * k := by omega
    have h2 : LT = h * k + t := by omega
    rw [h1, h2]
    refine ⟨by omega, ?_⟩
    rw [Nat.mul_add_div (by omega), Nat.div_eq_of_lt ht, Nat.mul_div_cancel_left _ (by omega)]
    rfl

/-! ### From the loop to the program -/

/-- A non-empty input passes the first read: the program is the loop on a well
formed state that holds the whole input. -/
theorem run_eq_loop (c : Config) (fuel : Nat) (wok : Nat → Bool) (input : List Byte)
    (hne : input ≠ []) (hnw : c.hashSize * c.bufferSize < 2 ^ 63) :
    ∃ b, Fits c b (input.drop (c.hashSize * c.bufferSize)) ∧
      b.window ++ input.drop (c.hashSize * c.bufferSize) = input ∧
      b.len = min (c.hashSize * c.bufferSize) input.length ∧
      run c fuel wok input = loop c fuel wok b (input.drop (c.hashSize * c.bufferSize)) := by
  obtain ⟨b, hb, hf, hw, hl⟩ := initBuf_spec c input hne hnw
  have h1 : ¬ (2 ^ 63 ≤ c.capacity) := by rw [capacity_eq c (by omega)]; omega
  exact ⟨b, hf, by rw [hw, List.take_append_drop], hl, by simp only [run, if_neg h1, hb]⟩

theorem dvd_drop_cap (c : Config) (input : List Byte) (hd : c.hashSize ∣ input.length) :
    c.hashSize ∣ (input.drop (c.hashSize * c.bufferSize)).length := by
  rw [List.length_drop]
  exact Nat.dvd_sub' hd (Dvd.intro _ rfl)

/-- With an empty buffer capacity nothing is ever written. -/
theorem run_cap_zero (c : Config) (fuel : Nat) (wok : Nat → Bool) (input : List Byte)
    (h0 : c.capacity = 0) : (run c fuel wok input).events = [] := by
  have h1 : ¬ ((2 : Nat) ^ 63 ≤ 0) := by norm_num
  simp only [run, initBuf, readFull, h0, Nat.zero_le, if_true, if_neg h1]
  exact loop_len_zero c fuel wok _ _ rfl

/-! ### The states at the top of the loop -/

theorem flushedBytes_step (c : Config) (b : Buf) (s : Shard) :
    flushedBytes c (warnEvents c b ++ [Event.write s]) = s.count * c.hashSize := by
  simp [flushedBytes, shardsOf_append, shardsOf_warnEvents, shardsOf]

/-- Whatever the configuration: when the loop body hands over to a next
iteration, it has written one shard and the next state comes from the slide and
refill after a search result `i`. -/
theorem iteration_next_inv (c : Config) (w : Bool) (b : Buf) (inp : List Byte) (b2 : Buf)
    (inp2 : List Byte) (evs : List Event) (h : iteration c w b inp = Step.next b2 inp2 evs) :
    ∃ i arr1 sh, refill c b arr1 i inp = some (b2, inp2) ∧
      evs = warnEvents c b ++ [Event.write sh] ∧ sh.count = i := by
  by_cases hh0 : c.hashSize = 0
  · simp [iteration, hh0] at h
  · cases hr : runLength c b with
    | none => simp [iteration, hh0, hr] at h
    | some i =>
      by_cases hB : (i : Int) = toInt c.bufferSize
      · simp [iteration, hh0, hr, hB] at h
      · cases hs : slice b.arr 0 c.prefixLength with
        | none => simp [iteration, hh0, hr, hB, hs] at h
        | some pfx =>
          cases hpp : prefixPath pfx c.pathFormat with
          | none => simp [iteration, hh0, hr, hB, hs, hpp] at h
          | some path =>
            cases hst : (if c.stripPrefix then stripLoop c b.len i 0 b.arr else some b.arr) with
            | none => simp [iteration, hh0, hr, hB, hs, hpp, hst] at h
            | some arr1 =>
              cases hc : slice arr1 0 (if c.stripPrefix then i * c.hashSize - i * c.prefixLength
                  else i * c.hashSize) with
              | none => simp [iteration, hh0, hr, hB, hs, hpp, hst, hc] at h
              | some content =>
                cases w with
                | false => simp [iteration, hh0, hr, hB, hs, hpp, hst, hc] at h
                | true =>
                  cases hrf : refill c b arr1 i inp with
                  | none => simp [iteration, hh0, hr, hB, hs, hpp, hst, hc, hrf] at h
                  | some r =>
                    simp only [iteration, hh0, if_false, hr, hB, hs, hpp, hst, hc, hrf, if_true,
                      Step.next.injEq] at h
                    obtain ⟨h1, h2, h3⟩ := h
                    refine ⟨i, arr1, _, ?_, h3.symm, rfl⟩
                    rw [hrf, ← h1, ← h2]

/-- Whatever the configuration: the warning is emitted only by the check of
lines 66-68. -/
theorem iteration_warn (c : Config) (w : Bool) (b : Buf) (inp : List Byte)
    (hw : warnEvents c b = []) : Event.warn ∉ (iteration c w b inp).events := by
  by_cases hh0 : c.hashSize = 0
  · simp [iteration, hh0, Step.events]
  · cases hr : runLength c b with
    | none => simp [iteration, hh0, hr, hw, Step.events]
    | some i =>
      by_cases hB : (i : Int) = toInt c.bufferSize
      · simp [iteration, hh0, hr, hB, hw, Step.events]
      · cases hs : slice b.arr 0 c.prefixLength with
        | none => simp [iteration, hh0, hr, hB, hs, hw, Step.events]
        | some pfx =>
          cases hpp : prefixPath pfx c.pathFormat with
          | none => simp [iteration, hh0, hr, hB, hs, hpp, hw, Step.events]
          | some path =>
            cases hst : (if c.stripPrefix then stripLoop c b.len i 0 b.arr else some b.arr) with
            | none => simp [iteration, hh0, hr, hB, hs, hpp, hst, hw, Step.events]
            | some arr1 =>
              cases hc : slice arr1 0 (if c.stripPrefix then i * c.hashSize - i * c.prefixLength
                  else i * c.hashSize) with
              | none => simp [iteration, hh0, hr, hB, hs, hpp, hst, hc, hw, Step.events]
              | some content =>
                cases w with
                | false => simp [iteration, hh0, hr, hB, hs, hpp, hst, hc, hw, Step.events]
                | true =>
                  cases hrf : refill c b arr1 i inp with
                  | none => simp [iteration, hh0, hr, hB, hs, hpp, hst, hc, hrf, hw, Step.events]
                  | some r => simp [iteration, hh0, hr, hB, hs, hpp, hst, hc, hrf, hw, Step.events]

/-- A write event of the loop body, whatever the configuration: the shard was
written to the path computed from its prefix, the first `prefixLength` bytes of
the buffer. -/
theorem iteration_write (c : Config) (w : Bool) (b : Buf) (inp : List Byte) (s : Shard)
    (h : Event.write s ∈ (iteration c w b inp).events) :
    prefixPath s.pfx c.pathFormat = some s.path ∧ s.pfx.length = c.prefixLength := by
  have hw : Event.write s ∉ warnEvents c b := by
    unfold warnEvents
    split_ifs <;> simp
  have hlen : ∀ pfx, slice b.arr 0 c.prefixLength = some pfx → pfx.length = c.prefixLength := by
    intro pfx hs
    unfold slice at hs
    split_ifs at hs with h1
    simp only [Option.some.injEq] at hs
    rw [← hs]
    simp only [List.drop_zero, Nat.sub_zero, List.length_take]
    omega
  by_cases hh0 : c.hashSize = 0
  · simp [iteration, hh0, Step.events] at h
  · cases hr : runLength c b with
    | none => simp [iteration, hh0, hr, Step.events, hw] at h
    | some i =>
      by_cases hB : (i : Int) = toInt c.bufferSize
      · simp [iteration, hh0, hr, hB, Step.events, hw] at h
      · cases hs : slice b.arr 0 c.prefixLength with
        | none => simp [iteration, hh0, hr, hB, hs, Step.events, hw] at h
        | some pfx =>
          cases hpp : prefixPath pfx c.pathFormat with
          | none => simp [iteration, hh0, hr, hB, hs, hpp, Step.events, hw] at h
          | some path =>
            cases hst : (if c.stripPrefix then stripLoop c b.len i 0 b.arr else some b.arr) with
            | none => simp [iteration, hh0, hr, hB, hs, hpp, hst, Step.events, hw] at h
            | some arr1 =>
              cases hc : slice arr1 0 (if c.stripPrefix then i * c.hashSize - i * c.prefixLength
                  else i * c.hashSize) with
              | none => simp [iteration, hh0, hr, hB, hs, hpp, hst, hc, Step.events, hw] at h
              | some content =>
                cases w with
                | false => simp [iteration, hh0, hr, hB, hs, hpp, hst, hc, Step.events, hw] at h
                | true =>
                  have key : s = Shard.mk pfx path i (b.arr.take (i * c.hashSize)) content := by
                    cases hrf : refill c b arr1 i inp with
                    | none =>
                      simpa [iteration, hh0, hr, hB, hs, hpp, hst, hc, hrf, Step.events, hw] using h
                    | some r =>
                      simpa [iteration, hh0, hr, hB, hs, hpp, hst, hc, hrf, Step.events, hw] using h
                  subst key
                  exact ⟨hpp, hlen pfx hs⟩

/-- A slide and refill that does not panic, whatever the array: the new length
and the rest of the stream. -/
theorem refill_some_inv (c : Config) (b : Buf) (arr : List Byte) (i : Nat) (inp : List Byte)
    (b2 : Buf) (inp2 : List Byte) (h : refill c b arr i inp = some (b2, inp2)) :
    i * c.hashSize ≤ b.len ∧
      b2.len = b.len - i * c.hashSize + min (i * c.hashSize) inp.length ∧
      inp2 = inp.drop (i * c.hashSize) := by
  by_cases hi : i * c.hashSize ≤ b.len
  · by_cases hlen : b.len ≤ arr.length
    · obtain ⟨b3, hb3, _, hn3, _⟩ := refill_spec c b arr i inp hi hlen
      rw [hb3] at h
      simp only [Option.some.injEq, Prod.mk.injEq] at h
      exact ⟨hi, by rw [← h.1]; exact hn3, h.2.symm⟩
    · have hs : slice arr (i * c.hashSize) b.len = none := by
        simp [slice, hlen]
      simp [refill, hi, hs] at h
  · simp [refill, hi] at h

/-- The first read, when it does not fail: the buffer length and the rest of
the stream. -/
theorem initBuf_some (c : Config) (input : List Byte) (b : Buf) (rest : List Byte)
    (h : initBuf c input = some (b, rest)) :
    b.len = min c.capacity input.length ∧ rest = input.drop c.capacity ∧
      b.arr.length = c.capacity := by
  unfold initBuf readFull at h
  generalize c.capacity = cap at h ⊢
  by_cases h1 : cap ≤ input.length
  · simp only [h1, if_true, Option.some.injEq, Prod.mk.injEq] at h
    exact ⟨by rw [← h.1]; simp [h1], h.2.symm, by rw [← h.1]; simp [copyInto, h1]⟩
  · by_cases h2 : input.length = 0
    · simp only [if_neg h1, if_pos h2] at h
      exact absurd h (by simp)
    · simp only [h1, h2, if_false, Option.some.injEq, Prod.mk.injEq] at h
      refine ⟨by rw [← h.1]; simp; omega, ?_, by rw [← h.1]; simp [copyInto]⟩
      rw [← h.2, List.drop_of_length_le (by omega)]

/-- On whole records the buffer length stays a multiple of `hashSize` and does
not grow, whatever the configuration. -/
theorem topStates_length (c : Config) (M : Nat) :
    ∀ (fuel : Nat) (wok : Nat → Bool) (F : Nat) (b : Buf) (inp : List Byte),
      c.hashSize ∣ b.len → b.len ≤ M → c.hashSize ∣ inp.length →
      ∀ G b2, (G, b2) ∈ topStates c fuel wok F b inp →
        c.hashSize ∣ b2.len ∧ b2.len ≤ M := by
  intro fuel
  induction fuel with
  | zero => intro wok F b inp _ _ _ G b2 h; simp [topStates] at h
  | succ fuel ih =>
    intro wok F b inp hd1 hle hd2 G b2 hmem
    simp only [topStates, List.mem_cons, Prod.mk.injEq] at hmem
    rcases hmem with ⟨_, rfl⟩ | hmem
    · exact ⟨hd1, hle⟩
    · by_cases hne : b.len = 0
      · simp [hne] at hmem
      · rw [if_neg hne] at hmem
        cases hit : iteration c (wok 0) b inp with
        | done o evs => simp [hit] at hmem
        | next b3 inp3 evs =>
          simp only [hit] at hmem
          obtain ⟨i, arr1, sh, hrf, _, _⟩ := iteration_next_inv c (wok 0) b inp b3 inp3 evs hit
          obtain ⟨hih, hn3, hi3⟩ := refill_some_inv c b arr1 i inp b3 inp3 hrf
          refine ih _ _ b3 inp3 ?_ ?_ ?_ G b2 hmem
          · rw [hn3]; exact dvd_refilled _ _ _ _ hd1 hd2
          · rw [hn3]; omega
          · rw [hi3, List.length_drop]; exact Nat.dvd_sub' hd2 (Dvd.intro_left _ rfl)

/-- On whole records the loop never emits the warning, whatever the rest of the
configuration. -/
theorem loop_no_warn (c : Config) :
    ∀ (fuel : Nat) (wok : Nat → Bool) (b : Buf) (inp : List Byte),
      c.hashSize ∣ b.len → b.len < 2 ^ 63 → c.hashSize ∣ inp.length →
      Event.warn ∉ (loop c fuel wok b inp).events := by
  intro fuel
  induction fuel with
  | zero => intro wok b inp _ _ _; simp [loop]
  | succ fuel ih =>
    intro wok b inp hd1 h63 hd2
    by_cases hne : b.len = 0
    · simp [loop, hne]
    · have hw := iteration_warn c (wok 0) b inp (warnEvents_dvd c b hd1 h63)
      simp only [loop, hne, if_false]
      cases hit : iteration c (wok 0) b inp with
      | done o evs =>
        rw [hit] at hw
        exact hw
      | next b3 inp3 evs =>
        rw [hit] at hw
        obtain ⟨i, arr1, sh, hrf, _, _⟩ := iteration_next_inv c (wok 0) b inp b3 inp3 evs hit
        obtain ⟨hih, hn3, hi3⟩ := refill_some_inv c b arr1 i inp b3 inp3 hrf
        have hrec := ih (fun k => wok (k + 1)) b3 inp3
          (by rw [hn3]; exact dvd_refilled _ _ _ _ hd1 hd2)
          (by rw [hn3]; omega)
          (by rw [hi3, List.length_drop]; exact Nat.dvd_sub' hd2 (Dvd.intro_left _ rfl))
        simp only [List.mem_append, not_or]
        exact ⟨hw, hrec⟩

/-! ### Runs that never stop -/

/-- A non-empty buffer that holds less than one record, every write succeeding:
each iteration leaves the buffer as it is, so the loop has not stopped after any
number of iterations. -/
theorem loop_short_forever (c : Config) (hh : 1 ≤ c.hashSize) (hB : 1 ≤ c.bufferSize)
    (hp : c.prefixLength ≤ c.hashSize) :
    ∀ (fuel : Nat) (wok : Nat → Bool) (b : Buf) (inp : List Byte), (∀ k, wok k = true) →
      Fits c b inp → b.len ≠ 0 → b.len < c.hashSize →
      (loop c fuel wok b inp).outcome = Outcome.outOfFuel ∧
        (shardsOf (loop c fuel wok b inp).events).length = fuel := by
  intro fuel
  induction fuel with
  | zero => intro wok b inp _ _ _ _; exact ⟨rfl, rfl⟩
  | succ fuel ih =>
    intro wok b inp hwok hf hne hlt
    obtain ⟨i, path, b2, _, hin, _, _, _, _, hf2, hn2, _, hloop⟩ :=
      loop_succ c fuel wok b inp hh hB hp hf hne
    have hi0 : i = 0 := by
      rw [Nat.div_eq_of_lt hlt] at hin
      omega
    subst hi0
    have hlen2 : b2.len = b.len := by rw [hn2]; simp
    have hB2 : (0 : Nat) ≠ c.bufferSize := by omega
    obtain ⟨ih1, ih2⟩ := ih (fun k => wok (k + 1)) b2 _ (fun k => hwok (k + 1)) hf2
      (by rw [hlen2]; exact hne) (by rw [hlen2]; exact hlt)
    rw [hloop]
    simp only [hB2, hwok 0, if_false, if_true, shardsOf_step, List.length_cons]
    exact ⟨ih1, by rw [ih2]⟩

/-- Trailing bytes behind whole records, every write succeeding: as long as the
run on the whole records alone has not failed, the run with the trailing bytes
has not stopped. -/
theorem loop_trailing_forever (c : Config) (t : List Byte) (hh : 1 ≤ c.hashSize)
    (hB : 1 ≤ c.bufferSize) (hp : c.prefixLength ≤ c.hashSize) (ht0 : t ≠ [])
    (ht : t.length < c.hashSize) :
    ∀ (fuel : Nat) (wok : Nat → Bool) (b : Buf) (inp : List Byte) (bT : Buf) (inpT : List Byte),
      (∀ k, wok k = true) →
      Fits c b inp → Fits c bT inpT → c.hashSize ∣ b.len → c.hashSize ∣ inp.length →
      bT.window ++ inpT = (b.window ++ inp) ++ t →
      ((loop c fuel wok b inp).outcome = Outcome.ok ∨
        (loop c fuel wok b inp).outcome = Outcome.outOfFuel) →
      (loop c fuel wok bT inpT).outcome = Outcome.outOfFuel := by
  intro fuel
  induction fuel with
  | zero => intro wok b inp bT inpT _ _ _ _ _ _ _; rfl
  | succ fuel ih =>
    intro wok b inp bT inpT hwok hf hfT hd1 hd2 hR hout
    have hwl := window_length b hf.2.1
    have hwlT := window_length bT hfT.2.1
    have hRlen : c.hashSize ∣ (b.window ++ inp).length := by
      rw [List.length_append, hwl]; exact Nat.dvd_add hd1 hd2
    have hLT : bT.len = min (c.hashSize * c.bufferSize) ((b.window ++ inp).length + t.length) := by
      rw [fits_len c bT inpT hfT, hR, List.length_append]
    obtain ⟨hle, hdiv⟩ := trailing_lengths c.hashSize (c.hashSize * c.bufferSize)
      (b.window ++ inp).length t.length b.len bT.len hh (Dvd.intro _ rfl) hRlen ht
      (fits_len c b inp hf) hLT
    have htpos : 0 < t.length := List.length_pos.mpr ht0
    by_cases hne : b.len = 0
    · have hinp : inp = [] := hf.2.2.1 (by rw [hne]; exact cap_pos c hh hB)
      have hlenT : bT.len = t.length := by
        rw [hLT, List.length_append, hwl, hne, hinp]
        simp only [List.length_nil, Nat.add_zero, Nat.zero_add]
        have := cap_pos c hh hB
        have h3 : c.hashSize * 1 ≤ c.hashSize * c.bufferSize := Nat.mul_le_mul_left _ hB
        omega
      exact (loop_short_forever c hh hB hp (fuel + 1) wok bT inpT hwok hfT (by omega)
        (by omega)).1
    · have hneT : bT.len ≠ 0 := by omega
      obtain ⟨i, path, b2, hi, hin, _, _, h5, _, hf2, hn2, hw2, hloop⟩ :=
        loop_succ c fuel wok b inp hh hB hp hf hne
      obtain ⟨iT, pathT, bT2, hiT, _, _, _, _, _, hfT2, _, hwT2, hloopT⟩ :=
        loop_succ c fuel wok bT inpT hh hB hp hfT hneT
      have hn1 : 1 ≤ b.len / c.hashSize := whole_pos _ _ hh hd1 hne
      have hi1 : 1 ≤ i := h5 hn1
      have hih : i * c.hashSize ≤ b.len :=
        le_trans (Nat.mul_le_mul_right _ hin) (Nat.div_mul_le_self _ _)
      have harr : bT.arr.take b.len = b.arr.take b.len := by
        have h1 := congrArg (List.take b.len) hR
        rw [List.append_assoc, List.take_append_of_le_length (by omega),
          List.take_append_of_le_length (by omega), Buf.window, Buf.window, List.take_take,
          List.take_take, Nat.min_eq_left hle, Nat.min_self] at h1
        exact h1
      have hmul : b.len / c.hashSize * c.hashSize = b.len := Nat.div_mul_cancel hd1
      have hrl : runLength c bT = runLength c b :=
        runLength_congr c b bT hp hf.2.1 hfT.2.1 hdiv.symm (by rw [hmul]; exact harr)
      have hii : iT = i := by
        rw [hrl, hi] at hiT
        exact (Option.some.inj hiT).symm
      subst hii
      have hR2 : bT2.window ++ inpT.drop (iT * c.hashSize) =
          (b2.window ++ inp.drop (iT * c.hashSize)) ++ t := by
        rw [hwT2, hw2, slide_append _ _ _ (by omega), slide_append _ _ _ (by omega), hR,
          List.drop_append_of_le_length (by rw [List.length_append, hwl]; omega)]
      have hd3 : c.hashSize ∣ b2.len := by rw [hn2]; exact dvd_refilled _ _ _ _ hd1 hd2
      have hd4 : c.hashSize ∣ (inp.drop (iT * c.hashSize)).length := by
        rw [List.length_drop]; exact Nat.dvd_sub' hd2 (Dvd.intro_left _ rfl)
      rw [hloop] at hout
      rw [hloopT]
      by_cases hB2 : iT = c.bufferSize
      · simp [hB2] at hout
      · simp only [hB2, hwok 0, if_false, if_true] at hout ⊢
        exact ih (fun k => wok (k + 1)) b2 _ bT2 _ (fun k => hwok (k + 1)) hf2 hfT2 hd3 hd4 hR2
          hout

/-- The program on whole records followed by less than one record of trailing
bytes, every write succeeding: unless the run on the whole records alone stops
with "buffer too small", the run never stops. -/
theorem run_trailing_forever (c : Config) (whole trail : List Byte) (hh : 1 ≤ c.hashSize)
    (hB : 1 ≤ c.bufferSize) (hp : c.prefixLength ≤ c.hashSize)
    (hnw : c.hashSize * c.bufferSize < 2 ^ 63)
    (hw : c.hashSize ∣ whole.length) (ht0 : trail ≠ []) (ht : trail.length < c.hashSize)
    (fuel : Nat)
    (hok : whole = [] ∨ (run c fuel allOk whole).outcome = Outcome.ok ∨
      (run c fuel allOk whole).outcome = Outcome.outOfFuel) :
    (run c fuel allOk (whole ++ trail)).outcome = Outcome.outOfFuel := by
  by_cases hk : whole = []
  · subst hk
    rw [List.nil_append]
    obtain ⟨b, hf, _, hl, hrun⟩ := run_eq_loop c fuel allOk trail ht0 hnw
    have hpos : 0 < trail.length := List.length_pos.mpr ht0
    have h3 : c.hashSize * 1 ≤ c.hashSize * c.bufferSize := Nat.mul_le_mul_left _ hB
    have hlen : b.len = trail.length := by rw [hl]; omega
    rw [hrun]
    exact (loop_short_forever c hh hB hp fuel allOk b _ (fun _ => rfl) hf (by omega)
      (by omega)).1
  · have hout : (run c fuel allOk whole).outcome = Outcome.ok ∨
        (run c fuel allOk whole).outcome = Outcome.outOfFuel := by
      rcases hok with h | h
      · exact absurd h hk
      · exact h
    have hneT : whole ++ trail ≠ [] := by simp [hk]
    obtain ⟨b, hf, hwb, hl, hrun⟩ := run_eq_loop c fuel allOk whole hk hnw
    obtain ⟨bT, hfT, hwT, _, hrunT⟩ := run_eq_loop c fuel allOk (whole ++ trail) hneT hnw
    rw [hrun] at hout
    rw [hrunT]
    exact loop_trailing_forever c trail hh hB hp ht0 ht fuel allOk b _ bT _ (fun _ => rfl) hf hfT
      (by rw [hl]; exact dvd_min_cap c _ hw) (dvd_drop_cap c whole hw) (by rw [hwT, hwb]) hout

theorem run_fuel_le (c : Config) (wok : Nat → Bool) (input : List Byte) (f g : Nat)
    (h : (run c f wok input).outcome ≠ Outcome.outOfFuel) (hfg : f ≤ g) :
    run c g wok input = run c f wok input := by
  unfold run at h ⊢
  by_cases hcap : 2 ^ 63 ≤ c.capacity
  · rw [if_pos hcap, if_pos hcap]
  · simp only [if_neg hcap] at h ⊢
    cases hi : initBuf c input with
    | none => rfl
    | some r =>
      obtain ⟨b, rest⟩ := r
      simp only [hi] at h ⊢
      exact loop_fuel_le c wok b rest f h g hfg

/-! ### Counting the shards -/

theorem length_le_sum_of_pos : ∀ (l : List Nat), (∀ x, x ∈ l → 1 ≤ x) → l.length ≤ l.sum
  | [], _ => Nat.le_refl _
  | x :: xs, h => by
    have h1 := h x (by simp)
    have h2 := length_le_sum_of_pos xs (fun y hy => h y (by simp [hy]))
    simp only [List.length_cons, List.sum_cons]
    omega

/-! ### Paths of different prefixes -/

/-- The positional substitution determines the prefix. -/
theorem substitute_inj : ∀ (fmt p q : List Byte), p.length = countByte fmt percent →
    q.length = countByte fmt percent → substitute fmt p = substitute fmt q → p = q
  | [], p, q, hp, hq, _ => by
    have h1 : p = [] := List.length_eq_zero.mp (by simpa [countByte] using hp)
    have h2 : q = [] := List.length_eq_zero.mp (by simpa [countByte] using hq)
    rw [h1, h2]
  | c :: cs, p, q, hp, hq, h => by
    by_cases hc : c = percent
    · simp only [countByte, hc, if_true] at hp hq
      cases p with
      | nil => simp at hp; omega
      | cons x xs =>
        cases q with
        | nil => simp at hq; omega
        | cons y ys =>
          simp only [substitute, hc, if_true, List.cons.injEq] at h
          simp only [List.length_cons] at hp hq
          rw [h.1, substitute_inj cs xs ys (by omega) (by omega) h.2]
    · simp only [countByte, hc, if_false, Nat.zero_add] at hp hq
      apply substitute_inj cs p q hp hq
      cases p with
      | nil =>
        have h2 : q = [] := List.length_eq_zero.mp (by rw [hq, ← hp]; rfl)
        rw [h2]
      | cons x xs =>
        cases q with
        | nil =>
          simp only [List.length_cons, List.length_nil] at hp hq
          omega
        | cons y ys =>
          simp only [substitute, hc, if_false, List.cons.injEq, true_and] at h
          exact h

/-- Every shard of a run, whatever the configuration, was written to the path
computed from its prefix, which has `prefixLength` bytes. -/
theorem loop_shard_path (c : Config) :
    ∀ (fuel : Nat) (wok : Nat → Bool) (b : Buf) (inp : List Byte) (s : Shard),
      s ∈ shardsOf (loop c fuel wok b inp).events →
      prefixPath s.pfx c.pathFormat = some s.path ∧ s.pfx.length = c.prefixLength := by
  intro fuel
  induction fuel with
  | zero => intro wok b inp s h; simp [loop, shardsOf] at h
  | succ fuel ih =>
    intro wok b inp s hmem
    have hev : ∀ evs, s ∈ shardsOf evs → Event.write s ∈ evs := by
      intro evs
      induction evs with
      | nil => intro h; simp [shardsOf] at h
      | cons e es ihe =>
        intro h
        cases e with
        | warn => exact List.mem_cons_of_mem _ (ihe (by simpa [shardsOf] using h))
        | write s2 =>
          simp only [shardsOf, List.mem_cons] at h
          rcases h with rfl | h
          · exact List.mem_cons_self _ _
          · exact List.mem_cons_of_mem _ (ihe h)
    by_cases hne : b.len = 0
    · simp [loop, hne, shardsOf] at hmem
    · simp only [loop, hne, if_false] at hmem
      cases hit : iteration c (wok 0) b inp with
      | done o evs =>
        simp only [hit] at hmem
        exact iteration_write c (wok 0) b inp s (by rw [hit]; exact hev evs hmem)
      | next b3 inp3 evs =>
        simp only [hit, shardsOf_append, List.mem_append] at hmem
        rcases hmem with hmem | hmem
        · exact iteration_write c (wok 0) b inp s (by rw [hit]; exact hev evs hmem)
        · exact ih _ b3 inp3 s hmem

theorem run_shard_path (c : Config) (fuel : Nat) (wok : Nat → Bool) (input : List Byte)
    (s : Shard) (h : s ∈ (run c fuel wok input).shards) :
    prefixPath s.pfx c.pathFormat = some s.path ∧ s.pfx.length = c.prefixLength := by
  unfold Result.shards run at h
  by_cases hcap : 2 ^ 63 ≤ c.capacity
  · rw [if_pos hcap] at h
    simp [shardsOf] at h
  · rw [if_neg hcap] at h
    cases hi : initBuf c input with
    | none => simp [hi, shardsOf] at h
    | some r =>
      obtain ⟨b, rest⟩ := r
      simp only [hi] at h
      exact loop_shard_path c fuel wok b rest s h

theorem window_slice (l : List Byte) (F cap : Nat) :
    (l.take (min (F + cap) l.length)).drop F = (l.drop F).take cap := by
  rw [List.drop_take]
  by_cases h : F + cap ≤ l.length
  · rw [Nat.min_eq_left h, Nat.add_sub_cancel_left]
  · rw [Nat.min_eq_right (by omega), List.take_of_length_le (by simp),
      List.take_of_length_le (by simp; omega)]

/-- The loop of `prefixPath` uses up at most one wildcard per prefix byte. -/
theorem countByte_prefixPathLoop : ∀ (a rv out : List Byte), prefixPathLoop a rv = some out →
    countByte rv percent ≤ countByte out percent + a.length
  | [], rv, out, h => by
    simp only [prefixPathLoop, Option.some.injEq] at h
    rw [h]; simp
  | x :: xs, rv, out, h => by
    simp only [prefixPathLoop] at h
    cases hi : indexByte rv percent with
    | none => simp [hi] at h
    | some k =>
      simp only [hi] at h
      have h1 := countByte_set_of_index rv percent x k hi
      have h2 := countByte_prefixPathLoop xs (rv.set k x) out h
      simp only [List.length_cons]
      omega

/-- Before every step of `prefixPath` the working copy holds a `'%'`. -/
theorem prefixPathLoop_step (format a rest : List Byte) (x : Byte)
    (hlen : (a ++ x :: rest).length ≤ countByte format percent) :
    ∃ rv k, prefixPathLoop a format = some rv ∧ indexByte rv percent = some k ∧
      k < rv.length := by
  simp only [List.length_append, List.length_cons] at hlen
  obtain ⟨rv, hrv, _⟩ := prefixPathLoop_some a format (by omega)
  have hc := countByte_prefixPathLoop a format rv hrv
  obtain ⟨k, hk, hkl⟩ := indexByte_of_count_pos rv percent (by omega)
  exact ⟨rv, k, hrv, hk, hkl⟩

/-! ### Any configuration

The lemmas of this section make no assumption on the capacity: they also cover
the configurations whose product `hashSize * bufferSize` wraps around. -/

theorem searchLoop_le (f : Nat → Option Bool) : ∀ (fuel i j r : Nat), i ≤ j →
    searchLoop f fuel i j = some r → r ≤ j
  | 0, i, j, r, hij, h => by
    simp only [searchLoop, Option.some.injEq] at h
    omega
  | fuel + 1, i, j, r, hij, h => by
    simp only [searchLoop] at h
    by_cases hlt : i < j
    · rw [if_pos hlt] at h
      cases hf : f ((i + j) / 2) with
      | none => simp [hf] at h
      | some v =>
        cases v with
        | false =>
          simp only [hf] at h
          exact searchLoop_le f fuel _ j r (by omega) h
        | true =>
          simp only [hf] at h
          have := searchLoop_le f fuel i _ r (by omega) h
          omega
    · rw [if_neg hlt] at h
      simp only [Option.some.injEq] at h
      omega

/-- The search never returns more than the number of whole records. -/
theorem runLength_le (c : Config) (b : Buf) (i : Nat) (h : runLength c b = some i) :
    i ≤ b.len / c.hashSize :=
  searchLoop_le _ _ 0 _ i (Nat.zero_le _) h

theorem mem_shardsOf (s : Shard) : ∀ (evs : List Event), s ∈ shardsOf evs → Event.write s ∈ evs
  | [], h => by simp [shardsOf] at h
  | Event.warn :: es, h => by
    simp only [shardsOf] at h
    exact List.mem_cons_of_mem _ (mem_shardsOf s es h)
  | Event.write t :: es, h => by
    simp only [shardsOf, List.mem_cons] at h
    rcases h with rfl | h
    · exact List.mem_cons_self _ _
    · exact List.mem_cons_of_mem _ (mem_shardsOf s es h)

/-- A write event of the loop body, whatever the configuration: the prefix is
the slice `buf[:prefixLength]`, which did not panic, and the shard holds the
records counted by the search, whose result was not `int(*bufferSize)`. -/
theorem iteration_write_inv (c : Config) (w : Bool) (b : Buf) (inp : List Byte) (s : Shard)
    (h : Event.write s ∈ (iteration c w b inp).events) :
    slice b.arr 0 c.prefixLength = some s.pfx ∧ runLength c b = some s.count ∧
      ¬ ((s.count : Int) = toInt c.bufferSize) ∧ s.raw = b.arr.take (s.count * c.hashSize) := by
  have hw : Event.write s ∉ warnEvents c b := by
    unfold warnEvents
    split_ifs <;> simp
  by_cases hh0 : c.hashSize = 0
  · simp [iteration, hh0, Step.events] at h
  · cases hr : runLength c b with
    | none => simp [iteration, hh0, hr, Step.events, hw] at h
    | some i =>
      by_cases hB : (i : Int) = toInt c.bufferSize
      · simp [iteration, hh0, hr, hB, Step.events, hw] at h
      · cases hs : slice b.arr 0 c.prefixLength with
        | none => simp [iteration, hh0, hr, hB, hs, Step.events, hw] at h
        | some pfx =>
          cases hpp : prefixPath pfx c.pathFormat with
          | none => simp [iteration, hh0, hr, hB, hs, hpp, Step.events, hw] at h
          | some path =>
            cases hst : (if c.stripPrefix then stripLoop c b.len i 0 b.arr else some b.arr) with
            | none => simp [iteration, hh0, hr, hB, hs, hpp, hst, Step.events, hw] at h
            | some arr1 =>
              cases hc : slice arr1 0 (if c.stripPrefix then i * c.hashSize - i * c.prefixLength
                  else i * c.hashSize) with
              | none => simp [iteration, hh0, hr, hB, hs, hpp, hst, hc, Step.events, hw] at h
              | some content =>
                cases w with
                | false => simp [iteration, hh0, hr, hB, hs, hpp, hst, hc, Step.events, hw] at h
                | true =>
                  have key : s = Shard.mk pfx path i (b.arr.take (i * c.hashSize)) content := by
                    cases hrf : refill c b arr1 i inp with
                    | none =>
                      simpa [iteration, hh0, hr, hB, hs, hpp, hst, hc, hrf, Step.events, hw] using h
                    | some r =>
                      simpa [iteration, hh0, hr, hB, hs, hpp, hst, hc, hrf, Step.events, hw] using h
                  subst key
                  exact ⟨rfl, rfl, hB, rfl⟩

/-- The exit with "buffer too small", whatever the configuration: the search
returned `int(*bufferSize)`. -/
theorem iteration_tooSmall_inv (c : Config) (w : Bool) (b : Buf) (inp : List Byte)
    (evs : List Event) (h : iteration c w b inp = Step.done Outcome.bufferTooSmall evs) :
    ∃ i, runLength c b = some i ∧ (i : Int) = toInt c.bufferSize := by
  by_cases hh0 : c.hashSize = 0
  · simp [iteration, hh0] at h
  · cases hr : runLength c b with
    | none => simp [iteration, hh0, hr] at h
    | some i =>
      by_cases hB : (i : Int) = toInt c.bufferSize
      · exact ⟨i, rfl, hB⟩
      · cases hs : slice b.arr 0 c.prefixLength with
        | none => simp [iteration, hh0, hr, hB, hs] at h
        | some pfx =>
          cases hpp : prefixPath pfx c.pathFormat with
          | none => simp [iteration, hh0, hr, hB, hs, hpp] at h
          | some path =>
            cases hst : (if c.stripPrefix then stripLoop c b.len i 0 b.arr else some b.arr) with
            | none => simp [iteration, hh0, hr, hB, hs, hpp, hst] at h
            | some arr1 =>
              cases hc : slice arr1 0 (if c.stripPrefix then i * c.hashSize - i * c.prefixLength
                  else i * c.hashSize) with
              | none => simp [iteration, hh0, hr, hB, hs, hpp, hst, hc] at h
              | some content =>
                cases w with
                | false => simp [iteration, hh0, hr, hB, hs, hpp, hst, hc] at h
                | true =>
                  cases hrf : refill c b arr1 i inp with
                  | none => simp [iteration, hh0, hr, hB, hs, hpp, hst, hc, hrf] at h
                  | some r => simp [iteration, hh0, hr, hB, hs, hpp, hst, hc, hrf] at h

/-- While the buffer holds fewer than `bufferSize` records the run does not
stop with "buffer too small", whatever the configuration. -/
theorem loop_not_tooSmall (c : Config) (hB64 : c.bufferSize < 2 ^ 64) :
    ∀ (fuel : Nat) (wok : Nat → Bool) (b : Buf) (inp : List Byte),
      b.len < c.hashSize * c.bufferSize →
      (loop c fuel wok b inp).outcome ≠ Outcome.bufferTooSmall := by
  intro fuel
  induction fuel with
  | zero => intro wok b inp _; simp [loop]
  | succ fuel ih =>
    intro wok b inp hlt
    by_cases hne : b.len = 0
    · simp [loop, hne]
    · simp only [loop, hne, if_false]
      cases hit : iteration c (wok 0) b inp with
      | done o evs =>
        simp only
        intro ho
        rw [ho] at hit
        obtain ⟨i, hi, hiB⟩ := iteration_tooSmall_inv c (wok 0) b inp evs hit
        have hle := runLength_le c b i hi
        have hB63 : c.bufferSize < 2 ^ 63 := by
          by_contra hcon
          have := toInt_neg c.bufferSize (by omega) hB64
          omega
        rw [eq_toInt_iff i _ hB63] at hiB
        rw [hiB] at hle
        have h1 : c.bufferSize * c.hashSize ≤ b.len / c.hashSize * c.hashSize :=
          Nat.mul_le_mul_right _ hle
        have h2 := Nat.div_mul_le_self b.len c.hashSize
        rw [Nat.mul_comm] at hlt
        omega
      | next b3 inp3 evs =>
        simp only
        obtain ⟨i, arr1, sh, hrf, _, _⟩ := iteration_next_inv c (wok 0) b inp b3 inp3 evs hit
        obtain ⟨hih, hn3, _⟩ := refill_some_inv c b arr1 i inp b3 inp3 hrf
        exact ih _ b3 inp3 (by rw [hn3]; omega)

theorem run_not_tooSmall (c : Config) (fuel : Nat) (wok : Nat → Bool) (input : List Byte)
    (hB64 : c.bufferSize < 2 ^ 64) (hlt : input.length < c.hashSize * c.bufferSize) :
    (run c fuel wok input).outcome ≠ Outcome.bufferTooSmall := by
  unfold run
  by_cases hcap : 2 ^ 63 ≤ c.capacity
  · rw [if_pos hcap]; decide
  · rw [if_neg hcap]
    cases hi : initBuf c input with
    | none => simp
    | some r =>
      obtain ⟨b, rest⟩ := r
      obtain ⟨hl, _, _⟩ := initBuf_some c input b rest hi
      simp only
      exact loop_not_tooSmall c hB64 fuel wok b rest (by rw [hl]; omega)

/-- The loop on a non-empty buffer, one iteration unfolded, whatever the
capacity: it is enough that the slices `buf[:prefixLength]` and `buf` lie
inside the backing array. -/
theorem loop_step (c : Config) (fuel : Nat) (wok : Nat → Bool) (b : Buf) (inp : List Byte)
    (hh : 1 ≤ c.hashSize) (hp : c.prefixLength ≤ c.hashSize) (hlen : b.len ≤ b.arr.length)
    (hpa : c.prefixLength ≤ b.arr.length) (hne : b.len ≠ 0) :
    ∃ i path b2, runLength c b = some i ∧ i ≤ b.len / c.hashSize ∧
      (0 < i → recPrefix c b.arr (i - 1) = recPrefix c b.arr 0) ∧
      (i < b.len / c.hashSize → recPrefix c b.arr i ≠ recPrefix c b.arr 0) ∧
      prefixPath (b.arr.take c.prefixLength) c.pathFormat = some path ∧
      b2.arr.length = b.arr.length ∧
      b2.len = b.len - i * c.hashSize + min (i * c.hashSize) inp.length ∧
      b2.window = b.window.drop (i * c.hashSize) ++ inp.take (i * c.hashSize) ∧
      loop c (fuel + 1) wok b inp =
        if (i : Int) = toInt c.bufferSize then
          { events := warnEvents c b, outcome := Outcome.bufferTooSmall }
        else if wok 0 = true then
          { events := (warnEvents c b ++ [Event.write (shardAt c b i path)]) ++
              (loop c fuel (fun k => wok (k + 1)) b2 (inp.drop (i * c.hashSize))).events,
            outcome := (loop c fuel (fun k => wok (k + 1)) b2 (inp.drop (i * c.hashSize))).outcome }
        else { events := warnEvents c b, outcome := Outcome.writeFailed } := by
  obtain ⟨i, hi, hin, h3, h4, _⟩ := runLength_spec c b hp hlen
  obtain ⟨path, b2, hpath, hl2, hn2, hw2, hit⟩ := iteration_eq c (wok 0) b inp hh hp hlen
    hpa i hi hin
  refine ⟨i, path, b2, hi, hin, h3, h4, hpath, hl2, hn2, hw2, ?_⟩
  simp only [loop, hne, if_false, hit]
  by_cases hB2 : (i : Int) = toInt c.bufferSize
  · simp [hB2]
  · cases hw : wok 0 <;> simp [hB2]

/-- When `buf[:prefixLength]` reaches beyond the backing array the loop writes
nothing: the slice panics. -/
theorem loop_prefix_panics (c : Config) (fuel : Nat) (wok : Nat → Bool) (b : Buf) (inp : List Byte)
    (hpa : ¬ c.prefixLength ≤ b.arr.length) : shardsOf (loop c fuel wok b inp).events = [] := by
  have hno : ∀ s, Event.write s ∉ (iteration c (wok 0) b inp).events := by
    intro s hs
    have h1 := (iteration_write_inv c (wok 0) b inp s hs).1
    unfold slice at h1
    split_ifs at h1 with h2
    exact hpa h2.2
  cases fuel with
  | zero => rfl
  | succ fuel =>
    by_cases hne : b.len = 0
    · simp [loop, hne, shardsOf]
    · simp only [loop, hne, if_false]
      cases hit : iteration c (wok 0) b inp with
      | done o evs =>
        simp only
        rw [hit] at hno
        cases hs : shardsOf evs with
        | nil => rfl
        | cons s t =>
          exact absurd (mem_shardsOf s evs (by rw [hs]; exact List.mem_cons_self _ _)) (hno s)
      | next b3 inp3 evs =>
        obtain ⟨i, arr1, sh, _, hevs, _⟩ := iteration_next_inv c (wok 0) b inp b3 inp3 evs hit
        rw [hit] at hno
        exact absurd (by rw [hevs]; simp [Step.events]) (hno sh)

/-- On sorted records, whatever the capacity: every shard is written to the
path computed from its prefix, every record flushed to it carries that prefix,
and it holds what the specification says of these records. -/
theorem loop_grouped_any (c : Config) (hh : 1 ≤ c.hashSize)
    (hp : c.prefixLength ≤ c.hashSize) :
    ∀ (fuel : Nat) (wok : Nat → Bool) (b : Buf) (inp : List Byte), b.len ≤ b.arr.length →
      PrefixSorted c (b.window ++ inp) →
      ∀ s, s ∈ shardsOf (loop c fuel wok b inp).events →
        prefixPath s.pfx c.pathFormat = some s.path ∧
          (∀ r, r ∈ records c.hashSize s.raw → r.take c.prefixLength = s.pfx) ∧
          s.content = written c s.raw := by
  intro fuel
  induction fuel with
  | zero => intro wok b inp _ _ s hs; simp [loop, shardsOf] at hs
  | succ fuel ih =>
    intro wok b inp hlen hs s hmem
    by_cases hne : b.len = 0
    · simp [loop, hne, shardsOf] at hmem
    · by_cases hpa : c.prefixLength ≤ b.arr.length
      · obtain ⟨i, path, b2, _, hin, h3, h4, hpath, hl2, hn2, hw2, hloop⟩ :=
          loop_step c fuel wok b inp hh hp hlen hpa hne
        have hwl := window_length b hlen
        have hih : i * c.hashSize ≤ b.len :=
          le_trans (Nat.mul_le_mul_right _ hin) (Nat.div_mul_le_self _ _)
        have hnR : b.len / c.hashSize ≤ (b.window ++ inp).length / c.hashSize :=
          Nat.div_le_div_right (by rw [List.length_append, hwl]; omega)
        have hlink : ∀ m, m < b.len / c.hashSize →
            recPrefix c b.arr m = recPrefix c (b.window ++ inp) m :=
          fun m hm => recPrefix_window c b inp m hlen (record_bound _ _ _ _ _ hp (le_refl _) hm)
        have hbr := sorted_bracket c (b.window ++ inp) i (b.len / c.hashSize) hs hnR hin
          (fun hpos => by rw [← hlink _ (by omega), ← hlink _ (by omega)]; exact h3 hpos)
          (fun hlt => by rw [← hlink _ hlt, ← hlink _ (by omega)]; exact h4 hlt)
        have hdrop : b2.window ++ inp.drop (i * c.hashSize) =
            (b.window ++ inp).drop (i * c.hashSize) := by
          rw [hw2, List.drop_append_of_le_length (by omega), List.append_assoc,
            List.take_append_drop]
        have hs2 : PrefixSorted c (b2.window ++ inp.drop (i * c.hashSize)) := by
          rw [hdrop]; exact prefixSorted_drop c _ i hh hs
        have hlen2 : b2.len ≤ b2.arr.length := by rw [hn2, hl2]; omega
        rw [hloop] at hmem
        by_cases hB2 : (i : Int) = toInt c.bufferSize
        · simp [hB2, shardsOf_warnEvents] at hmem
        · cases hw : wok 0 with
          | false => simp [hB2, hw, shardsOf_warnEvents] at hmem
          | true =>
            simp only [hB2, hw, if_false, if_true, shardsOf_step, List.mem_cons] at hmem
            rcases hmem with rfl | hmem
            · refine ⟨hpath, fun r hr => ?_, rfl⟩
              simp only [shardAt] at hr ⊢
              rw [records_take _ _ _ hh (by omega)] at hr
              obtain ⟨m, hm, rfl⟩ := mem_chunk _ _ _ _ hr
              have h0 : b.arr.take c.prefixLength = recPrefix c (b.window ++ inp) 0 := by
                rw [← hlink 0 (by omega), recPrefix_zero]
              rw [List.take_take, Nat.min_eq_left hp, h0, ← hbr.1 m hm, ← hlink m (by omega)]
              rfl
            · exact ih _ b2 _ hlen2 hs2 s hmem
      · rw [loop_prefix_panics c _ wok b inp hpa] at hmem
        simp at hmem

/-- The program is the loop on the buffer filled by the first read, or it stops
before the loop without an event. -/
theorem run_cases (c : Config) (fuel : Nat) (wok : Nat → Bool) (input : List Byte) :
    (run c fuel wok input).events = [] ∨
      ∃ b, b.len ≤ b.arr.length ∧ b.window ++ input.drop c.capacity = input ∧
        run c fuel wok input = loop c fuel wok b (input.drop c.capacity) := by
  by_cases hcap : 2 ^ 63 ≤ c.capacity
  · left
    simp only [run, if_pos hcap]
  · by_cases hne : input = []
    · left
      simp only [run, if_neg hcap]
      cases hi : initBuf c input with
      | none => rfl
      | some r =>
        obtain ⟨b, rest⟩ := r
        obtain ⟨hl, _, _⟩ := initBuf_some c input b rest hi
        exact loop_len_zero c fuel wok b rest (by rw [hl, hne]; simp)
    · right
      obtain ⟨b, h1, h2, h3, _, h5, _⟩ := initBuf_capacity c input hne
      exact ⟨b, h3, by rw [h5, List.take_append_drop], by simp only [run, if_neg hcap, h1]⟩

/-- With the capacity 0 the first read returns at once, the loop is not entered
and the program ends normally, whatever the input. -/
theorem run_cap_zero_ok (c : Config) (fuel : Nat) (wok : Nat → Bool) (input : List Byte)
    (h0 : c.capacity = 0) :
    run c (fuel + 1) wok input = { events := [], outcome := Outcome.ok } := by
  have h1 : ¬ ((2 : Nat) ^ 63 ≤ 0) := by norm_num
  simp only [run, initBuf, readFull, h0, Nat.zero_le, if_true, if_neg h1, loop]

/-! ### Streams of one repeated byte -/

theorem recPrefix_replicate (c : Config) (N m : Nat) (x : Byte) :
    recPrefix c (List.replicate N x) m =
      List.replicate (min c.prefixLength (N - m * c.hashSize)) x := by
  rw [recPrefix, List.drop_replicate, List.take_replicate]

theorem sortedRecords_replicate (h N : Nat) (x : Byte) :
    SortedRecords h (List.replicate N x) := by
  unfold SortedRecords records
  apply List.pairwise_of_forall_mem_list
  intro a ha b hb
  obtain ⟨m, hm, rfl⟩ := mem_chunk _ _ _ _ ha
  obtain ⟨k, hk, rfl⟩ := mem_chunk _ _ _ _ hb
  rw [List.length_replicate] at hm hk
  have hb1 : ∀ j, j < N / h → min h (N - j * h) = h := by
    intro j hj
    have h1 : (j + 1) * h ≤ N / h * h := Nat.mul_le_mul_right _ hj
    have h2 := Nat.div_mul_le_self N h
    have h3 : (j + 1) * h = j * h + h := by ring
    omega
  rw [List.drop_replicate, List.take_replicate, List.drop_replicate, List.take_replicate,
    hb1 m hm, hb1 k hk, bytesCompare_self]

theorem longRun_replicate (c : Config) (N : Nat) (x : Byte) (hh : 1 ≤ c.hashSize)
    (hp : c.prefixLength ≤ c.hashSize) (hN : c.bufferSize * c.hashSize ≤ N) :
    LongRun c (List.replicate N x) := by
  refine ⟨0, ?_, fun k hk => ?_⟩
  · rw [List.length_replicate, Nat.zero_add]
    exact (Nat.le_div_iff_mul_le (by omega)).mpr hN
  · rw [recPrefix_replicate, recPrefix_replicate]
    have h1 : (k + 1) * c.hashSize ≤ c.bufferSize * c.hashSize := Nat.mul_le_mul_right _ hk
    have h3 : (k + 1) * c.hashSize = k * c.hashSize + c.hashSize := by ring
    congr 1
    simp only [Nat.zero_add, Nat.zero_mul, Nat.sub_zero]
    omega

/-! ### Well formed states of any capacity -/

/-- The loop body never stops the program with a normal end. -/
theorem iteration_done_ne_ok (c : Config) (w : Bool) (b : Buf) (inp : List Byte)
    (o : Outcome) (evs : List Event) (h : iteration c w b inp = Step.done o evs) :
    o ≠ Outcome.ok := by
  intro ho
  subst ho
  by_cases hh0 : c.hashSize = 0
  · simp [iteration, hh0] at h
  · cases hr : runLength c b with
    | none => simp [iteration, hh0, hr] at h
    | some i =>
      by_cases hB : (i : Int) = toInt c.bufferSize
      · simp [iteration, hh0, hr, hB] at h
      · cases hs : slice b.arr 0 c.prefixLength with
        | none => simp [iteration, hh0, hr, hB, hs] at h
        | some pfx =>
          cases hpp : prefixPath pfx c.pathFormat with
          | none => simp [iteration, hh0, hr, hB, hs, hpp] at h
          | some path =>
            cases hst : (if c.stripPrefix then stripLoop c b.len i 0 b.arr else some b.arr) with
            | none => simp [iteration, hh0, hr, hB, hs, hpp, hst] at h
            | some arr1 =>
              cases hc : slice arr1 0 (if c.stripPrefix then i * c.hashSize - i * c.prefixLength
                  else i * c.hashSize) with
              | none => simp [iteration, hh0, hr, hB, hs, hpp, hst, hc] at h
              | some content =>
                cases w with
                | false => simp [iteration, hh0, hr, hB, hs, hpp, hst, hc] at h
                | true =>
                  cases hrf : refill c b arr1 i inp with
                  | none => simp [iteration, hh0, hr, hB, hs, hpp, hst, hc, hrf] at h
                  | some r => simp [iteration, hh0, hr, hB, hs, hpp, hst, hc, hrf] at h

/-- When `buf[:prefixLength]` reaches beyond the backing array the loop body
does not hand over to a next iteration. -/
theorem iteration_prefix_panics (c : Config) (w : Bool) (b : Buf) (inp : List Byte)
    (hpa : ¬ c.prefixLength ≤ b.arr.length) :
    ∃ o evs, iteration c w b inp = Step.done o evs := by
  cases hit : iteration c w b inp with
  | done o evs => exact ⟨o, evs, rfl⟩
  | next b3 inp3 evs =>
    obtain ⟨i, arr1, sh, _, hevs, _⟩ := iteration_next_inv c w b inp b3 inp3 evs hit
    have hmem : Event.write sh ∈ (iteration c w b inp).events := by
      rw [hit, hevs]; simp [Step.events]
    have h1 := (iteration_write_inv c w b inp sh hmem).1
    unfold slice at h1
    split_ifs at h1 with h2
    exact absurd h2.2 hpa

/-- One pass through the loop body on a well formed state of any capacity that
holds the prefix of its first record. -/
theorem iteration_filled (c : Config) (w : Bool) (b : Buf) (inp : List Byte)
    (hh : 1 ≤ c.hashSize) (hp : c.prefixLength ≤ c.hashSize) (hf : Filled b inp)
    (hpa : c.prefixLength ≤ b.arr.length) :
    ∃ i path b2, runLength c b = some i ∧ i * c.hashSize ≤ b.len ∧
      (c.hashSize ≤ b.len → 1 ≤ i) ∧
      b2.arr.length = b.arr.length ∧ Filled b2 (inp.drop (i * c.hashSize)) ∧
      b2.len = b.len - i * c.hashSize + min (i * c.hashSize) inp.length ∧
      b2.window ++ inp.drop (i * c.hashSize) = (b.window ++ inp).drop (i * c.hashSize) ∧
      (iteration c w b inp =
        if (i : Int) = toInt c.bufferSize then
          Step.done Outcome.bufferTooSmall (warnEvents c b)
        else if w = true then
          Step.next b2 (inp.drop (i * c.hashSize))
            (warnEvents c b ++ [Event.write (shardAt c b i path)])
        else Step.done Outcome.writeFailed (warnEvents c b)) ∧
      prefixPath (b.arr.take c.prefixLength) c.pathFormat = some path := by
  obtain ⟨i, hi, hin, _, _, h5⟩ := runLength_spec c b hp hf.1
  obtain ⟨path, b2, hpath, hl2, hn2, hw2, hit⟩ := iteration_eq c w b inp hh hp hf.1 hpa i hi hin
  have hih : i * c.hashSize ≤ b.len :=
    le_trans (Nat.mul_le_mul_right _ hin) (Nat.div_mul_le_self _ _)
  have hwl := window_length b hf.1
  refine ⟨i, path, b2, hi, hih, fun hle => h5 ((Nat.le_div_iff_mul_le (by omega)).mpr
    (by omega)), hl2, ⟨?_, ?_⟩, hn2, ?_, hit, hpath⟩
  · rw [hn2, hl2]
    have := hf.1
    omega
  · intro hlt
    rw [hn2, hl2] at hlt
    by_cases hle : i * c.hashSize ≤ inp.length
    · have : b.len < b.arr.length := by omega
      rw [hf.2 this, List.drop_nil]
    · exact List.drop_of_length_le (by omega)
  · rw [hw2, List.drop_append_of_le_length (by omega), List.append_assoc,
      List.take_append_drop]

/-- Whatever the capacity: what the loop writes before it ends normally adds up
to the bytes that were in the buffer and in the stream. -/
theorem loop_complete_any (c : Config) (hh : 1 ≤ c.hashSize)
    (hp : c.prefixLength ≤ c.hashSize) :
    ∀ (fuel : Nat) (wok : Nat → Bool) (b : Buf) (inp : List Byte), Filled b inp →
      0 < b.arr.length → (loop c fuel wok b inp).outcome = Outcome.ok →
      ((shardsOf (loop c fuel wok b inp).events).map Shard.content).flatten =
        written c (b.window ++ inp) := by
  intro fuel
  induction fuel with
  | zero => intro wok b inp _ _ h; simp [loop] at h
  | succ fuel ih =>
    intro wok b inp hf hpos hok
    by_cases hne : b.len = 0
    · have hinp : inp = [] := hf.2 (by omega)
      simp [loop, hne, shardsOf, Buf.window, hinp, written_nil]
    · by_cases hpa : c.prefixLength ≤ b.arr.length
      · obtain ⟨i, path, b2, _, hih, _, hl2, hf2, _, hdrop, hit, _⟩ :=
          iteration_filled c (wok 0) b inp hh hp hf hpa
        simp only [loop, hne, if_false, hit] at hok ⊢
        by_cases hB2 : (i : Int) = toInt c.bufferSize
        · simp [hB2] at hok
        · cases hw : wok 0 with
          | false => simp [hB2, hw] at hok
          | true =>
            simp only [hB2, hw, if_false, if_true] at hok ⊢
            have hrec := ih _ b2 _ hf2 (by rw [hl2]; exact hpos) hok
            rw [shardsOf_step, List.map_cons, List.flatten_cons, hrec, hdrop]
            have hwl := window_length b hf.1
            have htake : b.arr.take (i * c.hashSize) =
                (b.window ++ inp).take (i * c.hashSize) := by
              rw [List.take_append_of_le_length (by omega), Buf.window, List.take_take,
                Nat.min_eq_left hih]
            have hlen : ((b.window ++ inp).take (i * c.hashSize)).length = i * c.hashSize := by
              simp only [List.length_take, List.length_append, hwl]; omega
            simp only [shardAt, htake]
            rw [← written_append c i _ _ hh hlen, List.take_append_drop]
      · obtain ⟨o, evs, hit⟩ := iteration_prefix_panics c (wok 0) b inp hpa
        simp only [loop, hne, if_false, hit] at hok
        exact absurd hok (iteration_done_ne_ok c (wok 0) b inp o evs hit)

/-- Whatever the capacity, on whole records and with a buffer that holds at
least one record: every shard holds at least one record, the shards together
hold no more records than the buffer and the stream, and the loop stops within
one iteration per record plus one. -/
theorem loop_count_any (c : Config) (hh : 1 ≤ c.hashSize)
    (hp : c.prefixLength ≤ c.hashSize) :
    ∀ (fuel : Nat) (wok : Nat → Bool) (b : Buf) (inp : List Byte), Filled b inp →
      c.hashSize ≤ b.arr.length → c.hashSize ∣ (b.window ++ inp).length →
      (∀ s, s ∈ shardsOf (loop c fuel wok b inp).events →
          1 ≤ s.count ∧ s.raw.length = s.count * c.hashSize) ∧
        ((shardsOf (loop c fuel wok b inp).events).map Shard.count).sum * c.hashSize ≤
          (b.window ++ inp).length ∧
        ((b.window ++ inp).length / c.hashSize < fuel →
          (loop c fuel wok b inp).outcome ≠ Outcome.outOfFuel) := by
  intro fuel
  induction fuel with
  | zero =>
    intro wok b inp _ _ _
    exact ⟨by simp [loop, shardsOf], by simp [loop, shardsOf],
      fun h => absurd h (Nat.not_lt_zero _)⟩
  | succ fuel ih =>
    intro wok b inp hf hK hd
    by_cases hne : b.len = 0
    · simp [loop, hne, shardsOf]
    · have hwl := window_length b hf.1
      have hle : c.hashSize ≤ b.len := by
        by_cases hlt : b.len < b.arr.length
        · have hd2 := hd
          rw [hf.2 hlt, List.append_nil, hwl] at hd2
          exact Nat.le_of_dvd (by omega) hd2
        · have := hf.1
          omega
      obtain ⟨i, path, b2, _, hih, h5, hl2, hf2, _, hdrop, hit, _⟩ :=
        iteration_filled c (wok 0) b inp hh hp hf (by omega)
      have hi1 : 1 ≤ i := h5 hle
      have hhi : c.hashSize ≤ i * c.hashSize := Nat.le_mul_of_pos_left _ hi1
      have hRlen : i * c.hashSize ≤ (b.window ++ inp).length := by
        rw [List.length_append, hwl]; omega
      have hd3 : c.hashSize ∣ (b2.window ++ inp.drop (i * c.hashSize)).length := by
        rw [hdrop, List.length_drop]
        exact Nat.dvd_sub' hd (Dvd.intro_left _ rfl)
      simp only [loop, hne, if_false, hit]
      by_cases hB2 : (i : Int) = toInt c.bufferSize
      · simp [hB2, shardsOf_warnEvents]
      · cases hw : wok 0 with
        | false => simp [hB2, shardsOf_warnEvents]
        | true =>
          obtain ⟨ih1, ih2, ih3⟩ := ih (fun k => wok (k + 1)) b2 _ hf2 (by rw [hl2]; exact hK) hd3
          rw [hdrop, List.length_drop] at ih2 ih3
          simp only [hB2, if_false, if_true, shardsOf_step]
          refine ⟨fun s hmem => ?_, ?_, fun hfuel => ih3 ?_⟩
          · rcases List.mem_cons.mp hmem with rfl | hmem
            · refine ⟨hi1, ?_⟩
              have := hf.1
              simp only [shardAt, List.length_take]
              omega
            · exact ih1 s hmem
          · rw [List.map_cons, List.sum_cons, Nat.add_mul]
            simp only [shardAt]
            omega
          · have h6 : (b.window ++ inp).length - i * c.hashSize + c.hashSize ≤
                (b.window ++ inp).length := by omega
            have h7 := Nat.div_le_div_right (c := c.hashSize) h6
            rw [Nat.add_div_right _ (by omega)] at h7
            omega

/-- Whatever the capacity: at the top of every iteration the buffer is the
front of what is still to be processed, as long as the backing array, and on
whole records with a buffer of at least one record it is empty or holds a whole
record. -/
theorem topStates_any (c : Config) (input : List Byte) (hh : 1 ≤ c.hashSize)
    (hp : c.prefixLength ≤ c.hashSize) :
    ∀ (fuel : Nat) (wok : Nat → Bool) (F : Nat) (b : Buf) (inp : List Byte), Filled b inp →
      input.drop F = b.window ++ inp →
      ∀ G b2, (G, b2) ∈ topStates c fuel wok F b inp →
        b2.arr.length = b.arr.length ∧ b2.len ≤ b2.arr.length ∧
          b2.window = (input.drop G).take b.arr.length ∧
          (c.hashSize ≤ b.arr.length → c.hashSize ∣ (input.drop F).length →
            b2.len ≠ 0 → c.hashSize ≤ b2.len) := by
  intro fuel
  induction fuel with
  | zero => intro wok F b inp _ _ G b2 h; simp [topStates] at h
  | succ fuel ih =>
    intro wok F b inp hf hR G b2 hmem
    have hwl := window_length b hf.1
    simp only [topStates, List.mem_cons, Prod.mk.injEq] at hmem
    rcases hmem with ⟨rfl, rfl⟩ | hmem
    · refine ⟨rfl, hf.1, ?_, fun hK hd hne => ?_⟩
      · rw [hR]
        by_cases hlt : b2.len < b2.arr.length
        · rw [hf.2 hlt, List.append_nil, List.take_of_length_le (by omega)]
        · have := hf.1
          rw [List.take_append_of_le_length (by omega), List.take_of_length_le (by omega)]
      · by_cases hlt : b2.len < b2.arr.length
        · rw [hR, hf.2 hlt, List.append_nil, hwl] at hd
          exact Nat.le_of_dvd (by omega) hd
        · have := hf.1
          omega
    · by_cases hne : b.len = 0
      · simp [hne] at hmem
      · rw [if_neg hne] at hmem
        by_cases hpa : c.prefixLength ≤ b.arr.length
        · obtain ⟨i, path, b3, _, hih, _, hl3, hf3, _, hdrop, hit, _⟩ :=
            iteration_filled c (wok 0) b inp hh hp hf hpa
          rw [hit] at hmem
          by_cases hB2 : (i : Int) = toInt c.bufferSize
          · simp [hB2] at hmem
          · cases hw : wok 0 with
            | false => simp [hB2, hw] at hmem
            | true =>
              simp only [hB2, hw, if_false, if_true, flushedBytes_step, shardAt] at hmem
              have hR3 : input.drop (F + i * c.hashSize) =
                  b3.window ++ inp.drop (i * c.hashSize) := by
                rw [hdrop, ← hR, List.drop_drop]
              obtain ⟨h1, h2, h3, h4⟩ := ih _ _ b3 _ hf3 hR3 G b2 hmem
              rw [hl3] at h1 h3 h4
              refine ⟨h1, h2, h3, fun hK hd => h4 hK ?_⟩
              rw [← List.drop_drop, List.length_drop]
              exact Nat.dvd_sub' hd (Dvd.intro_left _ rfl)
        · obtain ⟨o, evs, hit⟩ := iteration_prefix_panics c (wok 0) b inp hpa
          simp [hit] at hmem

/-- The program on a non-empty input, with a capacity that can be allocated: it
is the loop on a well formed state that holds the whole input. -/
theorem run_filled (c : Config) (fuel : Nat) (wok : Nat → Bool) (input : List Byte)
    (hne : input ≠ []) (hcap : ¬ 2 ^ 63 ≤ c.capacity) :
    ∃ b, Filled b (input.drop c.capacity) ∧ b.arr.length = c.capacity ∧
      b.window ++ input.drop c.capacity = input ∧
      run c fuel wok input = loop c fuel wok b (input.drop c.capacity) ∧
      runStates c fuel wok input = topStates c fuel wok 0 b (input.drop c.capacity) := by
  obtain ⟨b, h1, h2, h3, h4, h5, _⟩ := initBuf_capacity c input hne
  refine ⟨b, ⟨h3, fun hlt => h4 (by rw [← h2]; exact hlt)⟩, h2,
    by rw [h5, List.take_append_drop], by simp only [run, if_neg hcap, h1],
    by simp only [runStates, if_neg hcap, h1]⟩

/-! ### Trailing bytes, any capacity -/

theorem filled_len (b : Buf) (inp : List Byte) (hf : Filled b inp) :
    b.len = min b.arr.length (b.window ++ inp).length := by
  have hwl := window_length b hf.1
  have h1 := hf.1
  rw [List.length_append, hwl]
  by_cases hlt : b.len < b.arr.length
  · rw [hf.2 hlt]
    simp only [List.length_nil, Nat.add_zero]
    omega
  · omega

/-- Trailing bytes behind whole records: how the lengths of the two buffers
compare, whatever the capacity. -/
theorem trailing_lengths_any (h cap r t L LT : Nat) (hh : 1 ≤ h) (hr : h ∣ r)
    (ht : t < h) (hL : L = min cap r) (hLT : LT = min cap (r + t)) :
    L ≤ LT ∧ LT / h = L / h := by
  by_cases hge : cap ≤ r
  · have h1 : L = cap := by omega
    have h2 : LT = cap := by omega
    rw [h1, h2]
    exact ⟨le_refl _, rfl⟩
  · obtain ⟨k, rfl⟩ := hr
    have h1 : L = h * k := by omega
    have h4 : (k + 1) * h = h * k + h := by ring
    have h5 : k * h = h * k := Nat.mul_comm _ _
    refine ⟨by omega, ?_⟩
    rw [h1, Nat.mul_div_cancel_left _ (by omega)]
    exact Nat.div_eq_of_lt_le (by omega) (by omega)

/-- A buffer that holds less than one record, whatever the capacity: the search
returns 0, an empty file is written, and the buffer stays as it is. -/
theorem loop_short_any (c : Config) (hh : 1 ≤ c.hashSize)
    (hp : c.prefixLength ≤ c.hashSize) :
    ∀ (fuel : Nat) (wok : Nat → Bool) (b : Buf) (inp : List Byte), Filled b inp →
      b.len < c.hashSize →
      (∀ s, s ∈ shardsOf (loop c fuel wok b inp).events → s.count = 0 ∧ s.content = []) ∧
        (b.len ≠ 0 → (loop c fuel wok b inp).outcome ≠ Outcome.ok) := by
  intro fuel
  induction fuel with
  | zero => intro wok b inp _ _; simp [loop, shardsOf]
  | succ fuel ih =>
    intro wok b inp hf hlt
    by_cases hne : b.len = 0
    · simp [loop, hne, shardsOf]
    · by_cases hpa : c.prefixLength ≤ b.arr.length
      · obtain ⟨i, path, b2, _, hih, _, _, hf2, hn2, _, hit, _⟩ :=
          iteration_filled c (wok 0) b inp hh hp hf hpa
        have hi0 : i = 0 := by
          rcases Nat.eq_zero_or_pos i with h0 | h0
          · exact h0
          · have : c.hashSize ≤ i * c.hashSize := Nat.le_mul_of_pos_left _ h0
            omega
        have hlen2 : b2.len = b.len := by rw [hn2, hi0]; simp
        simp only [loop, hne, if_false, hit]
        by_cases hB2 : (i : Int) = toInt c.bufferSize
        · simp [hB2, shardsOf_warnEvents]
        · cases hw : wok 0 with
          | false => simp [hB2, shardsOf_warnEvents]
          | true =>
            obtain ⟨ih1, ih2⟩ := ih (fun k => wok (k + 1)) b2 _ hf2 (by rw [hlen2]; exact hlt)
            simp only [hB2, if_false, if_true, shardsOf_step]
            refine ⟨fun s hmem => ?_, fun _ => ih2 (by rw [hlen2]; exact hne)⟩
            rcases List.mem_cons.mp hmem with rfl | hmem
            · exact ⟨hi0, by simp only [shardAt, hi0, Nat.zero_mul, List.take_zero, written_nil]⟩
            · exact ih1 s hmem
      · refine ⟨fun s hmem => ?_, fun _ => ?_⟩
        · rw [loop_prefix_panics c _ wok b inp hpa] at hmem
          simp at hmem
        · obtain ⟨o, evs, hit⟩ := iteration_prefix_panics c (wok 0) b inp hpa
          simp only [loop, hne, if_false, hit]
          exact iteration_done_ne_ok c (wok 0) b inp o evs hit

/-- The run on whole records followed by less than one record of trailing
bytes, in lockstep with the run on the whole records alone, for every capacity
of at least one record. -/
theorem loop_trailing_any (c : Config) (t : List Byte) (hh : 1 ≤ c.hashSize)
    (hp : c.prefixLength ≤ c.hashSize) (ht0 : t ≠ []) (ht : t.length < c.hashSize) :
    ∀ (fuel : Nat) (wok : Nat → Bool) (b : Buf) (inp : List Byte) (bT : Buf) (inpT : List Byte),
      Filled b inp → Filled bT inpT → bT.arr.length = b.arr.length →
      c.hashSize ≤ b.arr.length → b.arr.length < 2 ^ 63 →
      c.hashSize ∣ (b.window ++ inp).length →
      bT.window ++ inpT = (b.window ++ inp) ++ t →
      (∃ extra, shardsOf (loop c fuel wok bT inpT).events =
          shardsOf (loop c fuel wok b inp).events ++ extra ∧
          (∀ s, s ∈ extra → s.count = 0 ∧ s.content = []) ∧
          (extra ≠ [] → (loop c fuel wok b inp).outcome = Outcome.ok)) ∧
        ((loop c fuel wok b inp).outcome = Outcome.ok →
          Event.warn ∈ (loop c fuel wok bT inpT).events ∧
            (loop c fuel wok bT inpT).outcome ≠ Outcome.ok) ∧
        ((loop c fuel wok b inp).outcome = Outcome.bufferTooSmall →
          (loop c fuel wok bT inpT).outcome = Outcome.bufferTooSmall) ∧
        ((loop c fuel wok b inp).outcome = Outcome.writeFailed →
          (loop c fuel wok bT inpT).outcome = Outcome.writeFailed) := by
  intro fuel
  induction fuel with
  | zero =>
    intro wok b inp bT inpT _ _ _ _ _ _ _
    exact ⟨⟨[], by simp [loop, shardsOf], by simp, by simp⟩, by simp [loop], by simp [loop],
      by simp [loop]⟩
  | succ fuel ih =>
    intro wok b inp bT inpT hf hfT hKT hK h63 hd hR
    have hwl := window_length b hf.1
    have hwlT := window_length bT hfT.1
    have hLT : bT.len = min b.arr.length ((b.window ++ inp).length + t.length) := by
      rw [filled_len bT inpT hfT, hR, List.length_append, hKT]
    obtain ⟨hle, hdiv⟩ := trailing_lengths_any c.hashSize b.arr.length
      (b.window ++ inp).length t.length b.len bT.len hh hd ht (filled_len b inp hf) hLT
    have htpos : 0 < t.length := List.length_pos.mpr ht0
    have h63h : c.hashSize < 2 ^ 63 := by omega
    have hpaT : c.prefixLength ≤ bT.arr.length := by omega
    by_cases hne : b.len = 0
    · have hinp : inp = [] := hf.2 (by omega)
      have hlenT : bT.len = t.length := by
        rw [hLT, List.length_append, hwl, hne, hinp]
        simp only [List.length_nil, Nat.add_zero, Nat.zero_add]
        omega
      obtain ⟨hs1, hs2⟩ := loop_short_any c hh hp (fuel + 1) wok bT inpT hfT (by omega)
      have hneT : bT.len ≠ 0 := by omega
      refine ⟨?_, fun _ => ⟨?_, hs2 hneT⟩, ?_, ?_⟩
      · have e : shardsOf (loop c (fuel + 1) wok b inp).events = [] := by simp [loop, hne, shardsOf]
        exact ⟨_, by rw [e, List.nil_append], hs1, fun _ => by simp [loop, hne]⟩
      · obtain ⟨i, path, b2, _, _, _, _, _, _, _, hit, _⟩ :=
          iteration_filled c (wok 0) bT inpT hh hp hfT hpaT
        have hwarn : warnEvents c bT = [Event.warn] := by
          have : bT.len % c.hashSize ≠ 0 := by
            rw [hlenT, Nat.mod_eq_of_lt ht]; omega
          rw [warnEvents_eq c bT h63h, if_pos this]
        simp only [loop, hneT, if_false, hit, hwarn]
        split_ifs <;> simp
      · simp [loop, hne]
      · simp [loop, hne]
    · have hneT : bT.len ≠ 0 := by omega
      have hge : c.hashSize ≤ b.len := by
        by_cases hlt : b.len < b.arr.length
        · have hd2 := hd
          rw [hf.2 hlt, List.append_nil, hwl] at hd2
          exact Nat.le_of_dvd (by omega) hd2
        · have := hf.1
          omega
      obtain ⟨i, path, b2, hi, hih, h5, hl2, hf2, _, hdrop, hit, hpath⟩ :=
        iteration_filled c (wok 0) b inp hh hp hf (by omega)
      obtain ⟨iT, pathT, bT2, hiT, _, _, hlT2, hfT2, _, hdropT, hitT, hpathT⟩ :=
        iteration_filled c (wok 0) bT inpT hh hp hfT hpaT
      have hi1 : 1 ≤ i := h5 hge
      have hhi : c.hashSize ≤ i * c.hashSize := Nat.le_mul_of_pos_left _ hi1
      have harr : bT.arr.take b.len = b.arr.take b.len := by
        have h1 := congrArg (List.take b.len) hR
        rw [List.append_assoc, List.take_append_of_le_length (by omega),
          List.take_append_of_le_length (by omega), Buf.window, Buf.window, List.take_take,
          List.take_take, Nat.min_eq_left hle, Nat.min_self] at h1
        exact h1
      have hrl : runLength c bT = runLength c b :=
        runLength_congr c b bT hp hf.1 hfT.1 hdiv.symm
          (take_of_take_eq _ _ _ _ harr (Nat.div_mul_le_self _ _))
      have hii : iT = i := by
        rw [hrl, hi] at hiT
        exact (Option.some.inj hiT).symm
      subst hii
      have hpfx : bT.arr.take c.prefixLength = b.arr.take c.prefixLength :=
        take_of_take_eq _ _ _ _ harr (by omega)
      have hpp : pathT = path := by
        rw [hpfx, hpath] at hpathT
        exact (Option.some.inj hpathT).symm
      subst hpp
      have hshard : shardAt c bT iT pathT = shardAt c b iT pathT := by
        simp only [shardAt, hpfx, take_of_take_eq _ _ _ _ harr hih]
      have hR2 : bT2.window ++ inpT.drop (iT * c.hashSize) =
          (b2.window ++ inp.drop (iT * c.hashSize)) ++ t := by
        rw [hdropT, hdrop, hR,
          List.drop_append_of_le_length (by rw [List.length_append, hwl]; omega)]
      have hd3 : c.hashSize ∣ (b2.window ++ inp.drop (iT * c.hashSize)).length := by
        rw [hdrop, List.length_drop]
        exact Nat.dvd_sub' hd (Dvd.intro_left _ rfl)
      obtain ⟨ih1, ih2, ih3, ih4⟩ := ih (fun k => wok (k + 1)) b2 _ bT2 _ hf2 hfT2
        (by rw [hlT2, hl2, hKT]) (by rw [hl2]; exact hK) (by rw [hl2]; exact h63) hd3 hR2
      simp only [loop, hne, hneT, if_false, hit, hitT]
      by_cases hB2 : (iT : Int) = toInt c.bufferSize
      · simp [hB2, shardsOf_warnEvents]
      · cases hw : wok 0 with
        | false => simp [hB2, shardsOf_warnEvents]
        | true =>
          simp only [hB2, if_false, if_true, shardsOf_step]
          obtain ⟨extra, he1, he2, he3⟩ := ih1
          refine ⟨⟨extra, ?_, he2, he3⟩, fun hok => ⟨?_, (ih2 hok).2⟩, ih3, ih4⟩
          · rw [he1, hshard, List.cons_append]
          · exact List.mem_append_right _ (ih2 hok).1

/-! ## The claims

In the statements below, `c.capacity` is the buffer length asked for at line 57,
`(hashSize * bufferSize) mod 2 ^ 64`, and `hashSize * bufferSize < 2 ^ 63` says
that the product fits a Go `int`: it does not wrap around, the allocation does
not panic, and `int(*hashSize)` and `int(*bufferSize)` are the flag values
themselves. -/

/-- C1, as stated, fails: with records of two bytes and
`--buffer-size 9223372036854775808` the product `2 * 2 ^ 63` of line 57 wraps
around to the capacity 0.  On the single record `aa` the first read returns at
once, the loop is not entered, and the run ends normally without writing a
file, while the input without its prefixes is `a`. -/
theorem partition_complete_counterexample :
    1 ≤ wrapZeroConfig.hashSize ∧ 1 ≤ wrapZeroConfig.bufferSize ∧
      wrapZeroConfig.bufferSize < 2 ^ 64 ∧
      wrapZeroConfig.prefixLength ≤ wrapZeroConfig.hashSize ∧
      wrapZeroConfig.hashSize ∣ (ascii "aa").length ∧
      run wrapZeroConfig 1 allOk (ascii "aa") = { events := [], outcome := Outcome.ok } ∧
      ((run wrapZeroConfig 1 allOk (ascii "aa")).shards.map Shard.content).flatten ≠
        (if wrapZeroConfig.stripPrefix then
          stripAll wrapZeroConfig.hashSize wrapZeroConfig.prefixLength (ascii "aa")
        else ascii "aa") := by
  decide

/-- C1, amended: partition completeness.  For every configuration with
`hashSize ≥ 1` and `prefixLength ≤ hashSize` whose buffer is not empty (the
length `(hashSize * bufferSize) mod 2 ^ 64` allocated at line 57 is not 0, which
implies `bufferSize ≥ 1`), every write oracle and every input, sorted or not: if
the run ends normally, the contents of the files written (the bytes handed to
the successive calls of `WriteFile`), concatenated in the order of writing, are
the input itself (`stripPrefix` false) or the input with the first
`prefixLength` bytes of every record removed (`stripPrefix` true).  Moreover,
when the buffer holds at least one record and the input is made of whole
records, the run does stop, within one iteration per record plus one. -/
theorem partition_complete (c : Config) (wok : Nat → Bool) (input : List Byte)
    (hh : 1 ≤ c.hashSize) (hp : c.prefixLength ≤ c.hashSize) (hcap : c.capacity ≠ 0) :
    (∀ fuel, (run c fuel wok input).outcome = Outcome.ok →
      ((run c fuel wok input).shards.map Shard.content).flatten =
        if c.stripPrefix then stripAll c.hashSize c.prefixLength input else input) ∧
      (c.hashSize ≤ c.capacity → c.hashSize ∣ input.length →
        ∀ fuel, input.length / c.hashSize < fuel →
          (run c fuel wok input).outcome ≠ Outcome.outOfFuel) := by
  by_cases hbig : 2 ^ 63 ≤ c.capacity
  · have hrun : ∀ fuel, run c fuel wok input = Result.mk [] Outcome.panicked :=
      fun fuel => by simp only [run, if_pos hbig]
    exact ⟨fun fuel hok => by rw [hrun] at hok; exact absurd hok (by decide),
      fun _ _ fuel _ => by rw [hrun]; decide⟩
  · by_cases hne : input = []
    · subst hne
      have hrun : ∀ fuel, run c fuel wok [] = Result.mk [] Outcome.readFailed :=
        fun fuel => by simp only [run, if_neg hbig, initBuf_nil c (by omega)]
      exact ⟨fun fuel hok => by rw [hrun] at hok; exact absurd hok (by decide),
        fun _ _ fuel _ => by rw [hrun]; decide⟩
    · refine ⟨fun fuel hok => ?_, fun hK hin fuel hfuel => ?_⟩
      · obtain ⟨b, hf, hl, hw, hrun, _⟩ := run_filled c fuel wok input hne hbig
        rw [hrun] at hok
        have := loop_complete_any c hh hp fuel wok b _ hf (by rw [hl]; omega) hok
        rw [hw] at this
        rw [Result.shards, hrun, this, written]
      · obtain ⟨b, hf, hl, hw, hrun, _⟩ := run_filled c fuel wok input hne hbig
        rw [hrun]
        exact (loop_count_any c hh hp fuel wok b _ hf (by rw [hl]; exact hK)
          (by rw [hw]; exact hin)).2.2 (by rw [hw]; exact hfuel)

/-- C1, two instances: the unsorted records `bb aa bc` with a one-byte prefix;
and the records `aa ab` with the capacity wrapped around to one record. -/
theorem partition_complete_witness :
    ((run { tinyConfig with bufferSize := 4 } 4 allOk (ascii "bbaabc")).outcome = Outcome.ok ∧
      ((run { tinyConfig with bufferSize := 4 } 4 allOk (ascii "bbaabc")).shards.map
        Shard.content).flatten = ascii "bac") ∧
    ((run wrapOneConfig 3 allOk (ascii "aaab")).outcome = Outcome.ok ∧
      ((run wrapOneConfig 3 allOk (ascii "aaab")).shards.map Shard.content).flatten =
        ascii "ab") :=
  ⟨⟨by decide,
    ((partition_complete { tinyConfig with bufferSize := 4 } allOk (ascii "bbaabc") (by decide)
      (by decide) (by decide)).1 4 (by decide)).trans (by decide)⟩,
    ⟨by decide,
    ((partition_complete wrapOneConfig allOk (ascii "aaab") (by decide)
      (by decide) (by decide)).1 3 (by decide)).trans (by decide)⟩⟩

/-- C2, grouping correctness.  For every input of whole records sorted in
ascending byte order and every configuration with `hashSize ≥ 1`,
`bufferSize ≥ 1` and `prefixLength ≤ hashSize`: every file written was written
to the path computed from `pfx`, the first `prefixLength` bytes of the buffer of
that iteration, every record flushed to it has `pfx` as its first
`prefixLength` bytes, and the file holds these records (stripped of the prefix
when `stripPrefix` is set). -/
theorem grouping_correct (c : Config) (wok : Nat → Bool) (input : List Byte)
    (hh : 1 ≤ c.hashSize) (hB : 1 ≤ c.bufferSize) (hp : c.prefixLength ≤ c.hashSize)
    (hin : c.hashSize ∣ input.length) (hs : SortedRecords c.hashSize input) :
    ∀ fuel s, s ∈ (run c fuel wok input).shards →
      prefixPath s.pfx c.pathFormat = some s.path ∧
        (∀ r, r ∈ records c.hashSize s.raw → r.take c.prefixLength = s.pfx) ∧
        s.content = (if c.stripPrefix then stripAll c.hashSize c.prefixLength s.raw else s.raw) := by
  intro fuel s hmem
  -- the property holds for every capacity and every input length
  have _ := hB
  have _ := hin
  rcases run_cases c fuel wok input with h0 | ⟨b, hlen, hw, hrun⟩
  · rw [Result.shards, h0] at hmem
    simp [shardsOf] at hmem
  · rw [Result.shards, hrun] at hmem
    exact loop_grouped_any c hh hp fuel wok b _ hlen
      (by rw [hw]; exact prefixSorted_of_sorted c input hp hs) s hmem

/-- C2, an instance: the first file of the scenario of the specification. -/
theorem grouping_correct_witness :
    demoShard ∈ (run demoConfig 3 allOk demoInput).shards ∧
      prefixPath demoShard.pfx demoConfig.pathFormat = some demoShard.path ∧
      (∀ r, r ∈ records demoConfig.hashSize demoShard.raw →
        r.take demoConfig.prefixLength = demoShard.pfx) ∧
      demoShard.content = (if demoConfig.stripPrefix then
        stripAll demoConfig.hashSize demoConfig.prefixLength demoShard.raw else demoShard.raw) :=
  ⟨by decide, grouping_correct demoConfig allOk demoInput (by decide) (by decide) (by decide)
    (by decide) (by unfold SortedRecords; decide) 3 demoShard (by decide)⟩

/-- C3, as stated, fails: with records of two bytes and
`--buffer-size 9223372036854775809` the product of line 57 wraps around to the
capacity 2, one record, and `int(*bufferSize)` is negative, so that the test of
line 75 never holds.  The sorted records `aa ab` are flushed one by one: two
files are written for the one prefix `a`. -/
theorem shards_increasing_counterexample :
    wrapOneConfig.bufferSize < 2 ^ 64 ∧
      wrapOneConfig.prefixLength ≤ wrapOneConfig.hashSize ∧
      wrapOneConfig.hashSize ∣ (ascii "aaab").length ∧
      SortedRecords wrapOneConfig.hashSize (ascii "aaab") ∧
      (run wrapOneConfig 3 allOk (ascii "aaab")).outcome = Outcome.ok ∧
      (run wrapOneConfig 3 allOk (ascii "aaab")).shards.map Shard.pfx =
        [ascii "a", ascii "a"] ∧
      ¬ ((run wrapOneConfig 3 allOk (ascii "aaab")).shards.map Shard.pfx).Pairwise
        (fun x y => bytesCompare x y < 0) := by
  unfold SortedRecords
  decide

/-- C3, amended: order and distinctness of shards.  For every sorted input of
whole records and every configuration with `prefixLength ≤ hashSize` (so that
records have a prefix) and `hashSize * bufferSize < 2 ^ 64` (the `uint` product
of line 57 does not wrap around), the prefixes of the files written, in the
order of writing, are strictly increasing in byte order: they are
non-decreasing and no two files have the same prefix. -/
theorem shards_increasing (c : Config) (wok : Nat → Bool) (input : List Byte)
    (hp : c.prefixLength ≤ c.hashSize) (h64 : c.hashSize * c.bufferSize < 2 ^ 64)
    (hin : c.hashSize ∣ input.length) (hs : SortedRecords c.hashSize input) :
    ∀ fuel, ((run c fuel wok input).shards.map Shard.pfx).Pairwise
      (fun x y => bytesCompare x y < 0) := by
  intro fuel
  by_cases hbig : 2 ^ 63 ≤ c.capacity
  · simp only [Result.shards, run, if_pos hbig]
    simp [shardsOf]
  have hnw : c.hashSize * c.bufferSize < 2 ^ 63 := by
    rw [capacity_eq c h64] at hbig
    omega
  by_cases hcap : c.hashSize * c.bufferSize = 0
  · rw [Result.shards, run_cap_zero c fuel wok input (by rw [capacity_eq c h64]; exact hcap)]
    simp [shardsOf]
  · have hh : 1 ≤ c.hashSize := by
      rcases Nat.eq_zero_or_pos c.hashSize with h0 | h0
      · rw [h0, Nat.zero_mul] at hcap; exact absurd rfl hcap
      · exact h0
    have hB : 1 ≤ c.bufferSize := by
      rcases Nat.eq_zero_or_pos c.bufferSize with h0 | h0
      · rw [h0, Nat.mul_zero] at hcap; exact absurd rfl hcap
      · exact h0
    by_cases hne : input = []
    · subst hne
      rw [Result.shards, run_nil c fuel wok hh hB hnw]
      simp [shardsOf]
    · obtain ⟨b, hf, hw, hl, hrun⟩ := run_eq_loop c fuel wok input hne hnw
      rw [Result.shards, hrun]
      exact (loop_increasing c hh hB hp fuel wok b _ hf (by rw [hl]; exact dvd_min_cap c _ hin)
        (dvd_drop_cap c input hin)
        (by rw [hw]; exact prefixSorted_of_sorted c input hp hs)).1

/-- C3, an instance: the scenario of the specification writes `a` then `b`. -/
theorem shards_increasing_witness :
    (run demoConfig 3 allOk demoInput).shards.map Shard.pfx = [ascii "a", ascii "b"] ∧
      ((run demoConfig 3 allOk demoInput).shards.map Shard.pfx).Pairwise
        (fun x y => bytesCompare x y < 0) :=
  ⟨by decide, shards_increasing demoConfig allOk demoInput (by decide) (by decide) (by decide)
    (by unfold SortedRecords; decide) 3⟩

/-- C4, as stated, fails: with records of two bytes and
`--buffer-size 9223372036854775808` the capacity wraps around to 0, so the
first read returns at once without reading, the loop is not entered and the run
ends normally whatever the input.  On a stream of `2 ^ 64` bytes `a`, which is
sorted and is one run of `2 ^ 63 = bufferSize` records with the prefix `a`, the
claim demands the "buffer too small" error. -/
theorem capacity_boundary_counterexample :
    1 ≤ wrapZeroConfig.hashSize ∧ 1 ≤ wrapZeroConfig.bufferSize ∧
      wrapZeroConfig.bufferSize < 2 ^ 64 ∧
      wrapZeroConfig.prefixLength ≤ wrapZeroConfig.hashSize ∧
      hugeInput ≠ [] ∧ wrapZeroConfig.hashSize ∣ hugeInput.length ∧
      SortedRecords wrapZeroConfig.hashSize hugeInput ∧
      LongRun wrapZeroConfig hugeInput ∧
      ∀ fuel, run wrapZeroConfig (fuel + 1) allOk hugeInput =
        { events := [], outcome := Outcome.ok } := by
  have hlen : hugeInput.length = 2 ^ 64 := List.length_replicate _ _
  refine ⟨by decide, by decide, by decide, by decide, ?_, ?_, ?_, ?_, ?_⟩
  · intro h
    rw [h] at hlen
    exact absurd hlen (by norm_num)
  · rw [hlen]
    exact ⟨2 ^ 63, by norm_num [wrapZeroConfig]⟩
  · exact sortedRecords_replicate 2 (2 ^ 64) 97
  · exact longRun_replicate wrapZeroConfig (2 ^ 64) 97 (by decide) (by decide)
      (by norm_num [wrapZeroConfig])
  · intro fuel
    exact run_cap_zero_ok wrapZeroConfig fuel allOk hugeInput (by decide)

/-- C4, amended: capacity boundary.  For every configuration with
`hashSize ≥ 1`, `bufferSize ≥ 1` and `prefixLength ≤ hashSize` and every
non-empty sorted input of whole records, all writes succeeding, provided that
`hashSize * bufferSize < 2 ^ 63` or that `bufferSize` is a `uint` value (below
`2 ^ 64`) and the input is shorter than `bufferSize` records (as is every input
shorter than `2 ^ 63` bytes when the product is `2 ^ 63` or more): the run stops
with "buffer too small" if and only if the input contains a run of at least
`bufferSize` consecutive records that share one prefix.  So a run of exactly
`bufferSize` records triggers the error and an input whose longest run has
`bufferSize - 1` records does not. -/
theorem capacity_boundary (c : Config) (input : List Byte)
    (hh : 1 ≤ c.hashSize) (hB : 1 ≤ c.bufferSize) (hp : c.prefixLength ≤ c.hashSize)
    (hdom : c.hashSize * c.bufferSize < 2 ^ 63 ∨
      (c.bufferSize < 2 ^ 64 ∧ input.length < c.hashSize * c.bufferSize))
    (hne : input ≠ []) (hin : c.hashSize ∣ input.length)
    (hs : SortedRecords c.hashSize input) :
    ∀ fuel, input.length / c.hashSize < fuel →
      ((run c fuel allOk input).outcome = Outcome.bufferTooSmall ↔ LongRun c input) := by
  intro fuel hfuel
  by_cases hnw : c.hashSize * c.bufferSize < 2 ^ 63
  · obtain ⟨b, hf, hw, hl, hrun⟩ := run_eq_loop c fuel allOk input hne hnw
    have e : b.len + (input.drop (c.hashSize * c.bufferSize)).length = input.length := by
      rw [← window_length b hf.2.1, ← List.length_append, hw]
    have := loop_capacity c hh hB hp fuel allOk b _ (fun _ => rfl) hf
      (by rw [hl]; exact dvd_min_cap c _ hin) (dvd_drop_cap c input hin)
      (by rw [hw]; exact prefixSorted_of_sorted c input hp hs) (by rw [e]; exact hfuel)
    rw [hw] at this
    rw [hrun]
    exact this.1
  · have hdom2 : c.bufferSize < 2 ^ 64 ∧ input.length < c.hashSize * c.bufferSize := by
      rcases hdom with h | h
      · exact absurd h hnw
      · exact h
    have hshort := hdom2.2
    refine ⟨fun h => ?_, fun h => ?_⟩
    · exact absurd h (run_not_tooSmall c fuel allOk input hdom2.1 hshort)
    · obtain ⟨s, hs1, _⟩ := h
      have h1 : c.bufferSize ≤ input.length / c.hashSize := by omega
      have h2 := (Nat.le_div_iff_mul_le (by omega)).mp h1
      rw [Nat.mul_comm] at h2
      omega

/-- C4, two instances: with a buffer of two records the two records `aaaa aaab`
of the scenario are a run that fills it; and with the capacity wrapped around
to 2 the three bytes `abc`, one record, neither hold a run of `bufferSize`
records nor stop the program with "buffer too small". -/
theorem capacity_boundary_witness :
    (((run { demoConfig with bufferSize := 2 } 5 allOk demoInput).outcome =
        Outcome.bufferTooSmall ↔ LongRun { demoConfig with bufferSize := 2 } demoInput) ∧
      (run { demoConfig with bufferSize := 2 } 5 allOk demoInput).outcome =
        Outcome.bufferTooSmall) ∧
      ((run wrapShortConfig 2 allOk (ascii "abc")).outcome = Outcome.bufferTooSmall ↔
        LongRun wrapShortConfig (ascii "abc")) :=
  ⟨⟨capacity_boundary { demoConfig with bufferSize := 2 } demoInput (by decide) (by decide)
      (by decide) (Or.inl (by decide)) (by decide) (by decide)
      (by unfold SortedRecords; decide) 5 (by decide), by decide⟩,
    capacity_boundary wrapShortConfig (ascii "abc") (by decide) (by decide) (by decide)
      (Or.inr ⟨by decide, by decide⟩) (by decide) (by decide)
      (by unfold SortedRecords; decide) 2 (by decide)⟩

/-- C5, empty input.  On an empty input stream the first `io.ReadFull` returns
`io.EOF`, which line 59 does not accept: with the default configuration the
program writes no file but stops with "failed to read" and exit code 1, not 0. -/
theorem empty_input_exits_one (fuel : Nat) (wok : Nat → Bool) :
    run defaultConfig fuel wok [] = { events := [], outcome := Outcome.readFailed } ∧
      exitCode (run defaultConfig fuel wok []).outcome = some 1 := by
  have h := run_nil defaultConfig fuel wok (by decide) (by decide) (by decide)
  rw [h]
  exact ⟨rfl, rfl⟩

/-- C6, strip result.  In every iteration on a non-empty buffer (with
`hashSize ≥ 1` and `prefixLength ≤ hashSize`) that writes a file after the search
returned `i`: the records flushed are the first `i` records of the buffer; with
`stripPrefix` the bytes written are, in the original order, the last
`hashSize - prefixLength` bytes of each of them, `i * (hashSize - prefixLength)`
bytes in all; without it they are the `i` records unchanged, `i * hashSize`
bytes. -/
theorem strip_result (c : Config) (w : Bool) (b : Buf) (input : List Byte)
    (hh : 1 ≤ c.hashSize) (hp : c.prefixLength ≤ c.hashSize)
    (hcap : b.arr.length = c.hashSize * c.bufferSize) (hlen : b.len ≤ b.arr.length)
    (hne : 0 < b.len) :
    ∀ s, Event.write s ∈ (iteration c w b input).events →
      runLength c b = some s.count ∧
        s.raw = b.window.take (s.count * c.hashSize) ∧
        (records c.hashSize s.raw).length = s.count ∧
        (∀ r, r ∈ records c.hashSize s.raw →
          r.length = c.hashSize ∧ (r.drop c.prefixLength).length = c.hashSize - c.prefixLength) ∧
        s.content = (if c.stripPrefix then
          ((records c.hashSize s.raw).map (List.drop c.prefixLength)).flatten else s.raw) ∧
        s.content.length =
          s.count * (if c.stripPrefix then c.hashSize - c.prefixLength else c.hashSize) := by
  intro s hmem
  have hB : 1 ≤ c.bufferSize := by
    rcases Nat.eq_zero_or_pos c.bufferSize with h0 | h0
    · rw [h0, Nat.mul_zero] at hcap; omega
    · exact h0
  have hpa : c.prefixLength ≤ b.arr.length := by
    have : c.hashSize * 1 ≤ c.hashSize * c.bufferSize := Nat.mul_le_mul_left _ hB
    omega
  obtain ⟨i, hi, hin, _⟩ := runLength_spec c b hp hlen
  obtain ⟨path, b2, _, _, _, _, hit⟩ := iteration_eq c w b input hh hp hlen hpa i hi hin
  have hih : i * c.hashSize ≤ b.len :=
    le_trans (Nat.mul_le_mul_right _ hin) (Nat.div_mul_le_self _ _)
  have hwarn : Event.write s ∉ warnEvents c b := by
    unfold warnEvents
    split_ifs <;> simp
  have hs : s = shardAt c b i path := by
    rw [hit] at hmem
    by_cases hB2 : (i : Int) = toInt c.bufferSize
    · simp only [hB2, if_true, Step.events] at hmem
      exact absurd hmem hwarn
    · cases w with
      | false =>
        simp only [hB2, if_false, Step.events, Bool.false_eq_true] at hmem
        exact absurd hmem hwarn
      | true =>
        simp only [hB2, if_false, if_true, Step.events, List.mem_append, List.mem_singleton,
          Event.write.injEq] at hmem
        rcases hmem with hmem | hmem
        · exact absurd hmem hwarn
        · exact hmem
  subst hs
  have hrec : records c.hashSize (b.arr.take (i * c.hashSize)) = chunk c.hashSize i b.arr :=
    records_take _ _ _ hh (by omega)
  simp only [shardAt, hrec]
  refine ⟨hi, ?_, chunk_length _ _ _, fun r hr => ?_, ?_, ?_⟩
  · rw [Buf.window, List.take_take, Nat.min_eq_left hih]
  · have := mem_chunk_length c.hashSize i b.arr (by omega) r hr
    rw [List.length_drop, this]
    exact ⟨rfl, rfl⟩
  · rw [written, stripAll, hrec]
  · rw [written, stripAll, hrec]
    cases c.stripPrefix with
    | false =>
      simp only [Bool.false_eq_true, if_false, List.length_take]
      omega
    | true =>
      simp only [if_true]
      exact length_strip_chunk c.hashSize c.prefixLength i b.arr (by omega)

/-- C6, an instance: the first iteration of the scenario flushes two records
and writes their three-byte suffixes. -/
theorem strip_result_witness :
    Event.write demoShard ∈ (iteration demoConfig true demoBuf (ascii "bbab")).events ∧
      runLength demoConfig demoBuf = some demoShard.count ∧
      demoShard.raw = demoBuf.window.take (demoShard.count * demoConfig.hashSize) ∧
      (records demoConfig.hashSize demoShard.raw).length = demoShard.count ∧
      (∀ r, r ∈ records demoConfig.hashSize demoShard.raw →
        r.length = demoConfig.hashSize ∧
          (r.drop demoConfig.prefixLength).length =
            demoConfig.hashSize - demoConfig.prefixLength) ∧
      demoShard.content = (if demoConfig.stripPrefix then
        ((records demoConfig.hashSize demoShard.raw).map
          (List.drop demoConfig.prefixLength)).flatten else demoShard.raw) ∧
      demoShard.content.length = demoShard.count *
        (if demoConfig.stripPrefix then demoConfig.hashSize - demoConfig.prefixLength
          else demoConfig.hashSize) :=
  ⟨by decide, strip_result demoConfig true demoBuf (ascii "bbab") (by decide) (by decide)
    (by decide) (by decide) (by decide) demoShard (by decide)⟩

/-- C7, as stated, fails: with the template `%%` and the prefix `%a`, whose
length is the number of wildcards, `prefixPath` returns `a%`, while replacing
the k-th wildcard by the k-th byte gives `%a`. -/
theorem prefixPath_percent_counterexample :
    countByte (ascii "%%") percent = (ascii "%a").length ∧
      prefixPath (ascii "%a") (ascii "%%") = some (ascii "a%") ∧
      substitute (ascii "%%") (ascii "%a") = ascii "%a" ∧
      prefixPath (ascii "%a") (ascii "%%") ≠ some (substitute (ascii "%%") (ascii "%a")) := by
  decide

/-- C7, amended.  For every path template and every prefix whose length equals
the number of `'%'` characters of the template and in which no `'%'` byte is
followed by a different byte (in particular every prefix without a `'%'` byte),
`prefixPath` returns the template with its k-th `'%'` from the left replaced by
the k-th byte of the prefix and every other character unchanged. -/
theorem prefixPath_substitute (format pfx : List Byte)
    (hlen : pfx.length = countByte format percent)
    (hno : ∀ x, x ∈ pfx.dropWhile (fun y => decide (y ≠ percent)) → x = percent) :
    prefixPath pfx format = some (substitute format pfx) :=
  prefixPathLoop_substitute_tail format pfx (le_of_eq hlen) hno

/-- C7, an instance: the prefix `ab1` in the template `%/%%.txt`. -/
theorem prefixPath_substitute_witness :
    prefixPath (ascii "ab1") (ascii "%/%%.txt") = some (ascii "a/b1.txt") :=
  (prefixPath_substitute (ascii "%/%%.txt") (ascii "ab1") (by decide) (by decide)).trans
    (by decide)

/-- C8, as stated, fails, in three ways.  The input `aa` followed by the
trailing byte `b`, read with a buffer of one record of two bytes, stops with
"buffer too small" in the first iteration, whose buffer holds the whole record
only: no warning is ever emitted.  With a buffer of two records, the record `aa`
followed by the trailing byte `a` is flushed to the path `a` as its run on the
record alone does, but the iterations on the trailing byte then write the empty
file to the same path `a`, so the file of the record does not keep its content.
And with `--buffer-size 9223372036854775808` the capacity wraps around to 0: the
run on `aa` followed by `b` does not enter the loop and emits no warning. -/
theorem trailing_no_warning_counterexample :
    (ascii "aab" = ascii "aa" ++ ascii "b" ∧
      Event.warn ∉ (run tinyConfig 3 allOk (ascii "aab")).events ∧
      (run tinyConfig 3 allOk (ascii "aab")).outcome = Outcome.bufferTooSmall) ∧
    (ascii "aaa" = ascii "aa" ++ ascii "a" ∧
      (run pairConfig 3 allOk (ascii "aa")).shards.map (fun s => (s.path, s.content)) =
        [(ascii "a", ascii "a")] ∧
      (run pairConfig 3 allOk (ascii "aaa")).shards.map (fun s => (s.path, s.content)) =
        [(ascii "a", ascii "a"), (ascii "a", []), (ascii "a", [])]) ∧
    (1 ≤ wrapZeroConfig.hashSize ∧ 1 ≤ wrapZeroConfig.bufferSize ∧
      wrapZeroConfig.bufferSize < 2 ^ 64 ∧
      run wrapZeroConfig 1 allOk (ascii "aab") = { events := [], outcome := Outcome.ok }) := by
  decide

/-- C8, amended.  For every configuration with `hashSize ≥ 1` and
`prefixLength ≤ hashSize` whose buffer holds at least one record (`hashSize ≤ C`,
where `C = (hashSize * bufferSize) mod 2 ^ 64` is the length allocated at line
57; this implies `bufferSize ≥ 1`) and every input made of `k ≥ 1` whole records
followed by `r` trailing bytes, `0 < r < hashSize`: the calls of `WriteFile` of
the run begin with exactly the calls (paths and contents, in order) of the run
on the `k` records alone, which stops within `k + 1` iterations; every later
call, if there is one, comes after that run has ended normally, flushes no
record and hands over an empty content (its path is computed from the trailing
bytes and can be the path of a file written before); the run stops with "buffer
too small" or on a failed write wherever the run on the records alone does, so
the divisibility check stops nothing; and when the run on the records alone ends
normally, the warning is emitted. -/
theorem trailing_bytes (c : Config) (wok : Nat → Bool) (whole trail : List Byte)
    (hh : 1 ≤ c.hashSize) (hp : c.prefixLength ≤ c.hashSize) (hK : c.hashSize ≤ c.capacity)
    (hk : whole ≠ []) (hw : c.hashSize ∣ whole.length) (ht0 : trail ≠ [])
    (ht : trail.length < c.hashSize) :
    (∀ fuel, ∃ extra,
        (run c fuel wok (whole ++ trail)).shards = (run c fuel wok whole).shards ++ extra ∧
        (∀ s, s ∈ extra → s.count = 0 ∧ s.content = []) ∧
        (extra ≠ [] → (run c fuel wok whole).outcome = Outcome.ok)) ∧
      (∀ fuel, whole.length / c.hashSize < fuel →
        (run c fuel wok whole).outcome ≠ Outcome.outOfFuel) ∧
      (∀ fuel, (run c fuel wok whole).outcome = Outcome.bufferTooSmall →
        (run c fuel wok (whole ++ trail)).outcome = Outcome.bufferTooSmall) ∧
      (∀ fuel, (run c fuel wok whole).outcome = Outcome.writeFailed →
        (run c fuel wok (whole ++ trail)).outcome = Outcome.writeFailed) ∧
      (∀ fuel, (run c fuel wok whole).outcome = Outcome.ok →
        Event.warn ∈ (run c fuel wok (whole ++ trail)).events) := by
  have hneT : whole ++ trail ≠ [] := by simp [hk]
  by_cases hbig : 2 ^ 63 ≤ c.capacity
  · have hrun : ∀ fuel input, run c fuel wok input = Result.mk [] Outcome.panicked :=
      fun fuel input => by simp only [run, if_pos hbig]
    refine ⟨fun fuel => ⟨[], by rw [hrun, hrun]; rfl, by simp, by simp⟩,
      fun fuel _ => by rw [hrun]; decide, fun fuel h => ?_, fun fuel h => ?_,
      fun fuel h => ?_⟩
    · rw [hrun] at h; exact absurd h (by decide)
    · rw [hrun] at h; exact absurd h (by decide)
    · rw [hrun] at h; exact absurd h (by decide)
  · have key : ∀ fuel, ∃ b bT inp inpT, run c fuel wok whole = loop c fuel wok b inp ∧
        run c fuel wok (whole ++ trail) = loop c fuel wok bT inpT ∧
        Filled b inp ∧ Filled bT inpT ∧ bT.arr.length = b.arr.length ∧
        c.hashSize ≤ b.arr.length ∧ b.arr.length < 2 ^ 63 ∧
        c.hashSize ∣ (b.window ++ inp).length ∧ (b.window ++ inp).length = whole.length ∧
        bT.window ++ inpT = (b.window ++ inp) ++ trail := by
      intro fuel
      obtain ⟨b, hf, hl, hwb, hrun, _⟩ := run_filled c fuel wok whole hk hbig
      obtain ⟨bT, hfT, hlT, hwT, hrunT, _⟩ := run_filled c fuel wok (whole ++ trail) hneT hbig
      exact ⟨b, bT, _, _, hrun, hrunT, hf, hfT, by rw [hl, hlT], by rw [hl]; exact hK,
        by rw [hl]; omega, by rw [hwb]; exact hw, by rw [hwb], by rw [hwT, hwb]⟩
    refine ⟨fun fuel => ?_, fun fuel hfuel => ?_, fun fuel h => ?_, fun fuel h => ?_,
      fun fuel h => ?_⟩
    · obtain ⟨b, bT, inp, inpT, hr, hrT, hf, hfT, hKT, hK2, h63, hd, _, hR⟩ := key fuel
      rw [Result.shards, Result.shards, hr, hrT]
      exact (loop_trailing_any c trail hh hp ht0 ht fuel wok b inp bT inpT hf hfT hKT hK2 h63
        hd hR).1
    · obtain ⟨b, bT, inp, inpT, hr, hrT, hf, hfT, hKT, hK2, h63, hd, hlen, hR⟩ := key fuel
      rw [hr]
      exact (loop_count_any c hh hp fuel wok b inp hf hK2 hd).2.2 (by rw [hlen]; exact hfuel)
    · obtain ⟨b, bT, inp, inpT, hr, hrT, hf, hfT, hKT, hK2, h63, hd, _, hR⟩ := key fuel
      rw [hr] at h
      rw [hrT]
      exact (loop_trailing_any c trail hh hp ht0 ht fuel wok b inp bT inpT hf hfT hKT hK2 h63
        hd hR).2.2.1 h
    · obtain ⟨b, bT, inp, inpT, hr, hrT, hf, hfT, hKT, hK2, h63, hd, _, hR⟩ := key fuel
      rw [hr] at h
      rw [hrT]
      exact (loop_trailing_any c trail hh hp ht0 ht fuel wok b inp bT inpT hf hfT hKT hK2 h63
        hd hR).2.2.2 h
    · obtain ⟨b, bT, inp, inpT, hr, hrT, hf, hfT, hKT, hK2, h63, hd, _, hR⟩ := key fuel
      rw [hr] at h
      rw [hrT]
      exact ((loop_trailing_any c trail hh hp ht0 ht fuel wok b inp bT inpT hf hfT hKT hK2 h63
        hd hR).2.1 h).1

/-- C8, two instances: the scenario of the specification followed by the two
bytes `xy`, where six iterations write the two files of the scenario and then
four empty files; and, with the capacity wrapped around to one record of two
bytes, the records `aa ab` followed by the byte `x`. -/
theorem trailing_bytes_witness :
    ((∃ extra, (run demoConfig 6 allOk (demoInput ++ ascii "xy")).shards =
        (run demoConfig 6 allOk demoInput).shards ++ extra ∧
        (∀ s, s ∈ extra → s.count = 0 ∧ s.content = []) ∧
        (extra ≠ [] → (run demoConfig 6 allOk demoInput).outcome = Outcome.ok)) ∧
      (run demoConfig 6 allOk (demoInput ++ ascii "xy")).shards.length = 6 ∧
      (run demoConfig 6 allOk demoInput).shards.length = 2 ∧
      Event.warn ∈ (run demoConfig 6 allOk (demoInput ++ ascii "xy")).events) ∧
    Event.warn ∈ (run wrapOneConfig 3 allOk (ascii "aaab" ++ ascii "x")).events :=
  ⟨⟨(trailing_bytes demoConfig allOk demoInput (ascii "xy") (by decide) (by decide) (by decide)
      (by decide) (by decide) (by decide) (by decide)).1 6,
    by decide, by decide,
    (trailing_bytes demoConfig allOk demoInput (ascii "xy") (by decide) (by decide) (by decide)
      (by decide) (by decide) (by decide) (by decide)).2.2.2.2 6 (by decide)⟩,
    (trailing_bytes wrapOneConfig allOk (ascii "aaab") (ascii "x") (by decide) (by decide)
      (by decide) (by decide) (by decide) (by decide) (by decide)).2.2.2.2 3 (by decide)⟩

/-- C9, as stated, fails: the default of `--path` is not the string `%/%%%`,
and the default `prefixLength` is not the number of wildcards of that string. -/
theorem default_path_counterexample :
    defaultConfig.pathFormat ≠ ascii "%/%%%" ∧
      defaultConfig.prefixLength ≠ countByte (ascii "%/%%%") percent := by
  decide

/-- C9, amended.  When no `--path` option is given, the path template is the
string `%%/%%%` (a first path segment of two wildcards, then a segment of
three), and `prefixLength` is the number of `'%'` characters in that string,
which is 5. -/
theorem default_path_format :
    defaultConfig.pathFormat = ascii "%%/%%%" ∧
      defaultConfig.prefixLength = countByte (ascii "%%/%%%") percent ∧
      defaultConfig.prefixLength = 5 := by
  decide

/-- C10, run length by binary search.  For every buffer that holds `n ≥ 1`
whole records sorted in ascending byte order, with `hashSize ≥ 1` and
`prefixLength ≤ hashSize`: the binary search returns, and the index it returns
is the result of the linear scan for the first record whose prefix differs from
that of record 0; it is at most `n`, every record before it has the prefix of
record 0, and, when it is below `n`, the record at it has a different prefix. -/
theorem runLength_eq_linearScan (c : Config) (b : Buf)
    (hh : 1 ≤ c.hashSize) (hp : c.prefixLength ≤ c.hashSize) (hlen : b.len ≤ b.arr.length)
    (hd : c.hashSize ∣ b.len) (hne : b.len ≠ 0) (hs : SortedRecords c.hashSize b.window) :
    runLength c b = some (linearScan c b.window) ∧
      linearScan c b.window ≤ b.len / c.hashSize ∧
      (∀ m, m < linearScan c b.window → recPrefix c b.window m = recPrefix c b.window 0) ∧
      (linearScan c b.window < b.len / c.hashSize →
        recPrefix c b.window (linearScan c b.window) ≠ recPrefix c b.window 0) := by
  obtain ⟨i, hi, hin, h3, h4, _⟩ := runLength_spec c b hp hlen
  have hwl := window_length b hlen
  have hn1 : 1 ≤ b.len / c.hashSize := whole_pos _ _ hh hd hne
  have hlink : ∀ m, m < b.len / c.hashSize → recPrefix c b.window m = recPrefix c b.arr m :=
    fun m hm => recPrefix_take c b.arr b.len m (record_bound _ _ _ _ _ hp (le_refl _) hm)
  have hbr := sorted_bracket c b.window i (b.len / c.hashSize)
    (prefixSorted_of_sorted c b.window hp hs) (by rw [hwl]) hin
    (fun hpos => by rw [hlink _ (by omega), hlink _ (by omega)]; exact h3 hpos)
    (fun hlt => by rw [hlink _ hlt, hlink _ (by omega)]; exact h4 hlt)
  have hscan : linearScan c b.window = i := by
    unfold linearScan
    rw [hwl]
    exact scanFrom_spec c b.window i (b.len / c.hashSize) 0 (Nat.zero_le _) (by omega)
      (fun m _ hm => hbr.1 m hm) (fun hlt => hbr.2 i (le_refl _) (by omega))
  rw [hscan]
  exact ⟨hi, hin, hbr.1, fun hlt => hbr.2 i (le_refl _) hlt⟩

/-- C10, an instance: three sorted records, the first two with the prefix `a`. -/
theorem runLength_eq_linearScan_witness :
    runLength demoConfig demoBuf = some 2 ∧
      linearScan demoConfig demoBuf.window = 2 :=
  ⟨(runLength_eq_linearScan demoConfig demoBuf (by decide)
      (by decide) (by decide) (by decide) (by decide)
      (by unfold SortedRecords; decide)).1.trans (by decide),
    by decide⟩

/-- C11, termination.  The loop does not halt on every finite input: with the
configuration of the scenario (`hashSize` 4, `prefixLength` 1, every write
succeeding) and its four records followed by the two bytes `xy`, the run has
not stopped after any number of iterations; the same holds for the single byte
`a` read with records of two bytes.  Once the buffer holds less than one record
the search returns 0, nothing is flushed or read, and the buffer never
changes. -/
theorem trailing_bytes_never_halt (fuel : Nat) :
    demoConfig.prefixLength < demoConfig.hashSize ∧
      (run demoConfig fuel allOk (demoInput ++ ascii "xy")).outcome = Outcome.outOfFuel ∧
      (run tinyConfig fuel allOk (ascii "a")).outcome = Outcome.outOfFuel := by
  refine ⟨by decide, ?_, ?_⟩
  · apply run_trailing_forever demoConfig demoInput (ascii "xy") (by decide) (by decide)
      (by decide) (by decide) (by decide) (by decide) (by decide) fuel
    right
    by_cases h3 : 3 ≤ fuel
    · left
      have h : (run demoConfig 3 allOk demoInput).outcome = Outcome.ok := by decide
      rw [run_fuel_le demoConfig allOk demoInput 3 fuel (by rw [h]; decide) h3, h]
    · right
      have hlt : fuel < 3 := by omega
      interval_cases fuel <;> decide
  · have := run_trailing_forever tinyConfig [] (ascii "a") (by decide) (by decide) (by decide)
      (by decide) (by decide) (by decide) (by decide) fuel (Or.inl rfl)
    simpa using this

/-- C12, as stated, fails: with records of two bytes and
`--buffer-size 9223372036854775809` the product of line 57 wraps around to the
capacity 2.  At the top of the first iteration on the input `aaab` the buffer
holds the two bytes `aa`, not the input bytes from 0 to
`min (hashSize * bufferSize) 4 = 4`. -/
theorem sliding_window_counterexample :
    1 ≤ wrapOneConfig.hashSize ∧ 1 ≤ wrapOneConfig.bufferSize ∧
      wrapOneConfig.bufferSize < 2 ^ 64 ∧
      wrapOneConfig.prefixLength ≤ wrapOneConfig.hashSize ∧
      wrapOneConfig.hashSize ∣ (ascii "aaab").length ∧
      (0, Buf.mk (ascii "aa") 2) ∈ runStates wrapOneConfig 3 allOk (ascii "aaab") ∧
      (Buf.mk (ascii "aa") 2).window = ascii "aa" ∧
      ((ascii "aaab").take
        (min (0 + wrapOneConfig.hashSize * wrapOneConfig.bufferSize)
          (ascii "aaab").length)).drop 0 = ascii "aaab" := by
  decide

/-- C12, amended: sliding-window invariant.  For every configuration with
`hashSize ≥ 1` and `prefixLength ≤ hashSize`, every write oracle and every input
(of whole records or not), with `stripPrefix` set or not: at the top of every
loop iteration the buffer holds exactly the input bytes from offset `F` up to
`min (F + C) (input length)`, where `C = (hashSize * bufferSize) mod 2 ^ 64` is
the buffer length allocated at line 57 and `F` is the number of input bytes of
the records flushed so far.  When the product is below `2 ^ 64`, `C` is
`hashSize * bufferSize`. -/
theorem sliding_window (c : Config) (wok : Nat → Bool) (input : List Byte)
    (hh : 1 ≤ c.hashSize) (hp : c.prefixLength ≤ c.hashSize) :
    ∀ fuel F b, (F, b) ∈ runStates c fuel wok input →
      b.window = (input.take (min (F + c.capacity) input.length)).drop F ∧
        (c.hashSize * c.bufferSize < 2 ^ 64 →
          b.window =
            (input.take (min (F + c.hashSize * c.bufferSize) input.length)).drop F) := by
  intro fuel F b hmem
  have key : b.window = (input.take (min (F + c.capacity) input.length)).drop F := by
    by_cases hbig : 2 ^ 63 ≤ c.capacity
    · simp only [runStates, if_pos hbig] at hmem
      simp at hmem
    · by_cases hne : input = []
      · subst hne
        simp only [runStates, if_neg hbig] at hmem
        cases hi : initBuf c [] with
        | none => simp [hi] at hmem
        | some r =>
          obtain ⟨b0, rest⟩ := r
          obtain ⟨hl, _, _⟩ := initBuf_some c [] b0 rest hi
          have h0 : b0.len = 0 := by rw [hl]; simp
          simp only [hi] at hmem
          cases fuel with
          | zero => simp [topStates] at hmem
          | succ fuel =>
            simp only [topStates, h0, if_true, List.mem_singleton, Prod.mk.injEq] at hmem
            obtain ⟨rfl, rfl⟩ := hmem
            simp [Buf.window, h0]
      · obtain ⟨b0, hf, hl, hw, _, hst⟩ := run_filled c fuel wok input hne hbig
        rw [hst] at hmem
        rw [window_slice, ← hl]
        exact (topStates_any c input hh hp fuel wok 0 b0 _ hf
          (by rw [hw, List.drop_zero]) F b hmem).2.2.1
  exact ⟨key, fun h64 => by rw [← capacity_eq c h64]; exact key⟩

/-- C12, two instances: the second iteration of the scenario, after the first
two records were stripped in place and flushed, holds the input bytes 8 to 16;
and with the capacity wrapped around to 2 the second iteration on `aaab` holds
the input bytes 2 to 4. -/
theorem sliding_window_witness :
    ((8, demoBuf2) ∈ runStates demoConfig 3 allOk demoInput ∧
      demoBuf2.window = (demoInput.take
        (min (8 + demoConfig.hashSize * demoConfig.bufferSize) demoInput.length)).drop 8) ∧
    ((2, Buf.mk (ascii "ab") 2) ∈ runStates wrapOneConfig 3 allOk (ascii "aaab") ∧
      (Buf.mk (ascii "ab") 2).window =
        ((ascii "aaab").take (min (2 + wrapOneConfig.capacity) (ascii "aaab").length)).drop 2) :=
  ⟨⟨by decide, (sliding_window demoConfig allOk demoInput (by decide) (by decide)
    3 8 demoBuf2 (by decide)).2 (by decide)⟩,
    ⟨by decide, (sliding_window wrapOneConfig allOk (ascii "aaab") (by decide) (by decide)
    3 2 (Buf.mk (ascii "ab") 2) (by decide)).1⟩⟩

/-- C13, as stated, fails: with records of three bytes and
`--buffer-size 6148914691236517206` the product of line 57 wraps around to the
capacity 2.  On the one record `abc` the buffer of the first iteration holds the
two bytes `ab`, not a multiple of three, and the warning is emitted. -/
theorem buffer_length_invariant_counterexample :
    1 ≤ wrapShortConfig.hashSize ∧ 1 ≤ wrapShortConfig.bufferSize ∧
      wrapShortConfig.bufferSize < 2 ^ 64 ∧
      wrapShortConfig.hashSize ∣ (ascii "abc").length ∧
      (0, Buf.mk (ascii "ab") 2) ∈ runStates wrapShortConfig 1 allOk (ascii "abc") ∧
      ¬ wrapShortConfig.hashSize ∣ (Buf.mk (ascii "ab") 2).len ∧
      Event.warn ∈ (run wrapShortConfig 1 allOk (ascii "abc")).events := by
  decide

/-- C13, amended: buffer length invariant.  For every input whose length is a
multiple of `hashSize` and every configuration in which the buffer length
allocated at line 57, `C = (hashSize * bufferSize) mod 2 ^ 64`, is a multiple of
`hashSize` (as it is when the product is below `2 ^ 64`), whatever the write
oracle: at the top of every loop iteration the buffer length is a multiple of
`hashSize` and at most `C`, hence at most `hashSize * bufferSize`, and the
"buffer not divisible" warning is never emitted. -/
theorem buffer_length_invariant (c : Config) (wok : Nat → Bool) (input : List Byte)
    (hdiv : c.hashSize ∣ c.capacity) (hin : c.hashSize ∣ input.length) :
    ∀ fuel, (∀ F b, (F, b) ∈ runStates c fuel wok input →
        c.hashSize ∣ b.len ∧ b.len ≤ c.capacity ∧ b.len ≤ c.hashSize * c.bufferSize) ∧
      Event.warn ∉ (run c fuel wok input).events := by
  intro fuel
  by_cases hbig : 2 ^ 63 ≤ c.capacity
  · simp only [runStates, run, if_pos hbig]
    simp
  · cases hi : initBuf c input with
    | none =>
      simp only [runStates, run, if_neg hbig, hi]
      simp
    | some r =>
      obtain ⟨b0, rest⟩ := r
      obtain ⟨hl, hrest, _⟩ := initBuf_some c input b0 rest hi
      have hd1 : c.hashSize ∣ b0.len := by
        rw [hl]
        rcases Nat.le_total c.capacity input.length with hle | hle
        · rw [Nat.min_eq_left hle]; exact hdiv
        · rw [Nat.min_eq_right hle]; exact hin
      have hd2 : c.hashSize ∣ rest.length := by
        rw [hrest, List.length_drop]; exact Nat.dvd_sub' hin hdiv
      have hle : b0.len ≤ c.capacity := by rw [hl]; exact Nat.min_le_left _ _
      constructor
      · intro F b hmem
        simp only [runStates, if_neg hbig, hi] at hmem
        obtain ⟨h1, h2⟩ := topStates_length c c.capacity fuel wok 0 b0 rest hd1 hle hd2 F b hmem
        exact ⟨h1, h2, le_trans h2 (capacity_le c)⟩
      · simp only [run, if_neg hbig, hi]
        exact loop_no_warn c fuel wok b0 rest hd1 (by omega) hd2

/-- C13, two instances: the second iteration of the scenario holds two records,
and the run emits no warning; and with the capacity wrapped around to 2, one
record of two bytes, the run on `aaab` emits no warning either. -/
theorem buffer_length_invariant_witness :
    ((8, demoBuf2) ∈ runStates demoConfig 3 allOk demoInput ∧
      (demoConfig.hashSize ∣ demoBuf2.len ∧ demoBuf2.len ≤ demoConfig.capacity ∧
        demoBuf2.len ≤ demoConfig.hashSize * demoConfig.bufferSize) ∧
      Event.warn ∉ (run demoConfig 3 allOk demoInput).events) ∧
    Event.warn ∉ (run wrapOneConfig 3 allOk (ascii "aaab")).events :=
  ⟨⟨by decide,
    (buffer_length_invariant demoConfig allOk demoInput (by decide) (by decide) 3).1 8 demoBuf2
      (by decide),
    (buffer_length_invariant demoConfig allOk demoInput (by decide) (by decide) 3).2⟩,
    (buffer_length_invariant wrapOneConfig allOk (ascii "aaab") (by decide) (by decide) 3).2⟩

/-- C14, as stated, fails: with records of three bytes and
`--buffer-size 6148914691236517206` the product of line 57 wraps around to the
capacity 2, less than one record.  On the one record `abc` the search runs over
no record and returns 0; every iteration writes a file that holds no record, to
the path `a`, and leaves the buffer as it is: three iterations write three files
for one input record. -/
theorem no_empty_shard_counterexample :
    1 ≤ wrapShortConfig.hashSize ∧ 1 ≤ wrapShortConfig.bufferSize ∧
      wrapShortConfig.bufferSize < 2 ^ 64 ∧
      wrapShortConfig.prefixLength ≤ wrapShortConfig.hashSize ∧
      wrapShortConfig.hashSize ∣ (ascii "abc").length ∧
      (0, Buf.mk (ascii "ab") 2) ∈ runStates wrapShortConfig 3 allOk (ascii "abc") ∧
      runLength wrapShortConfig (Buf.mk (ascii "ab") 2) = some 0 ∧
      (run wrapShortConfig 3 allOk (ascii "abc")).shards =
        [Shard.mk (ascii "a") (ascii "a") 0 [] [], Shard.mk (ascii "a") (ascii "a") 0 [] [],
          Shard.mk (ascii "a") (ascii "a") 0 [] []] ∧
      ¬ (run wrapShortConfig 3 allOk (ascii "abc")).shards.length ≤
        (ascii "abc").length / wrapShortConfig.hashSize := by
  decide

/-- C14, amended: no empty shard.  For every input of whole records, sorted or
not, and every configuration with `hashSize ≥ 1` and `prefixLength ≤ hashSize`
whose buffer holds at least one record (`hashSize ≤ C`, where
`C = (hashSize * bufferSize) mod 2 ^ 64` is the length allocated at line 57;
this implies `bufferSize ≥ 1`): at the top of every iteration on a non-empty
buffer the search returns some `i ≥ 1`; every file written holds at least one
record (`count ≥ 1` records, `count * hashSize` input bytes); and the number of
files written is at most the number of input records. -/
theorem no_empty_shard (c : Config) (wok : Nat → Bool) (input : List Byte)
    (hh : 1 ≤ c.hashSize) (hp : c.prefixLength ≤ c.hashSize)
    (hK : c.hashSize ≤ c.capacity) (hin : c.hashSize ∣ input.length) :
    ∀ fuel,
      (∀ F b, (F, b) ∈ runStates c fuel wok input → b.len ≠ 0 →
        ∃ i, runLength c b = some i ∧ 1 ≤ i) ∧
      (∀ s, s ∈ (run c fuel wok input).shards →
        1 ≤ s.count ∧ s.raw.length = s.count * c.hashSize) ∧
      (run c fuel wok input).shards.length ≤ input.length / c.hashSize := by
  intro fuel
  by_cases hbig : 2 ^ 63 ≤ c.capacity
  · simp only [runStates, run, Result.shards, if_pos hbig]
    simp [shardsOf]
  · by_cases hne : input = []
    · subst hne
      simp only [runStates, run, Result.shards, if_neg hbig, initBuf_nil c (by omega)]
      simp [shardsOf]
    · obtain ⟨b0, hf, hl, hw, hrun, hst⟩ := run_filled c fuel wok input hne hbig
      obtain ⟨hc1, hc2, _⟩ := loop_count_any c hh hp fuel wok b0 _ hf (by rw [hl]; exact hK)
        (by rw [hw]; exact hin)
      rw [hw] at hc2
      refine ⟨fun F b hmem hb => ?_, fun s hmem => ?_, ?_⟩
      · rw [hst] at hmem
        obtain ⟨_, hlen, _, h4⟩ := topStates_any c input hh hp fuel wok 0 b0 _ hf
          (by rw [hw, List.drop_zero]) F b hmem
        have hle := h4 (by rw [hl]; exact hK) (by rw [List.drop_zero]; exact hin) hb
        obtain ⟨i, hi, _, _, _, h5⟩ := runLength_spec c b hp hlen
        exact ⟨i, hi, h5 ((Nat.le_div_iff_mul_le (by omega)).mpr (by omega))⟩
      · rw [Result.shards, hrun] at hmem
        exact hc1 s hmem
      · rw [Result.shards, hrun]
        have h1 := length_le_sum_of_pos _ (fun x hx => by
          obtain ⟨s, hs, rfl⟩ := List.mem_map.mp hx
          exact (hc1 s hs).1)
        rw [List.length_map] at h1
        exact le_trans h1 ((Nat.le_div_iff_mul_le (by omega)).mpr hc2)

/-- C14, two instances: the scenario writes two files for four records, the
first of which holds two records; and with the capacity wrapped around to 2,
one record of two bytes, the run on `aaab` writes two files for two records. -/
theorem no_empty_shard_witness :
    (demoShard ∈ (run demoConfig 3 allOk demoInput).shards ∧
      (1 ≤ demoShard.count ∧ demoShard.raw.length = demoShard.count * demoConfig.hashSize) ∧
      (run demoConfig 3 allOk demoInput).shards.length ≤
        demoInput.length / demoConfig.hashSize) ∧
    (run wrapOneConfig 3 allOk (ascii "aaab")).shards.length ≤
      (ascii "aaab").length / wrapOneConfig.hashSize :=
  ⟨⟨by decide,
    (no_empty_shard demoConfig allOk demoInput (by decide) (by decide) (by decide)
      (by decide) 3).2.1 demoShard (by decide),
    (no_empty_shard demoConfig allOk demoInput (by decide) (by decide) (by decide)
      (by decide) 3).2.2⟩,
    (no_empty_shard wrapOneConfig allOk (ascii "aaab") (by decide) (by decide) (by decide)
      (by decide) 3).2.2⟩

/-- C15, `prefixPath` never indexes out of range.  For every template and every
prefix, of any byte values including `'%'`, whose length is at most the number
of `'%'` characters in the template: `prefixPath` returns (no step indexes with
`-1`), before every step the working copy holds a `'%'` at an index inside it,
and the result has the length of the template. -/
theorem prefixPath_in_range (format pfx : List Byte)
    (hlen : pfx.length ≤ countByte format percent) :
    (∃ path, prefixPath pfx format = some path ∧ path.length = format.length) ∧
      ∀ done x rest, pfx = done ++ x :: rest →
        ∃ rv k, prefixPathLoop done format = some rv ∧ indexByte rv percent = some k ∧
          k < rv.length := by
  refine ⟨prefixPathLoop_some pfx format hlen, fun done x rest hsplit => ?_⟩
  subst hsplit
  exact prefixPathLoop_step format done rest x hlen

/-- C15, an instance: the prefix `%a`, shorter than the three wildcards of the
template `%/%%`. -/
theorem prefixPath_in_range_witness :
    (∃ path, prefixPath (ascii "%a") (ascii "%/%%") = some path ∧
        path.length = (ascii "%/%%").length) ∧
      ∀ done x rest, ascii "%a" = done ++ x :: rest →
        ∃ rv k, prefixPathLoop done (ascii "%/%%") = some rv ∧
          indexByte rv percent = some k ∧ k < rv.length :=
  prefixPath_in_range (ascii "%/%%") (ascii "%a") (by decide)

/-- C16, distinct prefixes give distinct paths.  For every template with
exactly `k` `'%'` characters and every two different prefixes of length `k`
neither of which contains the byte `'%'`: `prefixPath` returns two different
paths, so in every run two shards with these prefixes are written to different
files. -/
theorem distinct_paths (format p q : List Byte)
    (hp : p.length = countByte format percent) (hq : q.length = countByte format percent)
    (hnp : ∀ x, x ∈ p → x ≠ percent) (hnq : ∀ x, x ∈ q → x ≠ percent) (hne : p ≠ q) :
    (∃ a b, prefixPath p format = some a ∧ prefixPath q format = some b ∧ a ≠ b) ∧
      ∀ (c : Config) (fuel : Nat) (wok : Nat → Bool) (input : List Byte) (s t : Shard),
        c.pathFormat = format → s ∈ (run c fuel wok input).shards →
        t ∈ (run c fuel wok input).shards → s.pfx = p → t.pfx = q → s.path ≠ t.path := by
  have h1 : prefixPath p format = some (substitute format p) :=
    prefixPathLoop_substitute format p (le_of_eq hp) hnp
  have h2 : prefixPath q format = some (substitute format q) :=
    prefixPathLoop_substitute format q (le_of_eq hq) hnq
  have h3 : substitute format p ≠ substitute format q :=
    fun e => hne (substitute_inj format p q hp hq e)
  refine ⟨⟨_, _, h1, h2, h3⟩, ?_⟩
  intro c fuel wok input s t hc hs ht hsp htq e
  have hs1 := (run_shard_path c fuel wok input s hs).1
  have ht1 := (run_shard_path c fuel wok input t ht).1
  rw [hc, hsp, h1] at hs1
  rw [hc, htq, h2] at ht1
  apply h3
  rw [Option.some.inj hs1, Option.some.inj ht1, e]

/-- C16, an instance: the prefixes `ab1` and `ab2` in the template `%/%%.txt`. -/
theorem distinct_paths_witness :
    (∃ a b, prefixPath (ascii "ab1") (ascii "%/%%.txt") = some a ∧
        prefixPath (ascii "ab2") (ascii "%/%%.txt") = some b ∧ a ≠ b) ∧
      ∀ (c : Config) (fuel : Nat) (wok : Nat → Bool) (input : List Byte) (s t : Shard),
        c.pathFormat = ascii "%/%%.txt" → s ∈ (run c fuel wok input).shards →
        t ∈ (run c fuel wok input).shards → s.pfx = ascii "ab1" → t.pfx = ascii "ab2" →
        s.path ≠ t.path :=
  distinct_paths (ascii "%/%%.txt") (ascii "ab1") (ascii "ab2") (by decide) (by decide)
    (by decide) (by decide) (by decide)

end PwnedSplitter
